import Mathlib

/-!
Verification development for the gcpp deferred heap (`deferred_heap.h`).

The C++ source is shallowly embedded: addresses are natural numbers with `0`
playing the role of the null pointer, the external `gpage` primitive (its
header is not part of the sources here) is modelled from its specified
contract, and type-erased destructor function pointers are identified by a
numeric tag.  Debug assertions are modelled by `Except`-returning variants of
the operations; the plain variants follow the release (`NDEBUG`) semantics of
the same code.
-/

namespace Gcpp

/-- Errors corresponding to the fatal debug assertions and the C++
exceptions that the translated code can produce. -/
inductive CppErr where
  /-- destructors::run: assert(begin < end && "begin must precede end") -/
  | assertBeginEnd
  /-- deferred_heap::allocate: assert(p != nullptr && "failed to allocate but didn't throw an exception") -/
  | assertAllocNonNull
  /-- deferred_heap::construct_array: assert(p != nullptr && "construction at null location") -/
  | assertConstructNull
  /-- destructors::store: assert(p != nullptr && num > 0 && "no object to register for destruction") -/
  | assertStoreArgs
  /-- std::bad_alloc propagating out of pages.emplace_back when the OS layer
  cannot provide memory for a new page -/
  | badAlloc
  deriving DecidableEq, Repr

/-- One entry of the destructor registry, `destructors::destructor` in the
source: base address `p`, element size, element count `n`, and the
type-erased destroy-one function pointer (modelled by the tag `tid`). -/
structure Destructor where
  p : Nat
  size : Nat
  n : Nat
  tid : Nat
  deriving DecidableEq, Repr

/-- Events observable during destruction and collection: a tracked pointer
being reset to null (phase 3), a registry entry being moved out of the
registry (the erase half of `destructors::run`), and a destructor function
being invoked on an address. -/
inductive Ev where
  | reset (addr : Nat)
  | extracted (addr : Nat)
  | invoke (tid : Nat) (addr : Nat)
  deriving DecidableEq, Repr

/-- Whether a destructor entry's base lies in `[b, e)` — the selection
predicate of `destructors::run`. -/
def dtorInRange (b e : Nat) (d : Destructor) : Bool :=
  decide (b ≤ d.p ∧ d.p < e)

/-- The erase loop of `destructors::run`: walk the registry once, moving
entries whose base lies in `[b, e)` to a local `to_destroy` list and keeping
the others, preserving relative order of both (mirrors the
`it = dtors.erase(it)` / `++it` loop).  Returns `(kept, to_destroy)`. -/
def runSplit (ds : List Destructor) (b e : Nat) : List Destructor × List Destructor :=
  match ds with
  | [] => ([], [])
  | d :: rest =>
    let r := runSplit rest b e
    if dtorInRange b e d then (r.1, d :: r.2) else (d :: r.1, r.2)

/-- The invocation loop of `destructors::run` / `run_all`: for each extracted
entry, call `destroy` on `p + size*i` for `i ∈ [0, n)`. -/
def invokeEvents (td : List Destructor) : List Ev :=
  td.flatMap (fun d => (List.range d.n).map (fun i => Ev.invoke d.tid (d.p + d.size * i)))

/-- `destructors::run(begin, end)` with release semantics: split the registry,
then run the extracted destructors; the result is the new registry contents,
the event trace (all erasures strictly before all invocations), and the
`bool` return value. -/
def dtorsRun (ds : List Destructor) (b e : Nat) : List Destructor × List Ev × Bool :=
  let s := runSplit ds b e
  (s.1, s.2.map (fun d => Ev.extracted d.p) ++ invokeEvents s.2, !s.2.isEmpty)

/-- `destructors::run` with its debug assertion `begin < end`. -/
def dtorsRunD (ds : List Destructor) (b e : Nat) :
    Except CppErr (List Destructor × List Ev × Bool) :=
  if b < e then .ok (dtorsRun ds b e) else .error .assertBeginEnd

/-- `destructors::store(p, num)` for a non-trivially-destructible type:
append the entry `{p, sizeof(T), num, dtor}`. -/
def dtorsStore (ds : List Destructor) (p size n tid : Nat) : List Destructor :=
  ds ++ [⟨p, size, n, tid⟩]

/-- `destructors::store` with its debug assertion `p != nullptr && num > 0`. -/
def dtorsStoreD (ds : List Destructor) (p size n tid : Nat) :
    Except CppErr (List Destructor) :=
  if p ≠ 0 ∧ 0 < n then .ok (dtorsStore ds p size n tid) else .error .assertStoreArgs

/-- The sequence of addresses at which `deferred_heap::construct_array(p, n)`
placement-constructs elements: the loop body is literally `::new (p) T{}`,
so every one of the `n` constructions happens at `p` itself. -/
def constructArrayAddrs (p n : Nat) : List Nat :=
  (List.range n).map (fun _ => p)

/-- Modelled from the spec: §4.4 treats per-element construction as the
intended semantics of `make_array`, i.e. element `i` is constructed at
`p + i*sizeof(T)`. -/
def specConstructArrayAddrs (p size n : Nat) : List Nat :=
  (List.range n).map (fun i => p + size * i)

/-- `deferred_heap::construct_array` under debug assertions: assert `p`
non-null, run `destroy_objects(p, p + n*sizeof(T))` (which asserts
`begin < end`), construct, then `dtors.store(p, n)` (which asserts `n > 0`).
Returns the new registry, the destruction events and the construction
addresses. -/
def constructArrayD (ds : List Destructor) (p size n tid : Nat) :
    Except CppErr (List Destructor × List Ev × List Nat) := do
  if p = 0 then throw .assertConstructNull
  let r ← dtorsRunD ds p (p + size * n)
  let ds2 ← dtorsStoreD r.1 p size n tid
  pure (ds2, r.2.1, constructArrayAddrs p n)

/-- `make_array<T>(n)` after `allocate<T>(n)` has produced `allocRes`
(`none` models a null `T*` coming back from the backing page, which
`allocate` rejects with its non-null assertion before `make_array` ever
tests the pointer).  The gpage allocator itself is external, so its result
is a parameter. -/
def makeArrayD (allocRes : Option Nat) (ds : List Destructor) (size n tid : Nat) :
    Except CppErr (Nat × List Destructor) := do
  match allocRes with
  | none => throw .assertAllocNonNull
  | some p =>
    let r ← constructArrayD ds p size n tid
    pure (p, r.1)

/-- The byte size of a fresh `dhpage` built with hint size `s` for a request
of `n` objects: the source computes `std::max<size_t>(sizeof(Hint)*n*2.62,
4096)`, i.e. the double product truncated to an integer; `2.62 = 131/50`
exactly, and the truncation is the floor of the rational product. -/
def dhpageTotalBytes (s n : Nat) : Nat :=
  max (s * n * 131 / 50) 4096

/-- The minimum chunk size of a fresh `dhpage`:
`std::max<size_t>(sizeof(Hint), 4)`. -/
def dhpageMinAlloc (s : Nat) : Nat :=
  max s 4

/-- Ceiling of `2.62 * n` (the quantity the spec sizes pages by). -/
def ceil262 (n : Nat) : Nat :=
  (131 * n + 49) / 50

/-- Per-location occupancy state of a page: free, start of an allocation, or
interior (middle) of an allocation. -/
inductive Loc where
  | free
  | strt
  | mid
  deriving DecidableEq, Repr

/-- The result classification of `gpage::contains_info`. -/
inductive Found where
  | notInRange
  | inRangeUnallocated
  | inRangeAllocatedMiddle
  | inRangeAllocatedStart
  deriving DecidableEq, Repr

/-- The record returned by `gpage::contains_info`. -/
structure ContainsInfo where
  found : Found
  startLocation : Nat
  deriving DecidableEq, Repr

/-- Modelled from the spec: the external `gpage` primitive (its header is not
among the sources) — a contiguous byte region starting at `base`, divided
into `locs.length` locations of `minAlloc` bytes each, with per-location
start/middle/free bookkeeping. -/
structure GPage where
  base : Nat
  minAlloc : Nat
  locs : List Loc
  deriving DecidableEq, Repr

namespace GPage

/-- Total byte size of the page. -/
def totalSize (g : GPage) : Nat :=
  g.minAlloc * g.locs.length

/-- `gpage::contains(addr)`: the address lies within the page's byte range. -/
def contains (g : GPage) (p : Nat) : Bool :=
  decide (g.base ≤ p ∧ p < g.base + g.totalSize)

/-- Index of the location holding byte `p` (meaningful when `contains`). -/
def locIndex (g : GPage) (p : Nat) : Nat :=
  (p - g.base) / g.minAlloc

/-- Walk back from location `i` over interior locations to the index that
begins the run (the allocation's start location for a well-formed page). -/
def backStart (locs : List Loc) : Nat → Nat
  | 0 => 0
  | i + 1 => if locs.getD (i + 1) .free = .mid then backStart locs i else i + 1

/-- Modelled from the spec: `gpage::contains_info(addr)` — classify the
address and report the start location of the allocation containing it. -/
def containsInfo (g : GPage) (p : Nat) : ContainsInfo :=
  if g.contains p then
    let i := g.locIndex p
    match g.locs.getD i .free with
    | .free => ⟨.inRangeUnallocated, i⟩
    | .strt => ⟨.inRangeAllocatedStart, i⟩
    | .mid => ⟨.inRangeAllocatedMiddle, backStart g.locs i⟩
  else ⟨.notInRange, 0⟩

/-- `gpage::location_info(i).pointer`: the byte address of location `i`
(index `locs.length` yields the one-past-the-end sentinel). -/
def locPtr (g : GPage) (i : Nat) : Nat :=
  g.base + g.minAlloc * i

/-- `gpage::location_info(i).is_start`. -/
def isStart (g : GPage) (i : Nat) : Bool :=
  g.locs.getD i .free = .strt

/-- Free consecutive interior locations from index `j` on (the tail of a
deallocation); `fuel` bounds the walk by the page length. -/
def freeMids (fuel : Nat) (locs : List Loc) (j : Nat) : List Loc :=
  match fuel with
  | 0 => locs
  | f + 1 =>
    if locs.getD j .free = .mid then freeMids f (locs.set j .free) (j + 1) else locs

/-- Free the allocation whose start is location `i`: the start location and
the run of middles following it. -/
def freeRun (locs : List Loc) (i : Nat) : List Loc :=
  freeMids locs.length (locs.set i .free) (i + 1)

/-- Modelled from the spec: `gpage::deallocate(addr)` — free the allocation
starting at `addr`'s location. -/
def deallocate (g : GPage) (p : Nat) : GPage :=
  { g with locs := freeRun g.locs (g.locIndex p) }

/-- Scan for the first index `i ≤ locs.length - k` such that the `k`
locations starting at `i` are all free (`fuel` bounds the scan). -/
def findRun (locs : List Loc) (k : Nat) : Nat → Nat → Option Nat
  | _, 0 => none
  | i, fuel + 1 =>
    if i + k ≤ locs.length then
      if (List.range k).all (fun j => locs.getD (i + j) .free = .free) then
        some i
      else
        findRun locs k (i + 1) fuel
    else none

/-- Mark locations `i, i+1, …, i+k-1` as an allocation: a start followed by
middles. -/
def markRun (locs : List Loc) (i k : Nat) : List Loc :=
  (List.range k).foldl
    (fun acc j => acc.set (i + j) (if j = 0 then Loc.strt else Loc.mid)) locs

/-- Modelled from the spec: `gpage::allocate<T>(n)` — find the first
contiguous run of `ceil(bytes / min_alloc)` free locations; return null
(`none`) when the page has no such run.  Returns the updated page and the
byte address of the run's first location. -/
def allocate (g : GPage) (bytes : Nat) : Option (GPage × Nat) :=
  if g.minAlloc = 0 then none
  else
    let k := (bytes + g.minAlloc - 1) / g.minAlloc
    match findRun g.locs k 0 (g.locs.length + 1) with
    | some i => some ({ g with locs := markRun g.locs i k }, g.locPtr i)
    | none => none

end GPage

/-- A non-root tracked-pointer record (`deferred_heap::nonroot`): the address
of the `deferred_ptr_void` object itself, its current raw value (read through
`p->get()`, written through `reset()`; `0` is null), and the mark level.  The
raw value is stored inline because registration is unique: exactly one record
tracks any live pointer. -/
structure NonRoot where
  addr : Nat
  raw : Nat
  level : Nat
  deriving DecidableEq, Repr

instance : Inhabited NonRoot :=
  ⟨⟨0, 0, 0⟩⟩

/-- A root tracked pointer (an element of `deferred_heap::roots`): its own
address (the `unordered_set` key) and its raw value. -/
structure RootPtr where
  addr : Nat
  raw : Nat
  deriving DecidableEq, Repr

/-- `deferred_heap::dhpage`: one gpage, its live-starts bitmap, and the
non-root records living in it. -/
structure DHPage where
  page : GPage
  liveStarts : List Bool
  dptrs : List NonRoot
  deriving DecidableEq, Repr

instance : Inhabited DHPage :=
  ⟨⟨⟨0, 0, []⟩, [], []⟩⟩

/-- The deferred heap's state: pages, roots, destructor registry and the two
policy/teardown flags. -/
structure Heap where
  pages : List DHPage
  roots : List RootPtr
  dtors : List Destructor
  isDestroying : Bool
  collectBeforeExpand : Bool
  deriving DecidableEq, Repr

/-- The empty heap (the state of a freshly constructed `deferred_heap`). -/
def emptyHeap : Heap :=
  ⟨[], [], [], false, false⟩

/-- The inner loop of `deferred_heap::mark` once the containing page is
found: set the allocation's start bit in `live_starts`, then give level `L`
to every record of this page whose own address lies in the same allocation
(same `start_location`) and whose level is still `0`.  As in the release
build, only the start locations are compared. -/
def markPage (pg : DHPage) (s L : Nat) : DHPage :=
  { pg with
    liveStarts := pg.liveStarts.set s true
    dptrs := pg.dptrs.map (fun dp =>
      if (pg.page.containsInfo dp.addr).startLocation = s ∧ dp.level = 0 then
        { dp with level := L }
      else dp) }

/-- The page-search loop of `deferred_heap::mark`: find the first page whose
`contains_info` is not `not_in_range`, mark inside it, and `break`. -/
def markGo (pages : List DHPage) (p L : Nat) : List DHPage :=
  match pages with
  | [] => []
  | pg :: rest =>
    let ci := pg.page.containsInfo p
    if ci.found ≠ .notInRange then markPage pg ci.startLocation L :: rest
    else pg :: markGo rest p L

/-- `deferred_heap::mark(p, level)`: return immediately on null, otherwise
mark inside the first page containing `p`. -/
def mark (pages : List DHPage) (p L : Nat) : List DHPage :=
  if p = 0 then pages else markGo pages p L

/-- The root loop opening phase 2: `mark(root.get(), 1)` for each root. -/
def markRoots (pages : List DHPage) (roots : List RootPtr) : List DHPage :=
  roots.foldl (fun pgs r => mark pgs r.raw 1) pages

/-- All `(page index, record index)` positions of a page list, in iteration
order.  Marking changes no list length, so the positions computed before a
pass stay valid throughout it. -/
def positionsOf (pages : List DHPage) : List (Nat × Nat) :=
  (List.range pages.length).flatMap (fun pi =>
    (List.range ((pages.getD pi default).dptrs.length)).map (fun ri => (pi, ri)))

/-- Look up the record at a `(page index, record index)` position. -/
def getRec (pages : List DHPage) (pos : Nat × Nat) : Option NonRoot :=
  match pages.get? pos.1 with
  | some pg => pg.dptrs.get? pos.2
  | none => none

/-- One step of a marking pass: if the record at this position currently has
level `L - 1`, set `done = false` and mark from its raw value at level `L`. -/
def passStep (L : Nat) (acc : List DHPage × Bool) (pos : Nat × Nat) :
    List DHPage × Bool :=
  match getRec acc.1 pos with
  | some dp => if dp.level = L - 1 then (mark acc.1 dp.raw L, true) else acc
  | none => acc

/-- One full pass of phase 2 at level `L` over every record of every page;
the boolean is `true` when the pass found a record at level `L - 1`
(the negation of the loop's `done`). -/
def pass (pages : List DHPage) (L : Nat) : List DHPage × Bool :=
  (positionsOf pages).foldl (passStep L) (pages, false)

/-- Total number of non-root records in the heap. -/
def numRecords (pages : List DHPage) : Nat :=
  (pages.map (fun pg => pg.dptrs.length)).sum

/-- Number of records still at level `0`. -/
def countZero (pages : List DHPage) : Nat :=
  (pages.map (fun pg => pg.dptrs.countP (fun dp => dp.level = 0))).sum

/-- What one executed pass of phase 2 did: whether it found a record at the
previous level, and how many records it assigned a (positive) level to. -/
structure PassInfo where
  found : Bool
  assigned : Nat
  deriving DecidableEq, Repr

/-- The `while (!done)` loop of phase 2, at pass level `L`, with explicit
fuel: run a pass; if it found a record at `L - 1`, continue at `L + 1`.
Returns the final pages, the per-pass log, and whether the loop reached its
exit condition before the fuel ran out. -/
def phase2go : Nat → List DHPage → Nat → List DHPage × List PassInfo × Bool
  | 0, pgs, _ => (pgs, [], false)
  | fuel + 1, pgs, L =>
    let pr := pass pgs L
    let info : PassInfo := ⟨pr.2, countZero pgs - countZero pr.1⟩
    if pr.2 then
      let r := phase2go fuel pr.1 (L + 1)
      (r.1, info :: r.2.1, r.2.2)
    else (pr.1, [info], true)

/-- Phase 2 of `collect` after the roots have been marked: the level loop,
started at level 2, with enough fuel for the worst case. -/
def phase2 (pages : List DHPage) : List DHPage × List PassInfo × Bool :=
  phase2go (numRecords pages + 2) pages 2

/-- Phase 1 of `collect`: clear every live-starts bitmap and zero every
record level. -/
def phase1 (h : Heap) : Heap :=
  { h with pages := h.pages.map (fun pg =>
      { pg with
        liveStarts := List.replicate pg.liveStarts.length false
        dptrs := pg.dptrs.map (fun dp => { dp with level := 0 }) }) }

/-- Phase 3 of `collect`: reset to null every record still at level `0`,
emitting one reset event per record, in heap order. -/
def phase3 (h : Heap) : Heap × List Ev :=
  ({ h with pages := h.pages.map (fun pg =>
      { pg with dptrs := pg.dptrs.map (fun dp =>
          if dp.level = 0 then { dp with raw := 0 } else dp) }) },
   h.pages.flatMap (fun pg =>
     (pg.dptrs.filter (fun dp => dp.level = 0)).map (fun dp => Ev.reset dp.addr)))

/-- Whether address `a` lies in the byte range of some extracted destructor
entry (the objects actually being destroyed). -/
def inDtorRanges (td : List Destructor) (a : Nat) : Bool :=
  td.any (fun d => decide (d.p ≤ a ∧ a < d.p + d.size * d.n))

/-- The canonical effect of running the destructors of the extracted
entries: every tracked pointer embedded in a destroyed object is itself
destroyed and deregisters, removing its record.  (The model's destructors
perform no other heap mutation.) -/
def removeRecs (pages : List DHPage) (td : List Destructor) : List DHPage :=
  pages.map (fun pg =>
    { pg with dptrs := pg.dptrs.filter (fun dp => !inDtorRanges td dp.addr) })

/-- The end-of-allocation scan of phase 4: the pointer of the next start
location after `i`, or the page's sentinel end if there is none. -/
def findEndPtr (g : GPage) (i : Nat) : Nat :=
  match ((List.range (g.locs.length - (i + 1))).map (fun k => i + 1 + k)).find?
      (fun j => g.isStart j) with
  | some j => g.locPtr j
  | none => g.locPtr g.locs.length

/-- Replace page `pi` of the heap by `f` applied to it. -/
def updatePage (pages : List DHPage) (pi : Nat) (f : DHPage → DHPage) :
    List DHPage :=
  match pages, pi with
  | [], _ => []
  | pg :: rest, 0 => f pg :: rest
  | pg :: rest, pi + 1 => pg :: updatePage rest pi f

/-- One candidate position of phase 4's sweep: if location `i` of page `pi`
is currently an allocation start whose live bit is unset, run the
destructors registered in `[start, end)` (removing their entries and, as
their effect, the records of the destroyed objects) and deallocate the
allocation. -/
def sweepLoc (acc : Heap × List Ev) (pos : Nat × Nat) : Heap × List Ev :=
  let h := acc.1
  match h.pages.get? pos.1 with
  | none => acc
  | some pg =>
    let i := pos.2
    if pg.page.isStart i ∧ pg.liveStarts.getD i false = false then
      let st := pg.page.locPtr i
      let en := findEndPtr pg.page i
      let s := runSplit h.dtors st en
      let evs := s.2.map (fun d => Ev.extracted d.p) ++ invokeEvents s.2
      let pages1 := removeRecs h.pages s.2
      let pages2 := updatePage pages1 pos.1
        (fun q => { q with page := q.page.deallocate st })
      ({ h with pages := pages2, dtors := s.1 }, acc.2 ++ evs)
    else acc

/-- All `(page index, location index)` positions phase 4 visits, in order. -/
def sweepPositions (pages : List DHPage) : List (Nat × Nat) :=
  (List.range pages.length).flatMap (fun pi =>
    (List.range ((pages.getD pi default).page.locs.length)).map (fun i => (pi, i)))

/-- Phase 4 of `collect`: walk every location of every page in order,
destroying and deallocating every allocation whose start's live bit is
unset. -/
def phase4 (h : Heap) : Heap × List Ev :=
  (sweepPositions h.pages).foldl sweepLoc (h, [])

/-- The heap state entering phase 3 of `collect h`: phase 1, the root marks,
then the phase 2 level loop. -/
def afterMarking (h : Heap) : Heap :=
  let h1 := phase1 h
  { h1 with pages := (phase2 (markRoots h1.pages h1.roots)).1 }

/-- `deferred_heap::collect()`: the four phases, with the event trace of
phases 3 and 4. -/
def collect (h : Heap) : Heap × List Ev :=
  let h2 := afterMarking h
  let p3 := phase3 h2
  let p4 := phase4 p3.1
  (p4.1, p3.2 ++ p4.2)

/-- `deferred_heap::find_dhpage_of`: index of the first page whose byte
range contains `a`, if any. -/
def findDhpageIdx (pages : List DHPage) (a : Nat) : Option Nat :=
  (List.range pages.length).find? (fun pi => (pages.getD pi default).page.contains a)

/-- The addresses of all registered tracked pointers (roots first, then every
page's non-root list). -/
def registeredAddrs (h : Heap) : List Nat :=
  h.roots.map (fun r => r.addr) ++ h.pages.flatMap (fun pg => pg.dptrs.map (fun dp => dp.addr))

/-- Whether a tracked pointer with own address `a` is registered. -/
def isRegistered (h : Heap) (a : Nat) : Prop :=
  a ∈ registeredAddrs h

instance (h : Heap) (a : Nat) : Decidable (isRegistered h a) := by
  unfold isRegistered; infer_instance

/-- The raw value of the registered tracked pointer with own address `a`
(roots searched first, then the pages). -/
def rawOf (h : Heap) (a : Nat) : Option Nat :=
  match h.roots.find? (fun r => r.addr = a) with
  | some r => some r.raw
  | none =>
    match (h.pages.flatMap (fun pg => pg.dptrs)).find? (fun dp => dp.addr = a) with
    | some dp => some dp.raw
    | none => none

/-- `deferred_heap::enregister`: append the pointer to the non-root list of
the first page containing its own address, or insert it into the root set. -/
def enregister (h : Heap) (a raw : Nat) : Heap :=
  match findDhpageIdx h.pages a with
  | some pi =>
    { h with pages :=
        updatePage h.pages pi (fun pg => { pg with dptrs := pg.dptrs ++ [⟨a, raw, 0⟩] }) }
  | none => { h with roots := h.roots ++ [⟨a, raw⟩] }

/-- The swap-with-last removal of `deferred_heap::deregister`: overwrite the
last occurrence of `a` (the first found when scanning from the back) with the
list's last element, then pop the back. -/
def swapRemove (l : List NonRoot) (a : Nat) : List NonRoot :=
  if l.any (fun dp => dp.addr = a) then
    let k := l.length - 1 - l.reverse.findIdx (fun dp => dp.addr = a)
    (l.set k (l.getD (l.length - 1) default)).dropLast
  else l

/-- `deferred_heap::deregister`: erase from the root set if present there,
otherwise swap-remove from the first page whose non-root list holds the
address.  (During heap teardown the real code returns immediately; the step
relation below never runs with `is_destroying` set.) -/
def deregister (h : Heap) (a : Nat) : Heap :=
  if h.roots.any (fun r => r.addr = a) then
    { h with roots := h.roots.filter (fun r => r.addr ≠ a) }
  else
    match (List.range h.pages.length).find?
        (fun pi => (h.pages.getD pi default).dptrs.any (fun dp => dp.addr = a)) with
    | some pi =>
      { h with pages :=
          updatePage h.pages pi (fun pg => { pg with dptrs := swapRemove pg.dptrs a }) }
    | none => h

/-- Overwrite the raw value of the registered pointer with address `a`
(`deferred_ptr` assignment: copies the raw value, no re-registration). -/
def setRaw (h : Heap) (a v : Nat) : Heap :=
  { h with
    roots := h.roots.map (fun r => if r.addr = a then { r with raw := v } else r)
    pages := h.pages.map (fun pg =>
      { pg with dptrs := pg.dptrs.map (fun dp =>
          if dp.addr = a then { dp with raw := v } else dp) }) }

/-- `deferred_heap::allocate_from_existing_pages`: try each page in order,
first success wins. -/
def allocFromExisting (pages : List DHPage) (bytes : Nat) :
    Option (List DHPage × Nat) :=
  match pages with
  | [] => none
  | pg :: rest =>
    match pg.page.allocate bytes with
    | some r => some ({ pg with page := r.1 } :: rest, r.2)
    | none =>
      match allocFromExisting rest bytes with
      | some r => some (pg :: r.1, r.2)
      | none => none

/-- A fresh `dhpage` as built by `allocate`'s expansion step: a page sized by
the hint rule with an all-false live-starts bitmap and no records.  The OS
either provides the backing bytes (`some base`) or fails. -/
def freshDhpage (base s n : Nat) : DHPage :=
  let bytes := dhpageTotalBytes s n
  let chunk := dhpageMinAlloc s
  let pg : GPage := ⟨base, chunk, List.replicate (bytes / chunk) Loc.free⟩
  ⟨pg, List.replicate (bytes / chunk) false, []⟩

/-- `deferred_heap::allocate<T>(n)` for `sizeT`-byte objects: try existing
pages; optionally collect and retry; otherwise append a new page — `osBase`
is the base address the OS provides for it, `none` meaning the allocation of
the page's backing storage throws `std::bad_alloc` — and allocate from it,
asserting the result non-null. -/
def heapAllocate (h : Heap) (sizeT n : Nat) (osBase : Option Nat) :
    Except CppErr (Heap × Nat) :=
  let bytes := sizeT * n
  match allocFromExisting h.pages bytes with
  | some r => .ok ({ h with pages := r.1 }, r.2)
  | none =>
    let h1 := if h.collectBeforeExpand then (collect h).1 else h
    match allocFromExisting h1.pages bytes with
    | some r => .ok ({ h1 with pages := r.1 }, r.2)
    | none =>
      match osBase with
      | none => .error .badAlloc
      | some base =>
        let fp := freshDhpage base sizeT n
        match fp.page.allocate bytes with
        | some r =>
          .ok ({ h1 with pages := h1.pages ++ [{ fp with page := r.1 }] }, r.2)
        | none => .error .assertAllocNonNull

/-- `deferred_heap::make<T>`: allocate, and on success construct in place and
register the destructor; the returned value is the raw pointer wrapped by the
returned `deferred_ptr<T>` (`none` would be the null pointer the sources'
comments promise on allocation failure). -/
def heapMake (h : Heap) (sizeT tid : Nat) (osBase : Option Nat) :
    Except CppErr (Heap × Option Nat) :=
  match heapAllocate h sizeT 1 osBase with
  | .ok r => .ok ({ r.1 with dtors := dtorsStore r.1.dtors r.2 sizeT 1 tid }, some r.2)
  | .error e => .error e

/-- Forward evolution of records during a marking pass at level `L`: every
record of the evolved state sits at the position of an original record and is
either unchanged or was assigned level `L` while at level `0`. -/
def Evol (L : Nat) (pgs pgs2 : List DHPage) : Prop :=
  ∀ pos dp2, getRec pgs2 pos = some dp2 →
    ∃ dp, getRec pgs pos = some dp ∧
      (dp2 = dp ∨ (dp.level = 0 ∧ dp2 = { dp with level := L }))

/-- Records with a positive level are never touched again by marking. -/
def Frozen (pgs pgs2 : List DHPage) : Prop :=
  ∀ pos dp, getRec pgs pos = some dp → 0 < dp.level → getRec pgs2 pos = some dp

/-- Some record currently holds level `ℓ`. -/
def Attains (pgs : List DHPage) (ℓ : Nat) : Prop :=
  ∃ pos dp, getRec pgs pos = some dp ∧ dp.level = ℓ

instance : Inhabited PassInfo :=
  ⟨⟨false, 0⟩⟩

/-- The per-pass log of phase 2 of `collect h` (what each executed pass of
the marking loop found and assigned). -/
def passLogOf (h : Heap) : List PassInfo :=
  (phase2 (markRoots (phase1 h).pages (phase1 h).roots)).2.1

/-- A concrete heap for the marking loop: one page at base 1000 with two
one-chunk allocations; record A (at 1000) points to the second allocation,
record B (at 1008) points back to the first, and a stack root points to the
first — a rooted two-cycle. -/
def hRootedCycle : Heap :=
  ⟨[⟨⟨1000, 8, [.strt, .strt]⟩, [false, false], [⟨1000, 1008, 0⟩, ⟨1008, 1000, 0⟩]⟩],
   [⟨50, 1000⟩], [], false, false⟩

/-- A three-object cycle (1000 → 1008 → 1016 → 1000) with every root
dropped: the spec's deep-cycle collection scenario. -/
def hDroppedCycle : Heap :=
  ⟨[⟨⟨1000, 8, [.strt, .strt, .strt]⟩, [false, false, false],
     [⟨1000, 1008, 0⟩, ⟨1008, 1016, 0⟩, ⟨1016, 1000, 0⟩]⟩],
   [], [⟨1000, 8, 1, 7⟩, ⟨1008, 8, 1, 7⟩, ⟨1016, 8, 1, 7⟩], false, false⟩

/-- Structural well-formedness of one heap page: a positive chunk size (the
location index computation divides by it) and a live-starts bitmap of one bit
per location, exactly as `dhpage`'s constructor builds it. -/
def WfPage (pg : DHPage) : Prop :=
  0 < pg.page.minAlloc ∧ pg.liveStarts.length = pg.page.locs.length

/-- All pages of a heap are structurally well-formed. -/
def WfPages (pgs : List DHPage) : Prop :=
  ∀ pg ∈ pgs, WfPage pg

instance (pg : DHPage) : Decidable (WfPage pg) := by
  unfold WfPage; infer_instance

instance (pgs : List DHPage) : Decidable (WfPages pgs) := by
  unfold WfPages; exact List.decidableBAll _ pgs

/-- The page-by-page guarantee a completed `mark(p, ·)` call leaves behind,
mirroring the search loop of `mark` itself: in the first page whose range
contains `p`, the live bit of `p`'s allocation start is set and every record
of that page lying in the same allocation carries a positive level. -/
def markEffectGo (pgs : List DHPage) (p : Nat) : Prop :=
  match pgs with
  | [] => True
  | pg :: rest =>
    if (pg.page.containsInfo p).found ≠ .notInRange then
      pg.liveStarts.getD (pg.page.containsInfo p).startLocation false = true ∧
      ∀ dp ∈ pg.dptrs, (pg.page.containsInfo dp.addr).startLocation =
          (pg.page.containsInfo p).startLocation → 0 < dp.level
    else markEffectGo rest p

/-- `mark`'s guarantee, including the null shortcut. -/
def MarkEffect (pgs : List DHPage) (p : Nat) : Prop :=
  p = 0 ∨ markEffectGo pgs p

/-- Address `p` points into a condemned allocation: in the first page whose
range contains `p`, the location is allocated but the allocation start's live
bit is unset (phase 4 will destroy and deallocate it). -/
def condemnedGo (pgs : List DHPage) (p : Nat) : Prop :=
  match pgs with
  | [] => False
  | pg :: rest =>
    if (pg.page.containsInfo p).found ≠ .notInRange then
      (pg.page.containsInfo p).found ≠ .inRangeUnallocated ∧
      pg.liveStarts.getD (pg.page.containsInfo p).startLocation false = false
    else condemnedGo rest p

/-- A non-null tracked pointer into a condemned allocation. -/
def CondemnedTarget (pgs : List DHPage) (p : Nat) : Prop :=
  p ≠ 0 ∧ condemnedGo pgs p

/-- Every record with a positive level has had `mark` run on its raw value
(the fixed point phase 2 reaches). -/
def Saturated (pgs : List DHPage) : Prop :=
  ∀ pos dp, getRec pgs pos = some dp → 0 < dp.level → MarkEffect pgs dp.raw

/-- Every record whose level lies in `(0, bound]` has been processed. -/
def Processed (pgs : List DHPage) (bound : Nat) : Prop :=
  ∀ pos dp, getRec pgs pos = some dp → 0 < dp.level → dp.level ≤ bound →
    MarkEffect pgs dp.raw

/-- All record levels are below `L`. -/
def LevelsLt (pgs : List DHPage) (L : Nat) : Prop :=
  ∀ pos dp, getRec pgs pos = some dp → dp.level < L

/-- Two heap pages with non-overlapping byte ranges (fresh pages come from
distinct OS allocations). -/
def pageRangesDisjoint (a b : DHPage) : Prop :=
  a.page.base + a.page.totalSize ≤ b.page.base ∨
  b.page.base + b.page.totalSize ≤ a.page.base

instance (a b : DHPage) : Decidable (pageRangesDisjoint a b) := by
  unfold pageRangesDisjoint; infer_instance

/-- All pages pairwise non-overlapping. -/
def pagesDisjoint (pgs : List DHPage) : Prop :=
  List.Pairwise pageRangesDisjoint pgs

/-- Whether `p` lies at an allocated (start or middle) location of the first
page whose range contains it — the byte classification of spec invariant 3. -/
def allocatedB (pgs : List DHPage) (p : Nat) : Bool :=
  match pgs with
  | [] => false
  | pg :: rest =>
    if (pg.page.containsInfo p).found ≠ .notInRange then
      decide ((pg.page.containsInfo p).found = .inRangeAllocatedStart ∨
        (pg.page.containsInfo p).found = .inRangeAllocatedMiddle)
    else allocatedB rest p

/-- Address `p` lies at an allocated location whose allocation's live bit is
set (used to show phase 4 does not free it). -/
def liveAllocGo (pgs : List DHPage) (p : Nat) : Prop :=
  match pgs with
  | [] => False
  | pg :: rest =>
    if (pg.page.containsInfo p).found ≠ .notInRange then
      ((pg.page.containsInfo p).found = .inRangeAllocatedStart ∨
        (pg.page.containsInfo p).found = .inRangeAllocatedMiddle) ∧
      pg.liveStarts.getD (pg.page.containsInfo p).startLocation false = true
    else liveAllocGo rest p

/-- The gpage components of a page list (collection never changes them
except phase 4's deallocations). -/
def gpagesOf (pgs : List DHPage) : List GPage :=
  pgs.map (fun pg => pg.page)

/-- The gpage and live-bitmap components (phase 3 changes neither). -/
def obsOf (pgs : List DHPage) : List (GPage × List Bool) :=
  pgs.map (fun pg => (pg.page, pg.liveStarts))

/-- The shape of each page: base, chunk size, location count (preserved by
every heap operation including deallocation). -/
def shapesOf (pgs : List DHPage) : List (Nat × Nat × Nat) :=
  pgs.map (fun pg => (pg.page.base, pg.page.minAlloc, pg.page.locs.length))

/-- How many tracking entries a heap holds for the pointer address `a`
(roots plus every page's non-root list). -/
def regCount (h : Heap) (a : Nat) : Nat :=
  h.roots.countP (fun r => decide (r.addr = a)) +
  (h.pages.map (fun pg => pg.dptrs.countP (fun dp => decide (dp.addr = a)))).sum

/-- The registration invariant of the claim: roots lie outside every page,
every non-root record lies (by its own address) inside its own page, and no
pointer address is tracked more than once. -/
def RegInv (h : Heap) : Prop :=
  (∀ r ∈ h.roots, ∀ pg ∈ h.pages, pg.page.contains r.addr = false) ∧
  (∀ pg ∈ h.pages, ∀ dp ∈ pg.dptrs, pg.page.contains dp.addr = true) ∧
  (∀ a, regCount h a ≤ 1)

/-- Spec invariant 3: every tracked pointer's raw value is null or an
allocated byte of some page. -/
def RawInv (h : Heap) : Prop :=
  (∀ r ∈ h.roots, r.raw = 0 ∨ allocatedB h.pages r.raw = true) ∧
  (∀ pg ∈ h.pages, ∀ dp ∈ pg.dptrs, dp.raw = 0 ∨ allocatedB h.pages dp.raw = true)

/-- The public operations of the heap, as a step relation on heap states:
tracked-pointer construction (null, copy, or aliasing an allocated heap
byte — the amended `pointer_to`, and the pointer `make` returns), pointer
destruction, assignment, destructor registration, the policy setter, gpage
allocation inside a page, appending a fresh page, and collection.  Fresh
pages are disjoint from existing pages and from every registered pointer
address (they are newly obtained memory). -/
inductive HStep : Heap → Heap → Prop where
  | newNull (h : Heap) (a : Nat) (hfresh : ¬ isRegistered h a) :
      HStep h (enregister h a 0)
  | newCopy (h : Heap) (a src v : Nat) (hfresh : ¬ isRegistered h a)
      (hsrc : rawOf h src = some v) : HStep h (enregister h a v)
  | newAllocated (h : Heap) (a v : Nat) (hfresh : ¬ isRegistered h a)
      (hv : allocatedB h.pages v = true) : HStep h (enregister h a v)
  | drop (h : Heap) (a : Nat) : HStep h (deregister h a)
  | assignNull (h : Heap) (a : Nat) : HStep h (setRaw h a 0)
  | assignCopy (h : Heap) (a src v : Nat) (hsrc : rawOf h src = some v) :
      HStep h (setRaw h a v)
  | storeDtor (h : Heap) (d : Destructor) :
      HStep h { h with dtors := h.dtors ++ [d] }
  | setPolicy (h : Heap) (b : Bool) :
      HStep h { h with collectBeforeExpand := b }
  | allocInPage (h : Heap) (pi bytes : Nat) (pg : DHPage) (g2 : GPage) (q : Nat)
      (hpg : h.pages.get? pi = some pg)
      (halloc : pg.page.allocate bytes = some (g2, q)) :
      HStep h { h with pages := updatePage h.pages pi (fun x => { x with page := g2 }) }
  | addPage (h : Heap) (base s n : Nat)
      (hdisj : ∀ pg ∈ h.pages, pageRangesDisjoint pg (freshDhpage base s n))
      (hfresh : ∀ a ∈ registeredAddrs h, (freshDhpage base s n).page.contains a = false) :
      HStep h { h with pages := h.pages ++ [freshDhpage base s n] }
  | collectStep (h : Heap) (hwf : WfPages h.pages) : HStep h (collect h).1

/-- Heap states reachable from the initial (empty) heap by public
operations. -/
inductive ReachH : Heap → Prop where
  | init : ReachH emptyHeap
  | step {h h2 : Heap} (hr : ReachH h) (hs : HStep h h2) : ReachH h2

/-- The per-page lists of record addresses.  Collection phases 1–3 preserve
these exactly; phase 4 only deletes entries. -/
def addrsOf (pgs : List DHPage) : List (List Nat) :=
  pgs.map (fun pg => pg.dptrs.map (fun dp => dp.addr))

/-- The per-page lists of record raw values (phases 1 and 2 of collection
change only levels and live bits, never raws). -/
def rawsOf (pgs : List DHPage) : List (List Nat) :=
  pgs.map (fun pg => pg.dptrs.map (fun dp => dp.raw))

/-- Pointwise-sublist relation on the per-page record-address lists. -/
def AddrsSub (A B : List DHPage) : Prop :=
  A.length = B.length ∧
  ∀ pi pgA pgB, A.get? pi = some pgA → B.get? pi = some pgB →
    List.Sublist (pgA.dptrs.map (fun dp => dp.addr))
      (pgB.dptrs.map (fun dp => dp.addr))

/-- The pointer value `q` lands, in the first page of the list whose byte
range contains it (the page `mark` breaks at), on the allocation whose start
location is `s`; the landing page is the one at index `pi`. -/
def marksGo (pgs : List DHPage) (q : Nat) : Nat → Nat → Prop :=
  fun pi s =>
    match pgs, pi with
    | [], _ => False
    | pg :: _, 0 =>
      (pg.page.containsInfo q).found ≠ .notInRange ∧
      (pg.page.containsInfo q).startLocation = s
    | pg :: rest, pi + 1 =>
      ¬ (pg.page.containsInfo q).found ≠ .notInRange ∧ marksGo rest q pi s

/-- A pointer value that phase 2 of a collection is guaranteed to mark from:
a root's raw value, or the raw value of a record holding a positive level. -/
def BitMarker (pages : List DHPage) (roots : List RootPtr) (q : Nat) : Prop :=
  (∃ r ∈ roots, r.raw = q) ∨
  (∃ pos dpj, getRec pages pos = some dpj ∧ 0 < dpj.level ∧ dpj.raw = q)

/-- A marker one level below `lv`: a root (for `lv = 1`) or a record at level
`lv - 1` (for `lv ≥ 2`) — the pointer whose `mark` call assigned `lv`. -/
def RecMarker (pages : List DHPage) (roots : List RootPtr) (lv q : Nat) : Prop :=
  (lv = 1 ∧ ∃ r ∈ roots, r.raw = q) ∨
  (2 ≤ lv ∧ ∃ pos dpj, getRec pages pos = some dpj ∧ dpj.level + 1 = lv ∧ dpj.raw = q)

/-- Every positive record level was assigned by marking from a root or from a
record one level below, landing on the record's own allocation. -/
def RankedRec (pages : List DHPage) (roots : List RootPtr) : Prop :=
  ∀ pi pg, pages.get? pi = some pg → ∀ dp ∈ pg.dptrs, 0 < dp.level →
    ∃ q, q ≠ 0 ∧ marksGo pages q pi ((pg.page.containsInfo dp.addr).startLocation) ∧
      RecMarker pages roots dp.level q

/-- Every live bit at an allocation start was set by marking from a root or a
positive-level record landing on that start. -/
def RankedStart (pages : List DHPage) (roots : List RootPtr) : Prop :=
  ∀ pi pg i, pages.get? pi = some pg → pg.page.isStart i = true →
    pg.liveStarts.getD i false = true →
    ∃ q, q ≠ 0 ∧ marksGo pages q pi i ∧ BitMarker pages roots q

/-- Every positive-level record's own allocation carries a set live bit (it
was marked when the record was assigned its level). -/
def SelfLive (pages : List DHPage) : Prop :=
  ∀ pi pg, pages.get? pi = some pg → ∀ dp ∈ pg.dptrs, 0 < dp.level →
    pg.liveStarts.getD (pg.page.containsInfo dp.addr).startLocation false = true

/-- Every record's own address lies at an allocated byte of its page (records
live inside allocated objects). -/
def RecAlloc (pages : List DHPage) : Prop :=
  ∀ pg ∈ pages, ∀ dp ∈ pg.dptrs,
    (pg.page.containsInfo dp.addr).found = .inRangeAllocatedStart ∨
    (pg.page.containsInfo dp.addr).found = .inRangeAllocatedMiddle

/-- A destructor entry is well-placed: its base lies at an allocated start
location of the first page containing it, and every byte of its range lies in
that same page with that same start (the ranges `destructors::store` records
never straddle allocations). -/
def dtorWithinGo (pgs : List DHPage) (d : Destructor) : Prop :=
  match pgs with
  | [] => False
  | pg :: rest =>
    if (pg.page.containsInfo d.p).found ≠ .notInRange then
      (pg.page.containsInfo d.p).found = .inRangeAllocatedStart ∧
      ∀ k ∈ List.range (d.size * d.n),
        (pg.page.containsInfo (d.p + k)).found ≠ .notInRange ∧
        (pg.page.containsInfo (d.p + k)).startLocation =
          (pg.page.containsInfo d.p).startLocation
    else dtorWithinGo rest d

/-- All registered destructor entries are well-placed. -/
def DtorsWithin (pages : List DHPage) (ds : List Destructor) : Prop :=
  ∀ d ∈ ds, dtorWithinGo pages d

/-- Every record lies in the byte range of some registered destructor entry
(the object holding a tracked pointer is never trivially destructible, so its
allocation registered an entry covering it). -/
def RecCovered (pages : List DHPage) (ds : List Destructor) : Prop :=
  ∀ pg ∈ pages, ∀ dp ∈ pg.dptrs, ∃ d ∈ ds, d.p ≤ dp.addr ∧ dp.addr < d.p + d.size * d.n

/-- The live-starts bitmaps of every page (phase 4 never modifies them). -/
def bitsOf (pgs : List DHPage) : List (List Bool) :=
  pgs.map (fun pg => pg.liveStarts)

/-- The observable heap state the idempotence claim enumerates: the byte
state of every page (base, chunk size, occupancy), every page's non-root list
as (address, raw value) pairs, the root set as (address, raw value) pairs,
and the destructor registry. -/
def heapObs (h : Heap) :
    List GPage × List (List (Nat × Nat)) × List (Nat × Nat) × List Destructor :=
  (gpagesOf h.pages,
   h.pages.map (fun pg => pg.dptrs.map (fun dp => (dp.addr, dp.raw))),
   h.roots.map (fun r => (r.addr, r.raw)),
   h.dtors)

/-- The combined well-formedness under which collection is idempotent:
structurally sound pages, pairwise-disjoint page ranges, records at allocated
bytes of their own pages, well-placed destructor entries, and every record
covered by an entry. -/
def CollectWF (h : Heap) : Prop :=
  WfPages h.pages ∧ pagesDisjoint h.pages ∧ RecAlloc h.pages ∧
  DtorsWithin h.pages h.dtors ∧ RecCovered h.pages h.dtors

instance dtorWithinGoDec (pgs : List DHPage) (d : Destructor) :
    Decidable (dtorWithinGo pgs d) :=
  match pgs with
  | [] => isFalse (fun h => h)
  | _ :: rest =>
    have : Decidable (dtorWithinGo rest d) := dtorWithinGoDec rest d
    by unfold dtorWithinGo; infer_instance

instance (pgs : List DHPage) : Decidable (RecAlloc pgs) := by
  unfold RecAlloc
  exact List.decidableBAll _ pgs

instance (pgs : List DHPage) (ds : List Destructor) : Decidable (DtorsWithin pgs ds) := by
  unfold DtorsWithin
  exact List.decidableBAll _ ds

instance (pgs : List DHPage) (ds : List Destructor) : Decidable (RecCovered pgs ds) := by
  unfold RecCovered
  exact List.decidableBAll _ pgs

instance (h : Heap) : Decidable (CollectWF h) := by
  unfold CollectWF pagesDisjoint
  infer_instance

/-- The marking invariant carried through phase 2: every positive record
level and every set live bit is justified by a mark call from a root or from
an already-levelled record, and every positively-levelled record lies in an
allocation whose live bit is set. -/
def Ranked (pages : List DHPage) (roots : List RootPtr) : Prop :=
  RankedRec pages roots ∧ RankedStart pages roots ∧ SelfLive pages

/-- The state facts phase 4's sweep maintains at every step: well-formed,
pairwise-disjoint pages, records at allocated bytes, live records in
live-bit allocations, well-placed destructor entries, and records covered by
entries. -/
def SweepInv (S : Heap) : Prop :=
  WfPages S.pages ∧ pagesDisjoint S.pages ∧ RecAlloc S.pages ∧ SelfLive S.pages ∧
  DtorsWithin S.pages S.dtors ∧ RecCovered S.pages S.dtors

/-- How a phase 4 state relates to the state the phase started from: per
page, live bits are untouched, locations only ever become free, and every
record with a positive level survives the sweep. -/
def SweepRel (h3 S : Heap) : Prop :=
  ∀ pi pg3, h3.pages.get? pi = some pg3 → ∃ pgS, S.pages.get? pi = some pgS ∧
    pgS.liveStarts = pg3.liveStarts ∧
    (∀ j, pgS.page.locs.getD j .free = pg3.page.locs.getD j .free ∨
      pgS.page.locs.getD j .free = .free) ∧
    (∀ dp ∈ pg3.dptrs, 0 < dp.level → dp ∈ pgS.dptrs)

/-! ## Claim C1: array construction addresses -/

/-- C1: the claim says `make_array<T>(n)` default-constructs one element at
each distinct address `p + i*sizeof(T)` before registering `{p, sizeof(T),
n}`.  The loop in `construct_array` placement-news `p` itself on every
iteration, so for `n = 2`, `sizeof(T) = 8` the code constructs twice at
`p = 100` while the spec's per-element semantics would construct at `100`
and `108`; the single destructor entry `{p, sizeof(T), n}` is registered as
claimed, making the registry destroy addresses the loop never constructed
at. -/
theorem c1_construct_array_news_p_every_iteration :
    constructArrayAddrs 100 2 = [100, 100] ∧
    specConstructArrayAddrs 100 8 2 = [100, 108] ∧
    constructArrayAddrs 100 2 ≠ specConstructArrayAddrs 100 8 2 ∧
    dtorsStore [] 100 8 2 7 = [⟨100, 8, 2, 7⟩] ∧
    invokeEvents [⟨100, 8, 2, 7⟩] = [Ev.invoke 7 100, Ev.invoke 7 108] := by
  decide

/-! ## Claim C6: fresh page sizing -/

/-- C6 counterexample: for `sizeof(T) = 4096` and `n = 1` the fresh page
holds `max(⌊4096·1·2.62⌋, 4096) = 10731` bytes, which is strictly less than
`⌈2.62·1⌉ · 4096 = 12288`, so the page does not have room for `⌈2.62·n⌉`
objects of the hinting type as the claim states. -/
theorem c6_page_smaller_than_ceil_rule :
    dhpageTotalBytes 4096 1 = 10731 ∧
    dhpageTotalBytes 4096 1 < ceil262 1 * 4096 ∧
    dhpageTotalBytes 4096 1 / 4096 = 2 ∧
    ceil262 1 = 3 := by
  decide

/-- C6 (amended): a fresh `dhpage` for hint size `s` and count `n` has
`max(⌊2.62·s·n⌋, 4096)` total bytes — hence at least `⌊2.62·s·n⌋` bytes
(room for at least `⌊2.62·n⌋` whole objects), at least 4096 bytes, and
exactly `⌊2.62·s·n⌋` (up to the 50·bytes window of the floor) whenever that
product is at least 4096 — and its minimum chunk size is
`max(sizeof(T), 4)`. -/
theorem c6_page_sizing (s n : Nat) :
    4096 ≤ dhpageTotalBytes s n ∧
    s * n * 131 / 50 ≤ dhpageTotalBytes s n ∧
    (131 * n / 50) * s ≤ dhpageTotalBytes s n ∧
    (4096 * 50 ≤ 131 * (s * n) → 50 * dhpageTotalBytes s n ≤ 131 * (s * n)) ∧
    dhpageMinAlloc s = max s 4 := by
  refine ⟨le_max_right _ _, le_max_left _ _, ?_, ?_, rfl⟩
  · calc (131 * n / 50) * s ≤ 131 * n * s / 50 := by
          rw [Nat.le_div_iff_mul_le (by norm_num)]
          have hd : 131 * n / 50 * 50 ≤ 131 * n := Nat.div_mul_le_self _ _
          calc 131 * n / 50 * s * 50 = 131 * n / 50 * 50 * s := by ring
            _ ≤ 131 * n * s := Nat.mul_le_mul_right s hd
      _ = s * n * 131 / 50 := by ring_nf
      _ ≤ dhpageTotalBytes s n := le_max_left _ _
  · intro hbig
    have h1 : 4096 ≤ s * n * 131 / 50 := by
      rw [Nat.le_div_iff_mul_le (by norm_num)]
      calc 4096 * 50 ≤ 131 * (s * n) := hbig
        _ = s * n * 131 := by ring
    have h2 : dhpageTotalBytes s n = s * n * 131 / 50 :=
      max_eq_left h1
    rw [h2]
    calc 50 * (s * n * 131 / 50) = s * n * 131 / 50 * 50 := by ring
      _ ≤ s * n * 131 := Nat.div_mul_le_self _ _
      _ = 131 * (s * n) := by ring

/-- C6 witness: the floor characterization applies at the counterexample
input, where the product `131·4096` clears the 4096-byte minimum. -/
theorem c6_page_sizing_witness :
    4096 * 50 ≤ 131 * (4096 * 1) ∧ 50 * dhpageTotalBytes 4096 1 ≤ 131 * (4096 * 1) :=
  ⟨by decide, (c6_page_sizing 4096 1).2.2.2.1 (by decide)⟩

/-! ## Claim C10: make_array with n = 0 -/

/-- C10: `make_array<T>(0)` always dies on a fatal debug assertion and never
yields a pointer: whatever the external page allocator returns for a
zero-element request, either `allocate`'s non-null assertion fires (`none`
case), or `construct_array` reaches `destroy_objects(p, p + 0)` and
`destructors::run`'s `begin < end` assertion fires (with `p = 0`,
`construct_array`'s own null assertion fires first). -/
theorem c10_make_array_zero_always_asserts (allocRes : Option Nat)
    (ds : List Destructor) (size tid : Nat) :
    ∃ e, makeArrayD allocRes ds size 0 tid = .error e := by
  match allocRes with
  | none => exact ⟨.assertAllocNonNull, rfl⟩
  | some p =>
    by_cases hp : p = 0
    · subst hp
      exact ⟨.assertConstructNull, rfl⟩
    · refine ⟨.assertBeginEnd, ?_⟩
      simp only [makeArrayD, constructArrayD, hp, if_neg hp, dtorsRunD,
        Nat.mul_zero, Nat.add_zero, lt_irrefl, if_false]
      rfl

/-! ## Claim C3: destructors::run -/

theorem runSplit_fst (ds : List Destructor) (b e : Nat) :
    (runSplit ds b e).1 = ds.filter (fun d => !dtorInRange b e d) := by
  induction ds with
  | nil => rfl
  | cons d rest ih =>
    by_cases hd : dtorInRange b e d
    · simp [runSplit, hd, ih]
    · simp [runSplit, hd, ih]

theorem runSplit_snd (ds : List Destructor) (b e : Nat) :
    (runSplit ds b e).2 = ds.filter (fun d => dtorInRange b e d) := by
  induction ds with
  | nil => rfl
  | cons d rest ih =>
    by_cases hd : dtorInRange b e d
    · simp [runSplit, hd, ih]
    · simp [runSplit, hd, ih]

theorem mem_invokeEvents_of (td : List Destructor) (d : Destructor) (i : Nat)
    (hd : d ∈ td) (hi : i < d.n) :
    Ev.invoke d.tid (d.p + d.size * i) ∈ invokeEvents td := by
  simp only [invokeEvents, List.mem_flatMap]
  exact ⟨d, hd, by simp only [List.mem_map, List.mem_range]; exact ⟨i, hi, rfl⟩⟩

theorem invokeEvents_shape (td : List Destructor) (x : Ev)
    (hx : x ∈ invokeEvents td) : ∃ t a, x = Ev.invoke t a := by
  simp only [invokeEvents, List.mem_flatMap, List.mem_map, List.mem_range] at hx
  obtain ⟨d, -, i, -, rfl⟩ := hx
  exact ⟨_, _, rfl⟩

/-- C3: `destructors::run(begin, end)` (when its `begin < end` assertion
holds) removes from the registry exactly the entries whose base lies in
`[begin, end)`, its event trace performs every removal strictly before the
first destructor invocation (the invocations run off a local copy, so no
registry field is read across a destructor call), it invokes each removed
entry's destroy-one on `base + i*elem_size` for every `i < count`, and it
returns `true` iff at least one entry was removed. -/
theorem c3_run_range_destruction (ds : List Destructor) (b e : Nat) (hbe : b < e) :
    dtorsRunD ds b e = .ok (dtorsRun ds b e) ∧
    (dtorsRun ds b e).1 = ds.filter (fun d => !dtorInRange b e d) ∧
    (runSplit ds b e).2 = ds.filter (fun d => dtorInRange b e d) ∧
    (∀ d, d ∈ ds → dtorInRange b e d = true → ∀ i, i < d.n →
      Ev.invoke d.tid (d.p + d.size * i) ∈ (dtorsRun ds b e).2.1) ∧
    (∀ i j t a c, i ≤ j → (dtorsRun ds b e).2.1.get? i = some (Ev.invoke t a) →
      (dtorsRun ds b e).2.1.get? j = some (Ev.extracted c) → False) ∧
    ((dtorsRun ds b e).2.2 = true ↔ ∃ d, d ∈ ds ∧ dtorInRange b e d = true) := by
  refine ⟨if_pos hbe, runSplit_fst ds b e, runSplit_snd ds b e, ?_, ?_, ?_⟩
  · intro d hd hin i hi
    have hmem : d ∈ (runSplit ds b e).2 := by
      rw [runSplit_snd]
      exact List.mem_filter.mpr ⟨hd, hin⟩
    exact List.mem_append_right _ (mem_invokeEvents_of _ d i hmem hi)
  · intro i j t a c hij hi hj
    set E := (runSplit ds b e).2.map (fun d => Ev.extracted d.p) with hE
    set I := invokeEvents (runSplit ds b e).2 with hI
    have hiE : ¬ i < E.length := by
      intro hlt
      rw [show (dtorsRun ds b e).2.1 = E ++ I from rfl, List.get?_append hlt] at hi
      have := List.get?_mem hi
      simp only [hE, List.mem_map] at this
      obtain ⟨d, -, hcontra⟩ := this
      exact Ev.noConfusion hcontra
    have hjE : j < E.length := by
      by_contra hge
      push_neg at hge
      rw [show (dtorsRun ds b e).2.1 = E ++ I from rfl,
        List.get?_append_right hge] at hj
      have hmem := List.get?_mem hj
      obtain ⟨t2, a2, hshape⟩ := invokeEvents_shape _ _ hmem
      exact Ev.noConfusion hshape
    exact hiE (lt_of_le_of_lt hij hjE)
  · constructor
    · intro hr
      have : (runSplit ds b e).2 ≠ [] := by
        intro hnil
        rw [show (dtorsRun ds b e).2.2 = !(runSplit ds b e).2.isEmpty from rfl,
          hnil] at hr
        exact absurd hr (by decide)
      obtain ⟨d, hd⟩ := List.exists_mem_of_ne_nil _ this
      rw [runSplit_snd] at hd
      exact ⟨d, (List.mem_filter.mp hd).1, (List.mem_filter.mp hd).2⟩
    · rintro ⟨d, hd, hin⟩
      have hmem : d ∈ (runSplit ds b e).2 := by
        rw [runSplit_snd]; exact List.mem_filter.mpr ⟨hd, hin⟩
      simp only [dtorsRun, Bool.not_eq_true', List.isEmpty_eq_false_iff_exists_mem]
      exact ⟨d, hmem⟩

/-- C3 witness: the theorem applied to a concrete registry and range. -/
theorem c3_run_range_destruction_witness :
    (0 : Nat) < 10 ∧ (dtorsRun [⟨5, 4, 2, 9⟩] 0 10).1 = [] :=
  ⟨by decide,
    ((c3_run_range_destruction [⟨5, 4, 2, 9⟩] 0 10 (by decide)).2.1).trans (by decide)⟩

/-! ## Claim C5: out-of-memory behaviour of make -/

/-- C5: the claim (and the sources' own comments on `make`/`make_array`,
"If allocation fails, the returned pointer will be null") says an OS-layer
page-allocation failure surfaces as a null `deferred_ptr<T>`.  In the code,
`pages.emplace_back` propagates `std::bad_alloc` out of `make` instead, and
on every success path `allocate` returns the asserted-non-null pointer, so
`make` can never return the promised null pointer. -/
theorem c5_make_never_returns_null :
    heapMake emptyHeap 16 7 none = .error .badAlloc ∧
    (∀ (h : Heap) (sizeT tid : Nat) (os : Option Nat) (r : Heap × Option Nat),
      heapMake h sizeT tid os = .ok r → r.2.isSome = true) := by
  refine ⟨rfl, ?_⟩
  intro h sizeT tid os r hr
  unfold heapMake at hr
  cases hA : heapAllocate h sizeT 1 os with
  | ok v => rw [hA] at hr; cases hr; rfl
  | error e => rw [hA] at hr; cases hr

/-- C5 witness: a successful `make` on the empty heap (OS provides a page at
base 1000) indeed carries a non-null pointer. -/
theorem c5_make_never_returns_null_witness :
    ∃ r, heapMake emptyHeap 4096 7 (some 1000) = .ok r ∧ r.2.isSome = true := by
  have h1 : (heapMake emptyHeap 4096 7 (some 1000)).toOption.isSome = true := by decide
  obtain ⟨r, hr⟩ := Option.isSome_iff_exists.mp h1
  have hok : heapMake emptyHeap 4096 7 (some 1000) = .ok r := by
    cases hE : heapMake emptyHeap 4096 7 (some 1000) with
    | ok v => rw [hE] at hr; simp only [Except.toOption] at hr; rw [Option.some.injEq] at hr; rw [hr]
    | error e => rw [hE] at hr; simp only [Except.toOption] at hr; cases hr
  exact ⟨r, hok, c5_make_never_returns_null.2 _ _ _ _ _ hok⟩

/-! ## Claim C7: termination of the phase 2 marking loop -/

theorem getRec_cons_succ (pg : DHPage) (rest : List DHPage) (pi ri : Nat) :
    getRec (pg :: rest) (pi + 1, ri) = getRec rest (pi, ri) := rfl

theorem getRec_cons_zero (pg : DHPage) (rest : List DHPage) (ri : Nat) :
    getRec (pg :: rest) (0, ri) = pg.dptrs.get? ri := rfl

theorem markPage_get (pg : DHPage) (s L ri : Nat) :
    (markPage pg s L).dptrs.get? ri = (pg.dptrs.get? ri).map (fun dp =>
      if (pg.page.containsInfo dp.addr).startLocation = s ∧ dp.level = 0 then
        { dp with level := L }
      else dp) := by
  simp [markPage, List.get?_map]

theorem markGo_get_fwd (pgs : List DHPage) (p L : Nat) :
    ∀ (pi ri : Nat) (dp : NonRoot), getRec pgs (pi, ri) = some dp →
      getRec (markGo pgs p L) (pi, ri) = some dp ∨
      (dp.level = 0 ∧ getRec (markGo pgs p L) (pi, ri) = some { dp with level := L }) := by
  induction pgs with
  | nil => intro pi ri dp h; exact absurd h (by cases pi <;> simp [getRec])
  | cons pg rest ih =>
    intro pi ri dp h
    unfold markGo
    by_cases hf : (pg.page.containsInfo p).found ≠ .notInRange
    · rw [if_pos hf]
      cases pi with
      | zero =>
        rw [getRec_cons_zero] at h
        rw [getRec_cons_zero, markPage_get, h, Option.map_some']
        by_cases hc : (pg.page.containsInfo dp.addr).startLocation =
            (pg.page.containsInfo p).startLocation ∧ dp.level = 0
        · exact Or.inr ⟨hc.2, by rw [if_pos hc]⟩
        · exact Or.inl (by rw [if_neg hc])
      | succ pi => rw [getRec_cons_succ] at h ⊢; exact Or.inl h
    · rw [if_neg hf]
      cases pi with
      | zero => rw [getRec_cons_zero] at h ⊢; exact Or.inl h
      | succ pi =>
        rw [getRec_cons_succ] at h ⊢
        exact ih pi ri dp h

theorem mark_get_fwd (pgs : List DHPage) (p L : Nat) (pos : Nat × Nat) (dp : NonRoot)
    (h : getRec pgs pos = some dp) :
    getRec (mark pgs p L) pos = some dp ∨
    (dp.level = 0 ∧ getRec (mark pgs p L) pos = some { dp with level := L }) := by
  unfold mark
  by_cases hp : p = 0
  · rw [if_pos hp]; exact Or.inl h
  · rw [if_neg hp]; exact markGo_get_fwd pgs p L pos.1 pos.2 dp h

theorem markGo_get_bwd (pgs : List DHPage) (p L : Nat) :
    ∀ (pi ri : Nat) (dp2 : NonRoot), getRec (markGo pgs p L) (pi, ri) = some dp2 →
      ∃ dp, getRec pgs (pi, ri) = some dp ∧
        (dp2 = dp ∨ (dp.level = 0 ∧ dp2 = { dp with level := L })) := by
  induction pgs with
  | nil => intro pi ri dp2 h; exact absurd h (by cases pi <;> simp [markGo, getRec])
  | cons pg rest ih =>
    intro pi ri dp2 h
    unfold markGo at h
    by_cases hf : (pg.page.containsInfo p).found ≠ .notInRange
    · rw [if_pos hf] at h
      cases pi with
      | zero =>
        rw [getRec_cons_zero, markPage_get] at h
        cases hg : pg.dptrs.get? ri with
        | none => rw [hg] at h; exact absurd h (by simp)
        | some dp =>
          rw [hg, Option.map_some', Option.some.injEq] at h
          refine ⟨dp, hg, ?_⟩
          by_cases hc : (pg.page.containsInfo dp.addr).startLocation =
              (pg.page.containsInfo p).startLocation ∧ dp.level = 0
          · rw [if_pos hc] at h; exact Or.inr ⟨hc.2, h.symm⟩
          · rw [if_neg hc] at h; exact Or.inl h.symm
      | succ pi => rw [getRec_cons_succ] at h; exact ⟨dp2, h, Or.inl rfl⟩
    · rw [if_neg hf] at h
      cases pi with
      | zero => rw [getRec_cons_zero] at h ⊢; exact ⟨dp2, h, Or.inl rfl⟩
      | succ pi =>
        rw [getRec_cons_succ] at h
        exact ih pi ri dp2 h

theorem mark_get_bwd (pgs : List DHPage) (p L : Nat) (pos : Nat × Nat) (dp2 : NonRoot)
    (h : getRec (mark pgs p L) pos = some dp2) :
    ∃ dp, getRec pgs pos = some dp ∧
      (dp2 = dp ∨ (dp.level = 0 ∧ dp2 = { dp with level := L })) := by
  unfold mark at h
  by_cases hp : p = 0
  · rw [if_pos hp] at h; exact ⟨dp2, h, Or.inl rfl⟩
  · rw [if_neg hp] at h; exact markGo_get_bwd pgs p L pos.1 pos.2 dp2 h

theorem mark_frozen (pgs : List DHPage) (p L : Nat) : Frozen pgs (mark pgs p L) := by
  intro pos dp h hpos
  rcases mark_get_fwd pgs p L pos dp h with h2 | ⟨h0, _⟩
  · exact h2
  · exact absurd h0 (Nat.pos_iff_ne_zero.mp hpos)

theorem frozen_refl (pgs : List DHPage) : Frozen pgs pgs :=
  fun _ _ h _ => h

theorem frozen_trans {a b c : List DHPage} (h1 : Frozen a b) (h2 : Frozen b c) :
    Frozen a c :=
  fun pos dp h hpos => h2 pos dp (h1 pos dp h hpos) hpos

theorem evol_refl (L : Nat) (pgs : List DHPage) : Evol L pgs pgs :=
  fun _ dp2 h => ⟨dp2, h, Or.inl rfl⟩

theorem evol_mark (L : Nat) (pgs : List DHPage) (p : Nat) :
    Evol L pgs (mark pgs p L) :=
  fun pos dp2 h => mark_get_bwd pgs p L pos dp2 h

theorem evol_trans {L : Nat} (hL : L ≠ 0) {a b c : List DHPage}
    (h1 : Evol L a b) (h2 : Evol L b c) : Evol L a c := by
  intro pos dp2 h
  obtain ⟨dp1, hb, hcase1⟩ := h2 pos dp2 h
  obtain ⟨dp0, ha, hcase0⟩ := h1 pos dp1 hb
  refine ⟨dp0, ha, ?_⟩
  rcases hcase1 with rfl | ⟨h10, rfl⟩
  · exact hcase0
  · rcases hcase0 with rfl | ⟨h00, rfl⟩
    · exact Or.inr ⟨h10, rfl⟩
    · exact absurd h10 (by simp [hL])

theorem attains_of_frozen {pgs pgs2 : List DHPage} {ℓ : Nat}
    (hf : Frozen pgs pgs2) (hl : 0 < ℓ) (h : Attains pgs ℓ) : Attains pgs2 ℓ := by
  obtain ⟨pos, dp, hget, hdp⟩ := h
  exact ⟨pos, dp, hf pos dp hget (hdp ▸ hl), hdp⟩

theorem foldl_pass_frozen (L : Nat) (pgs : List DHPage) (ps : List (Nat × Nat)) :
    ∀ acc : List DHPage × Bool, Frozen pgs acc.1 →
      Frozen pgs (ps.foldl (passStep L) acc).1 := by
  induction ps with
  | nil => intro acc h; exact h
  | cons pos rest ih =>
    intro acc h
    simp only [List.foldl_cons]
    apply ih
    unfold passStep
    cases hg : getRec acc.1 pos with
    | none => exact h
    | some dp =>
      by_cases hl : dp.level = L - 1
      · simpa [hl] using frozen_trans h (mark_frozen acc.1 dp.raw L)
      · simpa [hl] using h

theorem pass_frozen (pgs : List DHPage) (L : Nat) : Frozen pgs (pass pgs L).1 :=
  foldl_pass_frozen L pgs (positionsOf pgs) (pgs, false) (frozen_refl pgs)

theorem foldl_pass_core (L : Nat) (hL : 2 ≤ L) (pgs : List DHPage)
    (ps : List (Nat × Nat)) :
    ∀ acc : List DHPage × Bool, Evol L pgs acc.1 →
      (acc.2 = true → Attains pgs (L - 1)) →
      Evol L pgs (ps.foldl (passStep L) acc).1 ∧
      ((ps.foldl (passStep L) acc).2 = true → Attains pgs (L - 1)) := by
  have hL0 : L ≠ 0 := by omega
  induction ps with
  | nil => intro acc h1 h2; exact ⟨h1, h2⟩
  | cons pos rest ih =>
    intro acc h1 h2
    simp only [List.foldl_cons]
    apply ih
    · unfold passStep
      cases hg : getRec acc.1 pos with
      | none => exact h1
      | some dp =>
        by_cases hl : dp.level = L - 1
        · simpa [hl] using evol_trans hL0 h1 (evol_mark L acc.1 dp.raw)
        · simpa [hl] using h1
    · unfold passStep
      cases hg : getRec acc.1 pos with
      | none => exact h2
      | some dp =>
        by_cases hl : dp.level = L - 1
        · simp only [hl, if_pos rfl]
          intro _
          obtain ⟨dp0, h0, hcase⟩ := h1 pos dp hg
          rcases hcase with rfl | ⟨hz, rfl⟩
          · exact ⟨pos, dp, h0, hl⟩
          · exact absurd hl (by simp; omega)
        · simpa [hl] using h2

theorem pass_evol (pgs : List DHPage) (L : Nat) (hL : 2 ≤ L) :
    Evol L pgs (pass pgs L).1 :=
  (foldl_pass_core L hL pgs (positionsOf pgs) (pgs, false) (evol_refl L pgs)
    (by intro h; cases h)).1

theorem pass_found (pgs : List DHPage) (L : Nat) (hL : 2 ≤ L)
    (h : (pass pgs L).2 = true) : Attains pgs (L - 1) :=
  (foldl_pass_core L hL pgs (positionsOf pgs) (pgs, false) (evol_refl L pgs)
    (by intro h; cases h)).2 h

theorem getRec_mem {pgs : List DHPage} {pos : Nat × Nat} {dp : NonRoot}
    (h : getRec pgs pos = some dp) : dp ∈ pgs.flatMap (fun pg => pg.dptrs) := by
  unfold getRec at h
  cases hg : pgs.get? pos.1 with
  | none => rw [hg] at h; cases h
  | some pg =>
    rw [hg] at h
    exact List.mem_flatMap.mpr ⟨pg, List.get?_mem hg, List.get?_mem h⟩

theorem numRecords_eq_flat_length (pgs : List DHPage) :
    numRecords pgs = (pgs.flatMap (fun pg => pg.dptrs)).length := by
  unfold numRecords
  induction pgs with
  | nil => rfl
  | cons pg rest ih => simp [ih]

theorem attains_range_le (pgs : List DHPage) (m : Nat)
    (h : ∀ k, k < m → Attains pgs (1 + k)) : m ≤ numRecords pgs := by
  classical
  set lvls := (pgs.flatMap (fun pg => pg.dptrs)).map (fun dp => dp.level) with hlvls
  have hmem : ∀ k, k < m → (1 + k) ∈ lvls := by
    intro k hk
    obtain ⟨pos, dp, hget, hdp⟩ := h k hk
    exact List.mem_map.mpr ⟨dp, getRec_mem hget, hdp⟩
  have hsub : ((List.range m).map (fun k => 1 + k)).toFinset ⊆ lvls.toFinset := by
    intro x hx
    rw [List.mem_toFinset] at hx ⊢
    obtain ⟨k, hk, rfl⟩ := List.mem_map.mp hx
    exact hmem k (List.mem_range.mp hk)
  have hnodup : ((List.range m).map (fun k => 1 + k)).Nodup :=
    (List.nodup_range m).map (fun a b hab => by omega)
  have hcard1 : ((List.range m).map (fun k => 1 + k)).toFinset.card = m := by
    rw [List.toFinset_card_of_nodup hnodup, List.length_map, List.length_range]
  calc m = ((List.range m).map (fun k => 1 + k)).toFinset.card := hcard1.symm
    _ ≤ lvls.toFinset.card := Finset.card_le_card hsub
    _ ≤ lvls.length := lvls.toFinset_card_le
    _ = numRecords pgs := by rw [hlvls, List.length_map, numRecords_eq_flat_length]

theorem numRecords_markGo (pgs : List DHPage) (p L : Nat) :
    numRecords (markGo pgs p L) = numRecords pgs := by
  induction pgs with
  | nil => rfl
  | cons pg rest ih =>
    unfold markGo
    by_cases hf : (pg.page.containsInfo p).found ≠ .notInRange
    · rw [if_pos hf]; simp [numRecords, markPage]
    · rw [if_neg hf]
      simp only [numRecords, List.map_cons, List.sum_cons] at ih ⊢
      omega

theorem numRecords_mark (pgs : List DHPage) (p L : Nat) :
    numRecords (mark pgs p L) = numRecords pgs := by
  unfold mark
  by_cases hp : p = 0
  · rw [if_pos hp]
  · rw [if_neg hp]; exact numRecords_markGo pgs p L

theorem numRecords_foldl_pass (L : Nat) (ps : List (Nat × Nat)) :
    ∀ acc : List DHPage × Bool,
      numRecords (ps.foldl (passStep L) acc).1 = numRecords acc.1 := by
  induction ps with
  | nil => intro acc; rfl
  | cons pos rest ih =>
    intro acc
    simp only [List.foldl_cons]
    rw [ih]
    unfold passStep
    cases hg : getRec acc.1 pos with
    | none => rfl
    | some dp =>
      by_cases hl : dp.level = L - 1
      · simp [hl, numRecords_mark]
      · simp [hl]

theorem numRecords_pass (pgs : List DHPage) (L : Nat) :
    numRecords (pass pgs L).1 = numRecords pgs :=
  numRecords_foldl_pass L (positionsOf pgs) (pgs, false)

theorem phase2go_succ_found (fuel : Nat) (pgs : List DHPage) (L : Nat)
    (hfound : (pass pgs L).2 = true) :
    phase2go (fuel + 1) pgs L =
      ((phase2go fuel (pass pgs L).1 (L + 1)).1,
       ⟨true, countZero pgs - countZero (pass pgs L).1⟩ ::
         (phase2go fuel (pass pgs L).1 (L + 1)).2.1,
       (phase2go fuel (pass pgs L).1 (L + 1)).2.2) := by
  simp only [phase2go, hfound, eq_self_iff_true, if_true]

theorem phase2go_succ_notfound (fuel : Nat) (pgs : List DHPage) (L : Nat)
    (hfound : (pass pgs L).2 = false) :
    phase2go (fuel + 1) pgs L =
      ((pass pgs L).1,
       [⟨false, countZero pgs - countZero (pass pgs L).1⟩], true) := by
  simp only [phase2go, hfound, Bool.false_eq_true, if_false]

theorem phase2go_spec (fuel : Nat) :
    ∀ (pgs : List DHPage) (L : Nat), 2 ≤ L →
      Frozen pgs (phase2go fuel pgs L).1 ∧
      numRecords (phase2go fuel pgs L).1 = numRecords pgs ∧
      ((phase2go fuel pgs L).2.2 = false → (phase2go fuel pgs L).2.1.length = fuel) ∧
      (∀ k, k + (if (phase2go fuel pgs L).2.2 then 1 else 0) <
          (phase2go fuel pgs L).2.1.length →
        Attains (phase2go fuel pgs L).1 (L - 1 + k)) := by
  induction fuel with
  | zero =>
    intro pgs L hL
    refine ⟨frozen_refl pgs, rfl, fun _ => rfl, fun k hk => absurd hk (by simp [phase2go])⟩
  | succ fuel ih =>
    intro pgs L hL
    by_cases hfound : (pass pgs L).2 = true
    · rw [phase2go_succ_found fuel pgs L hfound]
      obtain ⟨ihF, ihN, ihLen, ihAtt⟩ := ih (pass pgs L).1 (L + 1) (by omega)
      have hfr : Frozen pgs (phase2go fuel (pass pgs L).1 (L + 1)).1 :=
        frozen_trans (pass_frozen pgs L) ihF
      refine ⟨hfr, by rw [ihN, numRecords_pass], ?_, ?_⟩
      · intro hc; simp only [List.length_cons, ihLen hc]
      · intro k hk
        cases k with
        | zero =>
          have hA : Attains pgs (L - 1) := pass_found pgs L hL hfound
          have : Attains (phase2go fuel (pass pgs L).1 (L + 1)).1 (L - 1) :=
            attains_of_frozen hfr (by omega) hA
          simpa using this
        | succ k =>
          have hk2 : k + (if (phase2go fuel (pass pgs L).1 (L + 1)).2.2 then 1 else 0) <
              (phase2go fuel (pass pgs L).1 (L + 1)).2.1.length := by
            simp only [List.length_cons] at hk
            split <;> split at hk <;> omega
          have := ihAtt k hk2
          have harith : L + 1 - 1 + k = L - 1 + (k + 1) := by omega
          rwa [harith] at this
    · rw [Bool.not_eq_true] at hfound
      rw [phase2go_succ_notfound fuel pgs L hfound]
      refine ⟨pass_frozen pgs L, numRecords_pass pgs L, ?_, ?_⟩
      · intro hc; cases hc
      · intro k hk
        simp only [List.length_cons, List.length_nil, if_true] at hk
        omega

theorem phase2_completes (pgs : List DHPage) :
    (phase2 pgs).2.2 = true ∧ (phase2 pgs).2.1.length ≤ numRecords pgs + 1 := by
  obtain ⟨hF, hN, hLen, hAtt⟩ := phase2go_spec (numRecords pgs + 2) pgs 2 (le_refl 2)
  have hdone : (phase2 pgs).2.2 = true := by
    by_contra hc
    rw [Bool.not_eq_true] at hc
    have hc2 : (phase2go (numRecords pgs + 2) pgs 2).2.2 = false := hc
    have hlen := hLen hc2
    have hAll : ∀ k, k < numRecords pgs + 2 →
        Attains (phase2go (numRecords pgs + 2) pgs 2).1 (1 + k) := by
      intro k hk
      have hcond : k + (if (phase2go (numRecords pgs + 2) pgs 2).2.2 then 1 else 0) <
          (phase2go (numRecords pgs + 2) pgs 2).2.1.length := by
        rw [hc2, hlen]
        simpa using hk
      simpa [Nat.add_comm] using hAtt k hcond
    have := attains_range_le _ _ hAll
    rw [hN] at this
    omega
  refine ⟨hdone, ?_⟩
  by_contra hbig
  push_neg at hbig
  have hd2 : (phase2go (numRecords pgs + 2) pgs 2).2.2 = true := hdone
  have hAll : ∀ k, k < numRecords pgs + 1 →
      Attains (phase2go (numRecords pgs + 2) pgs 2).1 (1 + k) := by
    intro k hk
    have hlen : numRecords pgs + 1 < (phase2go (numRecords pgs + 2) pgs 2).2.1.length :=
      hbig
    have hcond : k + (if (phase2go (numRecords pgs + 2) pgs 2).2.2 then 1 else 0) <
        (phase2go (numRecords pgs + 2) pgs 2).2.1.length := by
      rw [hd2]
      simp only [if_true]
      omega
    simpa [Nat.add_comm] using hAtt k hcond
  have := attains_range_le _ _ hAll
  rw [hN] at this
  omega

theorem numRecords_markRoots (roots : List RootPtr) :
    ∀ pgs : List DHPage, numRecords (markRoots pgs roots) = numRecords pgs := by
  induction roots with
  | nil => intro pgs; rfl
  | cons r rest ih =>
    intro pgs
    show numRecords (List.foldl (fun pgs r => mark pgs r.raw 1) (mark pgs r.raw 1) rest) =
      numRecords pgs
    rw [show List.foldl (fun pgs r => mark pgs r.raw 1) (mark pgs r.raw 1) rest =
      markRoots (mark pgs r.raw 1) rest from rfl, ih, numRecords_mark]

theorem numRecords_phase1 (h : Heap) :
    numRecords (phase1 h).pages = numRecords h.pages := by
  unfold numRecords phase1
  simp only [List.map_map]
  congr 1
  apply List.map_congr_left
  intro pg _
  simp

theorem phase1_levels (h : Heap) (pos : Nat × Nat) (dp : NonRoot)
    (hget : getRec (phase1 h).pages pos = some dp) : dp.level = 0 := by
  unfold getRec at hget
  simp only [phase1, List.get?_map] at hget
  cases hg : h.pages.get? pos.1 with
  | none => rw [hg] at hget; cases hget
  | some pg =>
    rw [hg, Option.map_some'] at hget
    simp only [List.get?_map] at hget
    cases hr : pg.dptrs.get? pos.2 with
    | none => rw [hr] at hget; cases hget
    | some dp0 =>
      rw [hr, Option.map_some', Option.some.injEq] at hget
      rw [← hget]

theorem markRoots_null (roots : List RootPtr)
    (h : roots.all (fun r => r.raw = 0) = true) :
    ∀ pgs : List DHPage, markRoots pgs roots = pgs := by
  induction roots with
  | nil => intro pgs; rfl
  | cons r rest ih =>
    intro pgs
    simp only [List.all_cons, Bool.and_eq_true, decide_eq_true_eq] at h
    show List.foldl (fun pgs r => mark pgs r.raw 1) (mark pgs r.raw 1) rest = pgs
    have h1 : mark pgs r.raw 1 = pgs := by unfold mark; rw [if_pos h.1]
    rw [h1]
    exact ih (by simp [List.all_eq_true] at h ⊢; exact h.2) pgs

theorem pass_notfound_of_zero (pgs : List DHPage)
    (hz : ∀ pos dp, getRec pgs pos = some dp → dp.level = 0) :
    (pass pgs 2).2 = false := by
  cases hb : (pass pgs 2).2 with
  | false => rfl
  | true =>
    obtain ⟨pos, dp, hget, hdp⟩ := pass_found pgs 2 (le_refl 2) hb
    have := hz pos dp hget
    omega

/-- C7 counterexample: the claim says every non-final pass assigns a
positive level to at least one record whose level was 0.  On the rooted
two-cycle, phase 2 performs three passes; the second (non-final: it is
followed by the terminating pass, and it did find a record at the previous
level) assigns a level to no record at all, because the only record of the
allocation it reaches is already marked. -/
theorem c7_nonfinal_pass_assigning_nothing :
    (passLogOf hRootedCycle).length = 3 ∧
    ((passLogOf hRootedCycle).getD 1 default).found = true ∧
    ((passLogOf hRootedCycle).getD 1 default).assigned = 0 ∧
    numRecords hRootedCycle.pages = 2 := by
  decide

/-- C7 (amended): the phase 2 marking loop of `collect` always terminates
(it reaches its `done` exit within the provided fuel), and for a heap with
`K` non-root records it performs at most `K + 1` passes: each pass other
than the last finds a record whose level the preceding pass (or the root
marking) assigned, those levels are pairwise distinct, and no record's level
is changed once positive — so at most `K` passes find work.  A heap whose
roots have all been dropped (every root null) completes in exactly one pass;
in particular a cycle of `N ≥ 1` objects with no roots completes within `N`
passes. -/
theorem c7_phase2_pass_bound (h : Heap) :
    (phase2 (markRoots (phase1 h).pages (phase1 h).roots)).2.2 = true ∧
    (passLogOf h).length ≤ numRecords h.pages + 1 ∧
    (h.roots.all (fun r => r.raw = 0) = true → (passLogOf h).length = 1) := by
  obtain ⟨hdone, hbound⟩ := phase2_completes (markRoots (phase1 h).pages (phase1 h).roots)
  have hnum : numRecords (markRoots (phase1 h).pages (phase1 h).roots) =
      numRecords h.pages := by
    rw [numRecords_markRoots, numRecords_phase1]
  refine ⟨hdone, ?_, ?_⟩
  · rw [hnum] at hbound
    exact hbound
  · intro hroots
    have hmr : markRoots (phase1 h).pages (phase1 h).roots = (phase1 h).pages :=
      markRoots_null h.roots hroots (phase1 h).pages
    have hnf : (pass (phase1 h).pages 2).2 = false :=
      pass_notfound_of_zero _ (phase1_levels h)
    show (phase2 (markRoots (phase1 h).pages (phase1 h).roots)).2.1.length = 1
    rw [hmr]
    show (phase2go (numRecords (phase1 h).pages + 2) (phase1 h).pages 2).2.1.length = 1
    rw [show numRecords (phase1 h).pages + 2 =
      (numRecords (phase1 h).pages + 1) + 1 from rfl]
    rw [phase2go_succ_notfound _ _ _ hnf]
    rfl

/-- C7 witness: on the three-object dropped cycle the amended theorem
applies, and phase 2 completes in a single pass (within the claimed `N = 3`
passes). -/
theorem c7_phase2_pass_bound_witness :
    hDroppedCycle.roots.all (fun r => r.raw = 0) = true ∧
    (passLogOf hDroppedCycle).length = 1 :=
  ⟨by decide, (c7_phase2_pass_bound hDroppedCycle).2.2 (by decide)⟩

/-! ## Claim C2: cycle breaking precedes destruction -/

theorem backStart_le (locs : List Loc) (i : Nat) : GPage.backStart locs i ≤ i := by
  induction i with
  | zero => exact le_refl 0
  | succ i ih =>
    unfold GPage.backStart
    by_cases hm : locs.getD (i + 1) .free = .mid
    · rw [if_pos hm]; omega
    · rw [if_neg hm]

theorem containsInfo_startLoc_lt (g : GPage) (p : Nat) (hm : 0 < g.minAlloc)
    (hc : (g.containsInfo p).found ≠ .notInRange) :
    (g.containsInfo p).startLocation < g.locs.length := by
  unfold GPage.containsInfo at hc ⊢
  by_cases hcon : g.contains p = true
  · have hidx : g.locIndex p < g.locs.length := by
      unfold GPage.contains at hcon
      rw [decide_eq_true_eq] at hcon
      unfold GPage.locIndex
      rw [Nat.div_lt_iff_lt_mul hm]
      unfold GPage.totalSize at hcon
      have := hcon.1
      have := hcon.2
      calc p - g.base < g.minAlloc * g.locs.length := by omega
        _ = g.locs.length * g.minAlloc := Nat.mul_comm _ _
    rw [if_pos hcon] at hc ⊢
    cases hval : g.locs.getD (g.locIndex p) .free
    · simp only [hval]; exact hidx
    · simp only [hval]; exact hidx
    · simp only [hval]
      exact lt_of_le_of_lt (backStart_le g.locs (g.locIndex p)) hidx
  · rw [if_neg hcon] at hc
    exact absurd rfl hc

theorem bit_set_keep {l : List Bool} {j i : Nat} (h : l.getD i false = true) :
    (l.set j true).getD i false = true := by
  by_cases hij : j = i
  · subst hij
    unfold List.getD at h ⊢
    rw [List.get?_set_eq]
    cases hg : l.get? j with
    | none => rw [hg] at h; simp at h
    | some b => rfl
  · unfold List.getD at h ⊢
    rw [List.get?_set_ne _ _ hij]
    exact h

theorem bit_set_self {l : List Bool} {j : Nat} (hj : j < l.length) :
    (l.set j true).getD j false = true := by
  unfold List.getD
  rw [List.get?_set_eq_of_lt _ hj]
  rfl

theorem markPage_addr (pg : DHPage) (s L : Nat) (dp : NonRoot) :
    ((fun dp =>
      if (pg.page.containsInfo dp.addr).startLocation = s ∧ dp.level = 0 then
        { dp with level := L }
      else dp) dp).addr = dp.addr := by
  dsimp only
  split <;> rfl

theorem wfPage_markPage (pg : DHPage) (s L : Nat) (h : WfPage pg) :
    WfPage (markPage pg s L) := by
  refine ⟨h.1, ?_⟩
  simp only [markPage, List.length_set]
  exact h.2

theorem wfPages_markGo (pgs : List DHPage) (p L : Nat) (h : WfPages pgs) :
    WfPages (markGo pgs p L) := by
  induction pgs with
  | nil => exact h
  | cons pg rest ih =>
    unfold markGo
    by_cases hf : (pg.page.containsInfo p).found ≠ .notInRange
    · rw [if_pos hf]
      intro q hq
      rcases List.mem_cons.mp hq with rfl | hq2
      · exact wfPage_markPage pg _ L (h pg (List.mem_cons_self _ _))
      · exact h q (List.mem_cons_of_mem _ hq2)
    · rw [if_neg hf]
      intro q hq
      rcases List.mem_cons.mp hq with rfl | hq2
      · exact h q (List.mem_cons_self _ _)
      · exact ih (fun x hx => h x (List.mem_cons_of_mem _ hx)) q hq2

theorem wfPages_mark (pgs : List DHPage) (p L : Nat) (h : WfPages pgs) :
    WfPages (mark pgs p L) := by
  unfold mark
  by_cases hp : p = 0
  · rw [if_pos hp]; exact h
  · rw [if_neg hp]; exact wfPages_markGo pgs p L h

theorem markEffectGo_markGo (pgs : List DHPage) (q L x : Nat)
    (h : markEffectGo pgs x) : markEffectGo (markGo pgs q L) x := by
  induction pgs with
  | nil => exact h
  | cons pg rest ih =>
    unfold markGo
    by_cases hq : (pg.page.containsInfo q).found ≠ .notInRange
    · rw [if_pos hq]
      unfold markEffectGo at h ⊢
      by_cases hx : (pg.page.containsInfo x).found ≠ .notInRange
      · rw [if_pos hx] at h
        rw [show (markPage pg (pg.page.containsInfo q).startLocation L).page =
          pg.page from rfl, if_pos hx]
        refine ⟨bit_set_keep h.1, ?_⟩
        intro dp2 hdp2 hcond
        obtain ⟨dp, hdpmem, rfl⟩ := List.mem_map.mp hdp2
        rw [markPage_addr pg _ L dp] at hcond
        have hpos := h.2 dp hdpmem hcond
        by_cases hc : (pg.page.containsInfo dp.addr).startLocation =
            (pg.page.containsInfo q).startLocation ∧ dp.level = 0
        · exact absurd hc.2 (Nat.pos_iff_ne_zero.mp hpos)
        · rw [if_neg hc]; exact hpos
      · rw [if_neg hx] at h
        rw [show (markPage pg (pg.page.containsInfo q).startLocation L).page =
          pg.page from rfl, if_neg hx]
        exact h
    · rw [if_neg hq]
      unfold markEffectGo at h ⊢
      by_cases hx : (pg.page.containsInfo x).found ≠ .notInRange
      · rw [if_pos hx] at h ⊢; exact h
      · rw [if_neg hx] at h ⊢; exact ih h

theorem markEffect_mark (pgs : List DHPage) (q L x : Nat)
    (h : MarkEffect pgs x) : MarkEffect (mark pgs q L) x := by
  rcases h with h0 | hgo
  · exact Or.inl h0
  · unfold mark
    by_cases hq : q = 0
    · rw [if_pos hq]; exact Or.inr hgo
    · rw [if_neg hq]; exact Or.inr (markEffectGo_markGo pgs q L x hgo)

theorem markGo_establishes (pgs : List DHPage) (p L : Nat) (hL : 1 ≤ L)
    (hwf : WfPages pgs) : markEffectGo (markGo pgs p L) p := by
  induction pgs with
  | nil => exact trivial
  | cons pg rest ih =>
    unfold markGo
    by_cases hp : (pg.page.containsInfo p).found ≠ .notInRange
    · rw [if_pos hp]
      unfold markEffectGo
      rw [show (markPage pg (pg.page.containsInfo p).startLocation L).page =
        pg.page from rfl, if_pos hp]
      have hwfpg := hwf pg (List.mem_cons_self _ _)
      have hlt : (pg.page.containsInfo p).startLocation < pg.liveStarts.length := by
        rw [hwfpg.2]
        exact containsInfo_startLoc_lt pg.page p hwfpg.1 hp
      refine ⟨bit_set_self hlt, ?_⟩
      intro dp2 hdp2 hcond
      obtain ⟨dp, hdpmem, rfl⟩ := List.mem_map.mp hdp2
      rw [markPage_addr pg _ L dp] at hcond
      by_cases hc : (pg.page.containsInfo dp.addr).startLocation =
          (pg.page.containsInfo p).startLocation ∧ dp.level = 0
      · rw [if_pos hc]; exact hL
      · rw [if_neg hc]
        push_neg at hc
        exact Nat.pos_of_ne_zero (hc hcond)
    · rw [if_neg hp]
      unfold markEffectGo
      rw [if_neg hp]
      exact ih (fun x hx => hwf x (List.mem_cons_of_mem _ hx))

theorem mark_establishes (pgs : List DHPage) (p L : Nat) (hL : 1 ≤ L)
    (hwf : WfPages pgs) : MarkEffect (mark pgs p L) p := by
  by_cases hp : p = 0
  · exact Or.inl hp
  · unfold mark
    rw [if_neg hp]
    exact Or.inr (markGo_establishes pgs p L hL hwf)

theorem passStep_cases (L : Nat) (acc : List DHPage × Bool) (pos : Nat × Nat) :
    passStep L acc pos = acc ∨
    ∃ dp, getRec acc.1 pos = some dp ∧ dp.level = L - 1 ∧
      passStep L acc pos = (mark acc.1 dp.raw L, true) := by
  unfold passStep
  cases hg : getRec acc.1 pos with
  | none => exact Or.inl rfl
  | some dp =>
    dsimp only
    by_cases hl : dp.level = L - 1
    · exact Or.inr ⟨dp, rfl, hl, by rw [if_pos hl]⟩
    · rw [if_neg hl]; exact Or.inl rfl

theorem passStep_frozen (L : Nat) (acc : List DHPage × Bool) (pos : Nat × Nat) :
    Frozen acc.1 (passStep L acc pos).1 := by
  rcases passStep_cases L acc pos with heq | ⟨dp, _, _, heq⟩
  · rw [heq]; exact frozen_refl _
  · rw [heq]; exact mark_frozen acc.1 dp.raw L

theorem passStep_wf (L : Nat) (acc : List DHPage × Bool) (pos : Nat × Nat)
    (h : WfPages acc.1) : WfPages (passStep L acc pos).1 := by
  rcases passStep_cases L acc pos with heq | ⟨dp, _, _, heq⟩
  · rw [heq]; exact h
  · rw [heq]; exact wfPages_mark acc.1 dp.raw L h

theorem passStep_markEffect (L : Nat) (acc : List DHPage × Bool) (pos : Nat × Nat)
    (x : Nat) (h : MarkEffect acc.1 x) : MarkEffect (passStep L acc pos).1 x := by
  rcases passStep_cases L acc pos with heq | ⟨dp, _, _, heq⟩
  · rw [heq]; exact h
  · rw [heq]; exact markEffect_mark acc.1 dp.raw L x h

theorem foldl_pass_markEffect (L : Nat) (ps : List (Nat × Nat)) :
    ∀ (acc : List DHPage × Bool) (x : Nat), MarkEffect acc.1 x →
      MarkEffect ((ps.foldl (passStep L) acc)).1 x := by
  induction ps with
  | nil => intro acc x h; exact h
  | cons pos rest ih =>
    intro acc x h
    exact ih (passStep L acc pos) x (passStep_markEffect L acc pos x h)

theorem foldl_pass_wf (L : Nat) (ps : List (Nat × Nat)) :
    ∀ acc : List DHPage × Bool, WfPages acc.1 →
      WfPages ((ps.foldl (passStep L) acc)).1 := by
  induction ps with
  | nil => intro acc h; exact h
  | cons pos rest ih =>
    intro acc h
    exact ih (passStep L acc pos) (passStep_wf L acc pos h)

theorem pass_wf (pgs : List DHPage) (L : Nat) (h : WfPages pgs) :
    WfPages (pass pgs L).1 :=
  foldl_pass_wf L (positionsOf pgs) (pgs, false) h

theorem pass_markEffect (pgs : List DHPage) (L x : Nat) (h : MarkEffect pgs x) :
    MarkEffect (pass pgs L).1 x :=
  foldl_pass_markEffect L (positionsOf pgs) (pgs, false) x h

theorem foldl_pass_true_mono (L : Nat) (ps : List (Nat × Nat)) :
    ∀ acc : List DHPage × Bool, acc.2 = true →
      (ps.foldl (passStep L) acc).2 = true := by
  induction ps with
  | nil => intro acc h; exact h
  | cons pos rest ih =>
    intro acc h
    apply ih
    rcases passStep_cases L acc pos with heq | ⟨dp, _, _, heq⟩
    · rw [heq]; exact h
    · rw [heq]

theorem foldl_pass_notfound_id (L : Nat) (ps : List (Nat × Nat)) :
    ∀ acc : List DHPage × Bool, (ps.foldl (passStep L) acc).2 = false →
      ps.foldl (passStep L) acc = acc := by
  induction ps with
  | nil => intro acc _; rfl
  | cons pos rest ih =>
    intro acc hfin
    simp only [List.foldl_cons] at hfin ⊢
    rcases passStep_cases L acc pos with heq | ⟨dp, _, _, heq⟩
    · rw [heq] at hfin ⊢; exact ih acc hfin
    · exfalso
      rw [heq] at hfin
      rw [foldl_pass_true_mono L rest _ rfl] at hfin
      cases hfin

theorem pass_notfound_id (pgs : List DHPage) (L : Nat)
    (h : (pass pgs L).2 = false) : (pass pgs L).1 = pgs := by
  have := foldl_pass_notfound_id L (positionsOf pgs) (pgs, false) h
  unfold pass
  rw [this]

theorem positionsOf_mem (pgs : List DHPage) (pos : Nat × Nat) (dp : NonRoot)
    (h : getRec pgs pos = some dp) : pos ∈ positionsOf pgs := by
  unfold getRec at h
  cases hg : pgs.get? pos.1 with
  | none => rw [hg] at h; cases h
  | some pg =>
    rw [hg] at h
    dsimp only at h
    have hpi : pos.1 < pgs.length := by
      by_contra hge
      rw [List.get?_eq_none.mpr (le_of_not_lt hge)] at hg
      cases hg
    have hri : pos.2 < pg.dptrs.length := by
      by_contra hge
      rw [List.get?_eq_none.mpr (le_of_not_lt hge)] at h
      cases h
    unfold positionsOf
    rw [List.mem_flatMap]
    refine ⟨pos.1, List.mem_range.mpr hpi, ?_⟩
    rw [List.mem_map]
    refine ⟨pos.2, List.mem_range.mpr ?_, rfl⟩
    have hgetD : pgs.getD pos.1 default = pg := by
      unfold List.getD
      rw [hg]
      rfl
    rw [hgetD]
    exact hri

theorem foldl_pass_hits (L : Nat) (pgs : List DHPage) (pos : Nat × Nat)
    (dp : NonRoot) (hget : getRec pgs pos = some dp) (hlvl : dp.level = L - 1)
    (hL : 2 ≤ L) (ps : List (Nat × Nat)) :
    ∀ acc : List DHPage × Bool, Frozen pgs acc.1 → pos ∈ ps →
      (ps.foldl (passStep L) acc).2 = true := by
  induction ps with
  | nil => intro acc _ hmem; cases hmem
  | cons hd rest ih =>
    intro acc hfr hmem
    simp only [List.foldl_cons]
    by_cases hpos : hd = pos
    · subst hpos
      have hacc : getRec acc.1 hd = some dp :=
        hfr hd dp hget (by omega)
      have hstep : passStep L acc hd = (mark acc.1 dp.raw L, true) := by
        unfold passStep
        rw [hacc]
        dsimp only
        rw [if_pos hlvl]
      rw [hstep]
      exact foldl_pass_true_mono L rest _ rfl
    · have hmem2 : pos ∈ rest := by
        rcases List.mem_cons.mp hmem with h1 | h2
        · exact absurd h1.symm hpos
        · exact h2
      exact ih (passStep L acc hd)
        (frozen_trans hfr (passStep_frozen L acc hd)) hmem2

theorem pass_found_of_attains (pgs : List DHPage) (L : Nat) (hL : 2 ≤ L)
    (h : Attains pgs (L - 1)) : (pass pgs L).2 = true := by
  obtain ⟨pos, dp, hget, hlvl⟩ := h
  exact foldl_pass_hits L pgs pos dp hget hlvl hL (positionsOf pgs) (pgs, false)
    (frozen_refl pgs) (positionsOf_mem pgs pos dp hget)

theorem foldl_pass_process (L : Nat) (hL : 2 ≤ L) (pgs : List DHPage)
    (pos : Nat × Nat) (dp : NonRoot) (hget : getRec pgs pos = some dp)
    (hlvl : dp.level = L - 1) (ps : List (Nat × Nat)) :
    ∀ acc : List DHPage × Bool, Frozen pgs acc.1 → WfPages acc.1 → pos ∈ ps →
      MarkEffect ((ps.foldl (passStep L) acc)).1 dp.raw := by
  induction ps with
  | nil => intro acc _ _ hmem; cases hmem
  | cons hd rest ih =>
    intro acc hfr hwf hmem
    simp only [List.foldl_cons]
    by_cases hpos : hd = pos
    · subst hpos
      have hacc : getRec acc.1 hd = some dp := hfr hd dp hget (by omega)
      have hstep : passStep L acc hd = (mark acc.1 dp.raw L, true) := by
        unfold passStep
        rw [hacc]
        dsimp only
        rw [if_pos hlvl]
      rw [hstep]
      exact foldl_pass_markEffect L rest _ dp.raw
        (mark_establishes acc.1 dp.raw L (by omega) hwf)
    · have hmem2 : pos ∈ rest := by
        rcases List.mem_cons.mp hmem with h1 | h2
        · exact absurd h1.symm hpos
        · exact h2
      exact ih (passStep L acc hd)
        (frozen_trans hfr (passStep_frozen L acc hd))
        (passStep_wf L acc hd hwf) hmem2

theorem pass_processes (pgs : List DHPage) (L : Nat) (hL : 2 ≤ L)
    (hwf : WfPages pgs) (pos : Nat × Nat) (dp : NonRoot)
    (hget : getRec pgs pos = some dp) (hlvl : dp.level = L - 1) :
    MarkEffect (pass pgs L).1 dp.raw :=
  foldl_pass_process L hL pgs pos dp hget hlvl (positionsOf pgs) (pgs, false)
    (frozen_refl pgs) hwf (positionsOf_mem pgs pos dp hget)

theorem phase2go_saturates (fuel : Nat) :
    ∀ (pgs : List DHPage) (L : Nat), 2 ≤ L → WfPages pgs → LevelsLt pgs L →
      Processed pgs (L - 2) → (phase2go fuel pgs L).2.2 = true →
      Saturated (phase2go fuel pgs L).1 := by
  induction fuel with
  | zero => intro pgs L _ _ _ _ hdone; cases hdone
  | succ fuel ih =>
    intro pgs L hL hwf hlt hproc hdone
    by_cases hfound : (pass pgs L).2 = true
    · rw [phase2go_succ_found fuel pgs L hfound] at hdone ⊢
      apply ih (pass pgs L).1 (L + 1) (by omega) (pass_wf pgs L hwf)
      · intro pos dp2 hget2
        obtain ⟨dp, hget, hcase⟩ := pass_evol pgs L hL pos dp2 hget2
        rcases hcase with heq | ⟨hz, heq⟩
        · rw [heq]
          exact lt_trans (hlt pos dp hget) (by omega)
        · rw [heq]
          show L < L + 1
          omega
      · intro pos dp2 hget2 hpos2 hle2
        obtain ⟨dp, hget, hcase⟩ := pass_evol pgs L hL pos dp2 hget2
        rcases hcase with heq | ⟨hz, heq⟩
        · rw [heq] at hpos2 hle2 ⊢
          by_cases hcrit : dp.level = L - 1
          · exact pass_processes pgs L hL hwf pos dp hget hcrit
          · apply pass_markEffect
            apply hproc pos dp hget hpos2
            omega
        · exfalso
          rw [heq] at hle2
          have hcontra : L ≤ L + 1 - 2 := hle2
          omega
      · exact hdone
    · rw [Bool.not_eq_true] at hfound
      rw [phase2go_succ_notfound fuel pgs L hfound]
      have hid := pass_notfound_id pgs L hfound
      show Saturated ((pass pgs L).1, _, _).1
      rw [show ((pass pgs L).1,
        ([⟨false, countZero pgs - countZero (pass pgs L).1⟩] : List PassInfo),
        true).1 = (pass pgs L).1 from rfl, hid]
      intro pos dp hget hpos
      by_cases hcrit : dp.level = L - 1
      · exfalso
        have : Attains pgs (L - 1) := ⟨pos, dp, hget, hcrit⟩
        rw [pass_found_of_attains pgs L hL this] at hfound
        cases hfound
      · apply hproc pos dp hget hpos
        have := hlt pos dp hget
        omega

theorem markEffect_phase2go (fuel : Nat) :
    ∀ (pgs : List DHPage) (L x : Nat), MarkEffect pgs x →
      MarkEffect (phase2go fuel pgs L).1 x := by
  induction fuel with
  | zero => intro pgs L x h; exact h
  | succ fuel ih =>
    intro pgs L x h
    by_cases hfound : (pass pgs L).2 = true
    · rw [phase2go_succ_found fuel pgs L hfound]
      exact ih (pass pgs L).1 (L + 1) x (pass_markEffect pgs L x h)
    · rw [Bool.not_eq_true] at hfound
      rw [phase2go_succ_notfound fuel pgs L hfound]
      exact pass_markEffect pgs L x h

theorem markEffect_markRoots (roots : List RootPtr) :
    ∀ (pgs : List DHPage) (x : Nat), MarkEffect pgs x →
      MarkEffect (markRoots pgs roots) x := by
  induction roots with
  | nil => intro pgs x h; exact h
  | cons r rest ih =>
    intro pgs x h
    show MarkEffect (markRoots (mark pgs r.raw 1) rest) x
    exact ih (mark pgs r.raw 1) x (markEffect_mark pgs r.raw 1 x h)

theorem wfPages_markRoots (roots : List RootPtr) :
    ∀ pgs : List DHPage, WfPages pgs → WfPages (markRoots pgs roots) := by
  induction roots with
  | nil => intro pgs h; exact h
  | cons r rest ih =>
    intro pgs h
    show WfPages (markRoots (mark pgs r.raw 1) rest)
    exact ih (mark pgs r.raw 1) (wfPages_mark pgs r.raw 1 h)

theorem markRoots_effect (roots : List RootPtr) :
    ∀ pgs : List DHPage, WfPages pgs → ∀ r ∈ roots,
      MarkEffect (markRoots pgs roots) r.raw := by
  induction roots with
  | nil => intro pgs _ r hr; cases hr
  | cons r0 rest ih =>
    intro pgs hwf r hr
    rcases List.mem_cons.mp hr with rfl | hmem
    · show MarkEffect (markRoots (mark pgs r.raw 1) rest) r.raw
      exact markEffect_markRoots rest _ _
        (mark_establishes pgs r.raw 1 (le_refl 1) hwf)
    · show MarkEffect (markRoots (mark pgs r0.raw 1) rest) r.raw
      exact ih (mark pgs r0.raw 1) (wfPages_mark pgs r0.raw 1 hwf) r hmem

theorem wfPages_phase1 (h : Heap) (hwf : WfPages h.pages) :
    WfPages (phase1 h).pages := by
  intro pg hpg
  simp only [phase1, List.mem_map] at hpg
  obtain ⟨pg0, hpg0, rfl⟩ := hpg
  refine ⟨(hwf pg0 hpg0).1, ?_⟩
  simp only [List.length_replicate]
  exact (hwf pg0 hpg0).2

theorem levelsLt_mark1 (pgs : List DHPage) (p : Nat)
    (h : LevelsLt pgs 2) : LevelsLt (mark pgs p 1) 2 := by
  intro pos dp2 hget2
  obtain ⟨dp, hget, hcase⟩ := mark_get_bwd pgs p 1 pos dp2 hget2
  rcases hcase with heq | ⟨hz, heq⟩
  · rw [heq]; exact h pos dp hget
  · rw [heq]
    show (1 : Nat) < 2
    omega

theorem levelsLt_markRoots (roots : List RootPtr) :
    ∀ pgs : List DHPage, LevelsLt pgs 2 → LevelsLt (markRoots pgs roots) 2 := by
  induction roots with
  | nil => intro pgs h; exact h
  | cons r rest ih =>
    intro pgs h
    show LevelsLt (markRoots (mark pgs r.raw 1) rest) 2
    exact ih (mark pgs r.raw 1) (levelsLt_mark1 pgs r.raw h)

theorem levelsLt_phase1 (h : Heap) : LevelsLt (phase1 h).pages 2 := by
  intro pos dp hget
  rw [phase1_levels h pos dp hget]
  omega

theorem afterMarking_saturated (h : Heap) (hwf : WfPages h.pages) :
    Saturated (afterMarking h).pages := by
  have hwf1 : WfPages (phase1 h).pages := wfPages_phase1 h hwf
  have hwf0 : WfPages (markRoots (phase1 h).pages (phase1 h).roots) :=
    wfPages_markRoots _ _ hwf1
  have hlt0 : LevelsLt (markRoots (phase1 h).pages (phase1 h).roots) 2 :=
    levelsLt_markRoots _ _ (levelsLt_phase1 h)
  have hproc0 : Processed (markRoots (phase1 h).pages (phase1 h).roots) 0 :=
    fun pos dp _ h1 h2 => absurd (lt_of_lt_of_le h1 h2) (lt_irrefl 0)
  have hdone := (phase2_completes (markRoots (phase1 h).pages (phase1 h).roots)).1
  exact phase2go_saturates _ _ 2 (le_refl 2) hwf0 hlt0 hproc0 hdone

theorem afterMarking_roots_effect (h : Heap) (hwf : WfPages h.pages) :
    ∀ r ∈ h.roots, MarkEffect (afterMarking h).pages r.raw := by
  intro r hr
  have hwf1 : WfPages (phase1 h).pages := wfPages_phase1 h hwf
  have heff : MarkEffect (markRoots (phase1 h).pages (phase1 h).roots) r.raw :=
    markRoots_effect (phase1 h).roots (phase1 h).pages hwf1 r hr
  exact markEffect_phase2go _ _ 2 r.raw heff

theorem markEffectGo_not_condemnedGo (p : Nat) :
    ∀ pgs : List DHPage, markEffectGo pgs p → condemnedGo pgs p → False := by
  intro pgs
  induction pgs with
  | nil => intro _ hcond; exact hcond
  | cons pg rest ih =>
    intro hgo hcond
    unfold markEffectGo at hgo
    unfold condemnedGo at hcond
    by_cases hx : (pg.page.containsInfo p).found ≠ .notInRange
    · rw [if_pos hx] at hgo hcond
      have h1 := hgo.1
      rw [hcond.2] at h1
      exact absurd h1 (by decide)
    · rw [if_neg hx] at hgo hcond
      exact ih hgo hcond

theorem markEffect_not_condemned (pgs : List DHPage) (p : Nat)
    (h : MarkEffect pgs p) : ¬ CondemnedTarget pgs p := by
  rintro ⟨hp0, hcond⟩
  rcases h with h0 | hgo
  · exact hp0 h0
  · exact markEffectGo_not_condemnedGo p pgs hgo hcond

theorem mem_getRec (pgs : List DHPage) (pg : DHPage) (dp : NonRoot)
    (hpg : pg ∈ pgs) (hdp : dp ∈ pg.dptrs) : ∃ pos, getRec pgs pos = some dp := by
  obtain ⟨pi, hpi⟩ := List.get?_of_mem hpg
  obtain ⟨ri, hri⟩ := List.get?_of_mem hdp
  refine ⟨(pi, ri), ?_⟩
  unfold getRec
  rw [hpi]
  exact hri

theorem phase3_record_cases (h : Heap) (pg3 : DHPage) (dp3 : NonRoot)
    (hpg : pg3 ∈ (phase3 h).1.pages) (hdp : dp3 ∈ pg3.dptrs) :
    dp3.raw = 0 ∨
    ∃ pg dp, pg ∈ h.pages ∧ dp ∈ pg.dptrs ∧ 0 < dp.level ∧ dp3 = dp := by
  simp only [phase3, List.mem_map] at hpg
  obtain ⟨pg, hpgmem, rfl⟩ := hpg
  simp only [List.mem_map] at hdp
  obtain ⟨dp, hdpmem, heq⟩ := hdp
  by_cases hz : dp.level = 0
  · left
    rw [← heq, if_pos hz]
  · right
    refine ⟨pg, dp, hpgmem, hdpmem, Nat.pos_of_ne_zero hz, ?_⟩
    rw [← heq, if_neg hz]

theorem phase3_level0_null (h : Heap) (pg3 : DHPage) (dp3 : NonRoot)
    (hpg : pg3 ∈ (phase3 h).1.pages) (hdp : dp3 ∈ pg3.dptrs)
    (hl : dp3.level = 0) : dp3.raw = 0 := by
  simp only [phase3, List.mem_map] at hpg
  obtain ⟨pg, hpgmem, rfl⟩ := hpg
  simp only [List.mem_map] at hdp
  obtain ⟨dp, hdpmem, heq⟩ := hdp
  by_cases hz : dp.level = 0
  · rw [← heq, if_pos hz]
  · exfalso
    rw [← heq, if_neg hz] at hl
    exact hz hl

theorem phase3_events_reset (h : Heap) (e : Ev) (he : e ∈ (phase3 h).2) :
    ∃ a, e = Ev.reset a := by
  simp only [phase3, List.mem_flatMap, List.mem_map] at he
  obtain ⟨pg, hpg, dp, hdp, rfl⟩ := he
  exact ⟨dp.addr, rfl⟩

theorem updatePage_get (pages : List DHPage) :
    ∀ (pi : Nat) (f : DHPage → DHPage) (j : Nat),
      (updatePage pages pi f).get? j =
        if j = pi then (pages.get? j).map f else pages.get? j := by
  induction pages with
  | nil =>
    intro pi f j
    unfold updatePage
    cases j <;> simp
  | cons pg rest ih =>
    intro pi f j
    cases pi with
    | zero =>
      cases j with
      | zero => rfl
      | succ j => simp [updatePage]
    | succ pi =>
      cases j with
      | zero => rfl
      | succ j =>
        show (updatePage rest pi f).get? j = _
        rw [ih pi f j]
        by_cases hj : j = pi
        · rw [if_pos hj, if_pos (by omega)]
          rfl
        · rw [if_neg hj, if_neg (by omega)]
          rfl

theorem removeRecs_get (pgs : List DHPage) (td : List Destructor) (pi : Nat) :
    (removeRecs pgs td).get? pi = (pgs.get? pi).map (fun pg =>
      { pg with dptrs := pg.dptrs.filter (fun dp => !inDtorRanges td dp.addr) }) := by
  simp [removeRecs, List.get?_map]

theorem sweepLoc_step (acc : Heap × List Ev) (pos : Nat × Nat) :
    (sweepLoc acc pos).1.roots = acc.1.roots ∧
    (∀ e, e ∈ (sweepLoc acc pos).2 → e ∈ acc.2 ∨ ∀ a, e ≠ Ev.reset a) ∧
    (∀ pi pgA, (sweepLoc acc pos).1.pages.get? pi = some pgA →
      ∃ pgB, acc.1.pages.get? pi = some pgB ∧ ∀ dp ∈ pgA.dptrs, dp ∈ pgB.dptrs) := by
  unfold sweepLoc
  dsimp only
  cases hg : acc.1.pages.get? pos.1 with
  | none =>
    exact ⟨rfl, fun e he => Or.inl he, fun pi pgA hA => ⟨pgA, hA, fun dp hdp => hdp⟩⟩
  | some pg =>
    dsimp only
    split
    · refine ⟨rfl, ?_, ?_⟩
      · intro e he
        rcases List.mem_append.mp he with h1 | h2
        · exact Or.inl h1
        · right
          intro a
          rcases List.mem_append.mp h2 with h3 | h4
          · obtain ⟨d, -, rfl⟩ := List.mem_map.mp h3
            exact fun hcontra => Ev.noConfusion hcontra
          · obtain ⟨t, b, rfl⟩ := invokeEvents_shape _ _ h4
            exact fun hcontra => Ev.noConfusion hcontra
      · intro pi pgA hA
        rw [updatePage_get] at hA
        by_cases hpi : pi = pos.1
        · rw [if_pos hpi, removeRecs_get] at hA
          cases hB : acc.1.pages.get? pi with
          | none => rw [hB] at hA; cases hA
          | some pgB =>
            rw [hB] at hA
            simp only [Option.map_some', Option.some.injEq] at hA
            refine ⟨pgB, rfl, ?_⟩
            intro dp hdp
            rw [← hA] at hdp
            exact List.mem_of_mem_filter hdp
        · rw [if_neg hpi, removeRecs_get] at hA
          cases hB : acc.1.pages.get? pi with
          | none => rw [hB] at hA; cases hA
          | some pgB =>
            rw [hB] at hA
            simp only [Option.map_some', Option.some.injEq] at hA
            refine ⟨pgB, rfl, ?_⟩
            intro dp hdp
            rw [← hA] at hdp
            exact List.mem_of_mem_filter hdp
    · exact ⟨rfl, fun e he => Or.inl he, fun pi pgA hA => ⟨pgA, hA, fun dp hdp => hdp⟩⟩

theorem foldl_sweep_inv (h0 : Heap) (ps : List (Nat × Nat)) :
    ∀ acc : Heap × List Ev,
      acc.1.roots = h0.roots →
      (∀ e, e ∈ acc.2 → ∀ a, e ≠ Ev.reset a) →
      (∀ pi pgA, acc.1.pages.get? pi = some pgA →
        ∃ pgB, h0.pages.get? pi = some pgB ∧ ∀ dp ∈ pgA.dptrs, dp ∈ pgB.dptrs) →
      (ps.foldl sweepLoc acc).1.roots = h0.roots ∧
      (∀ e, e ∈ (ps.foldl sweepLoc acc).2 → ∀ a, e ≠ Ev.reset a) ∧
      (∀ pi pgA, (ps.foldl sweepLoc acc).1.pages.get? pi = some pgA →
        ∃ pgB, h0.pages.get? pi = some pgB ∧ ∀ dp ∈ pgA.dptrs, dp ∈ pgB.dptrs) := by
  induction ps with
  | nil => intro acc h1 h2 h3; exact ⟨h1, h2, h3⟩
  | cons pos rest ih =>
    intro acc h1 h2 h3
    obtain ⟨s1, s2, s3⟩ := sweepLoc_step acc pos
    apply ih (sweepLoc acc pos)
    · rw [s1]; exact h1
    · intro e he
      rcases s2 e he with hin | hnew
      · exact h2 e hin
      · exact hnew
    · intro pi pgA hA
      obtain ⟨pgB, hB, hsub⟩ := s3 pi pgA hA
      obtain ⟨pgC, hC, hsub2⟩ := h3 pi pgB hB
      exact ⟨pgC, hC, fun dp hdp => hsub2 dp (hsub dp hdp)⟩

theorem phase4_invariants (h : Heap) :
    (phase4 h).1.roots = h.roots ∧
    (∀ e, e ∈ (phase4 h).2 → ∀ a, e ≠ Ev.reset a) ∧
    (∀ pi pgA, (phase4 h).1.pages.get? pi = some pgA →
      ∃ pgB, h.pages.get? pi = some pgB ∧ ∀ dp ∈ pgA.dptrs, dp ∈ pgB.dptrs) :=
  foldl_sweep_inv h (sweepPositions h.pages) (h, []) rfl
    (fun e he => absurd he (List.not_mem_nil e))
    (fun pi pgA hA => ⟨pgA, hA, fun dp hdp => hdp⟩)

/-- C2: in every `collect()` call the event trace is the phase 3 resets
followed by the phase 4 destructions; phase 3 resets exactly the non-root
records left at level 0 by marking (and those records then read null), every
reset strictly precedes every destructor invocation in the trace, at the
state in which phase 4 runs no tracked pointer — root or non-root — holds a
non-null address inside a condemned allocation, and phase 4 only removes
records (never altering a surviving pointer's value), so every destructor
run in phase 4 observes null for every tracked pointer into a condemned
allocation. -/
theorem c2_cycle_breaking_precedes_destruction (h : Heap) (hwf : WfPages h.pages) :
    (collect h).2 =
      (phase3 (afterMarking h)).2 ++ (phase4 (phase3 (afterMarking h)).1).2 ∧
    (phase3 (afterMarking h)).2 = (afterMarking h).pages.flatMap (fun pg =>
      (pg.dptrs.filter (fun dp => dp.level = 0)).map (fun dp => Ev.reset dp.addr)) ∧
    (∀ pg dp, pg ∈ (phase3 (afterMarking h)).1.pages → dp ∈ pg.dptrs →
      dp.level = 0 → dp.raw = 0) ∧
    (∀ i j t a b, (collect h).2.get? i = some (Ev.invoke t a) →
      (collect h).2.get? j = some (Ev.reset b) → j < i) ∧
    (∀ r, r ∈ (phase3 (afterMarking h)).1.roots →
      ¬ CondemnedTarget (afterMarking h).pages r.raw) ∧
    (∀ pg dp, pg ∈ (phase3 (afterMarking h)).1.pages → dp ∈ pg.dptrs →
      ¬ CondemnedTarget (afterMarking h).pages dp.raw) ∧
    (phase4 (phase3 (afterMarking h)).1).1.roots =
      (phase3 (afterMarking h)).1.roots ∧
    (∀ pi pg4, (phase4 (phase3 (afterMarking h)).1).1.pages.get? pi = some pg4 →
      ∃ pg3, (phase3 (afterMarking h)).1.pages.get? pi = some pg3 ∧
        ∀ dp ∈ pg4.dptrs, dp ∈ pg3.dptrs) := by
  obtain ⟨p4roots, p4events, p4sub⟩ := phase4_invariants (phase3 (afterMarking h)).1
  refine ⟨rfl, rfl, ?_, ?_, ?_, ?_, p4roots, p4sub⟩
  · intro pg dp hpg hdp hl
    exact phase3_level0_null (afterMarking h) pg dp hpg hdp hl
  · intro i j t a b hi hj
    set A := (phase3 (afterMarking h)).2 with hA
    set B := (phase4 (phase3 (afterMarking h)).1).2 with hB
    have htr : (collect h).2 = A ++ B := rfl
    rw [htr] at hi hj
    have hjA : j < A.length := by
      by_contra hge
      rw [List.get?_append_right (le_of_not_lt hge)] at hj
      exact absurd rfl (p4events _ (List.get?_mem hj) b)
    have hiA : ¬ i < A.length := by
      intro hlt
      rw [List.get?_append hlt] at hi
      obtain ⟨c, hc⟩ := phase3_events_reset (afterMarking h) _ (List.get?_mem hi)
      exact Ev.noConfusion hc
    omega
  · intro r hr
    have hreff : MarkEffect (afterMarking h).pages r.raw :=
      afterMarking_roots_effect h hwf r hr
    exact markEffect_not_condemned _ _ hreff
  · intro pg dp hpg hdp
    rcases phase3_record_cases (afterMarking h) pg dp hpg hdp with hz | ⟨pg2, dp2, hpg2, hdp2, hlvl2, heq⟩
    · rintro ⟨hne, -⟩
      exact hne hz
    · rw [heq]
      obtain ⟨pos, hget⟩ := mem_getRec (afterMarking h).pages pg2 dp2 hpg2 hdp2
      have hsat := afterMarking_saturated h hwf
      exact markEffect_not_condemned _ _ (hsat pos dp2 hget hlvl2)

/-- C2 witness: the theorem applied to the dropped three-cycle heap. -/
theorem c2_cycle_breaking_precedes_destruction_witness :
    WfPages hDroppedCycle.pages ∧
    (collect hDroppedCycle).2 =
      (phase3 (afterMarking hDroppedCycle)).2 ++
        (phase4 (phase3 (afterMarking hDroppedCycle)).1).2 :=
  ⟨by decide, (c2_cycle_breaking_precedes_destruction hDroppedCycle (by decide)).1⟩

/-! ## Claim C4: registration completeness -/

theorem updatePage_decomp (pgs : List DHPage) :
    ∀ (pi : Nat) (pg : DHPage), pgs.get? pi = some pg →
      ∀ f : DHPage → DHPage, ∃ l1 l2, pgs = l1 ++ pg :: l2 ∧ l1.length = pi ∧
        updatePage pgs pi f = l1 ++ f pg :: l2 := by
  induction pgs with
  | nil => intro pi pg hget f; cases pi <;> cases hget
  | cons hd rest ih =>
    intro pi pg hget f
    cases pi with
    | zero =>
      rw [show (hd :: rest).get? 0 = some hd from rfl, Option.some.injEq] at hget
      exact ⟨[], rest, by rw [hget, List.nil_append], rfl,
        by rw [hget]; rw [List.nil_append]; rfl⟩
    | succ pi =>
      obtain ⟨l1, l2, hsplit, hlen, hupd⟩ := ih pi pg hget f
      exact ⟨hd :: l1, l2, by rw [hsplit]; rfl,
        by simp [hlen],
        by show hd :: updatePage rest pi f = _; rw [hupd]; rfl⟩

theorem findDhpageIdx_some (pgs : List DHPage) (a pi : Nat)
    (h : findDhpageIdx pgs a = some pi) :
    ∃ pg, pgs.get? pi = some pg ∧ pg.page.contains a = true := by
  unfold findDhpageIdx at h
  have htest := List.find?_some h
  have hmem := List.mem_of_find?_eq_some h
  rw [List.mem_range] at hmem
  refine ⟨pgs.getD pi default, ?_, htest⟩
  unfold List.getD
  cases hg : pgs.get? pi with
  | none => rw [List.get?_eq_none] at hg; omega
  | some pg => rfl

theorem findDhpageIdx_none (pgs : List DHPage) (a : Nat)
    (h : findDhpageIdx pgs a = none) :
    ∀ pg ∈ pgs, pg.page.contains a = false := by
  intro pg hpg
  obtain ⟨pi, hpi⟩ := List.get?_of_mem hpg
  have hlt : pi < pgs.length := by
    by_contra hge
    rw [List.get?_eq_none.mpr (le_of_not_lt hge)] at hpi
    cases hpi
  unfold findDhpageIdx at h
  rw [List.find?_eq_none] at h
  have := h pi (List.mem_range.mpr hlt)
  rw [Bool.not_eq_true] at this
  have hgd : pgs.getD pi default = pg := by
    unfold List.getD
    rw [hpi]
    rfl
  rw [hgd] at this
  exact this

theorem natSum_pos_iff (l : List Nat) : 0 < l.sum ↔ ∃ x ∈ l, 0 < x := by
  induction l with
  | nil => simp
  | cons x xs ih =>
    simp only [List.sum_cons, List.mem_cons]
    constructor
    · intro h
      by_cases hx : 0 < x
      · exact ⟨x, Or.inl rfl, hx⟩
      · have : 0 < xs.sum := by omega
        obtain ⟨y, hy, hy2⟩ := ih.mp this
        exact ⟨y, Or.inr hy, hy2⟩
    · rintro ⟨y, hycase, hy2⟩
      rcases hycase with rfl | hmem
      · omega
      · have := ih.mpr ⟨y, hmem, hy2⟩
        omega

theorem set_append_length (X : List NonRoot) (z : NonRoot) :
    ∀ v, (X ++ [z]).set X.length v = X ++ [v] := by
  induction X with
  | nil => intro v; rfl
  | cons x xs ih =>
    intro v
    show x :: (xs ++ [z]).set xs.length v = x :: (xs ++ [v])
    rw [ih v]

theorem set_append_left (X Y : List NonRoot) :
    ∀ (k : Nat) (v : NonRoot), k < X.length →
      (X ++ Y).set k v = X.set k v ++ Y := by
  induction X with
  | nil => intro k v hk; cases hk
  | cons x xs ih =>
    intro k v hk
    cases k with
    | zero => rfl
    | succ k =>
      show x :: (xs ++ Y).set k v = x :: (xs.set k v ++ Y)
      rw [ih k v (by simpa using hk)]

theorem getD_concat (X : List NonRoot) (z : NonRoot) :
    (X ++ [z]).getD ((X ++ [z]).length - 1) default = z := by
  unfold List.getD
  have hlen : (X ++ [z]).length - 1 = X.length := by
    simp
  rw [hlen, List.get?_concat_length]
  rfl

theorem set_append_cons (A B : List NonRoot) (x v : NonRoot) :
    (A ++ x :: B).set A.length v = A ++ v :: B := by
  induction A with
  | nil => rfl
  | cons a as ih =>
    show a :: (as ++ x :: B).set as.length v = a :: (as ++ v :: B)
    rw [ih]

theorem set_mid_subperm (A B : List NonRoot) (x z : NonRoot) :
    List.Subperm (A ++ z :: B) ((A ++ x :: B) ++ [z]) := by
  rw [List.subperm_ext_iff]
  intro y hy
  simp only [List.count_append, List.count_cons]
  omega

theorem swapRemove_subperm (l : List NonRoot) (a : Nat) :
    List.Subperm (swapRemove l a) l := by
  unfold swapRemove
  by_cases hany : l.any (fun dp => dp.addr = a) = true
  · rw [if_pos hany]
    rcases List.eq_nil_or_concat l with rfl | ⟨X, z, hXz⟩
    · simp at hany
    · rw [List.concat_eq_append] at hXz
      subst hXz
      dsimp only
      set k := (X ++ [z]).length - 1 -
        (X ++ [z]).reverse.findIdx (fun dp => decide (dp.addr = a)) with hk
      rw [getD_concat]
      by_cases hkx : k < X.length
      · obtain ⟨A, x2, B, hsplit, hlenA⟩ :
            ∃ A x2 B, X = A ++ x2 :: B ∧ A.length = k := by
          refine ⟨X.take k, X.get ⟨k, hkx⟩, X.drop (k + 1), ?_, ?_⟩
          · conv_lhs => rw [← List.take_append_drop k X]
            rw [List.drop_eq_get_cons hkx]
          · exact List.length_take_of_le (le_of_lt hkx)
        rw [set_append_left X [z] k z hkx, List.dropLast_concat, hsplit, ← hlenA,
          set_append_cons A B x2 z]
        exact set_mid_subperm A B x2 z
      · have hkeq : k = X.length := by
          have h1 : k ≤ (X ++ [z]).length - 1 := by rw [hk]; omega
          have h2 : (X ++ [z]).length = X.length + 1 := by simp
          omega
        rw [hkeq, set_append_length, List.dropLast_concat]
        exact (List.sublist_append_left X [z]).subperm
  · rw [if_neg hany]

theorem regCount_enregister (h : Heap) (a v b : Nat) :
    regCount (enregister h a v) b = regCount h b + (if a = b then 1 else 0) := by
  unfold enregister
  cases hf : findDhpageIdx h.pages a with
  | none =>
    unfold regCount
    simp only [List.countP_append, List.countP_cons]
    by_cases hab : a = b
    · simp [hab] <;> omega
    · simp only [if_neg hab]
      have : decide ((⟨a, v⟩ : RootPtr).addr = b) = false := by
        simp [hab]
      simp [this] <;> omega
  | some pi =>
    obtain ⟨pg, hpg, hcont⟩ := findDhpageIdx_some h.pages a pi hf
    obtain ⟨l1, l2, hsplit, hlen, hupd⟩ := updatePage_decomp h.pages pi pg hpg
      (fun x => { x with dptrs := x.dptrs ++ [⟨a, v, 0⟩] })
    unfold regCount
    dsimp only
    rw [hupd, hsplit]
    simp only [List.map_append, List.map_cons, List.sum_append, List.sum_cons,
      List.countP_append, List.countP_cons, List.countP_nil]
    by_cases hab : a = b
    · simp [hab] <;> omega
    · have : decide ((⟨a, v, 0⟩ : NonRoot).addr = b) = false := by
        simp [hab]
      simp [this, hab] <;> omega

theorem isRegistered_iff (h : Heap) (a : Nat) :
    isRegistered h a ↔ 0 < regCount h a := by
  unfold isRegistered registeredAddrs regCount
  rw [List.mem_append]
  constructor
  · rintro (hr | hp)
    · rw [List.mem_map] at hr
      obtain ⟨r, hrm, hre⟩ := hr
      have : 0 < h.roots.countP (fun x => decide (x.addr = a)) :=
        List.countP_pos.mpr ⟨r, hrm, by simp [hre]⟩
      omega
    · rw [List.mem_flatMap] at hp
      obtain ⟨pg, hpgm, hm⟩ := hp
      rw [List.mem_map] at hm
      obtain ⟨dp, hdpm, hde⟩ := hm
      have hpos : 0 < pg.dptrs.countP (fun dp => decide (dp.addr = a)) :=
        List.countP_pos.mpr ⟨dp, hdpm, by simp [hde]⟩
      have h2 : 0 < (h.pages.map
          (fun pg => pg.dptrs.countP (fun dp => decide (dp.addr = a)))).sum :=
        (natSum_pos_iff _).mpr ⟨_, List.mem_map_of_mem _ hpgm, hpos⟩
      omega
  · intro hpos
    by_cases h1 : 0 < h.roots.countP (fun x => decide (x.addr = a))
    · obtain ⟨r, hrm, hr⟩ := List.countP_pos.mp h1
      left
      rw [List.mem_map]
      exact ⟨r, hrm, by simpa using hr⟩
    · have h2 : 0 < (h.pages.map
          (fun pg => pg.dptrs.countP (fun dp => decide (dp.addr = a)))).sum := by
        omega
      obtain ⟨x, hx, hxpos⟩ := (natSum_pos_iff _).mp h2
      rw [List.mem_map] at hx
      obtain ⟨pg, hpgm, rfl⟩ := hx
      obtain ⟨dp, hdpm, hdp⟩ := List.countP_pos.mp hxpos
      right
      rw [List.mem_flatMap]
      exact ⟨pg, hpgm, List.mem_map.mpr ⟨dp, hdpm, by simpa using hdp⟩⟩

theorem sum_le_sum_of_get (A : List Nat) :
    ∀ B : List Nat, A.length = B.length →
      (∀ i, i < A.length → A.getD i 0 ≤ B.getD i 0) → A.sum ≤ B.sum := by
  induction A with
  | nil => intro B _ _; simp
  | cons x xs ih =>
    intro B hlen hle
    cases B with
    | nil => cases hlen
    | cons y ys =>
      simp only [List.sum_cons]
      have hx : x ≤ y := hle 0 (by simp)
      have hxs : xs.sum ≤ ys.sum := by
        apply ih ys (by simpa using hlen)
        intro i hi
        exact hle (i + 1) (by simpa using Nat.succ_lt_succ hi)
      omega

theorem contains_of_shape (g1 g2 : GPage) (hb : g1.base = g2.base)
    (hm : g1.minAlloc = g2.minAlloc) (hl : g1.locs.length = g2.locs.length)
    (x : Nat) : g1.contains x = g2.contains x := by
  unfold GPage.contains GPage.totalSize
  rw [hb, hm, hl]

theorem shapes_get (A B : List DHPage) (hs : shapesOf A = shapesOf B) (pi : Nat)
    (pgA : DHPage) (hA : A.get? pi = some pgA) :
    ∃ pgB, B.get? pi = some pgB ∧ pgA.page.base = pgB.page.base ∧
      pgA.page.minAlloc = pgB.page.minAlloc ∧
      pgA.page.locs.length = pgB.page.locs.length := by
  have h1 : (shapesOf A).get? pi = (shapesOf B).get? pi := by rw [hs]
  unfold shapesOf at h1
  rw [List.get?_map, List.get?_map, hA] at h1
  cases hB : B.get? pi with
  | none => rw [hB] at h1; cases h1
  | some pgB =>
    rw [hB] at h1
    simp only [Option.map_some', Option.some.injEq, Prod.mk.injEq] at h1
    exact ⟨pgB, rfl, h1.1, h1.2.1, h1.2.2⟩

theorem pagesDisjoint_shapes (A B : List DHPage) (hg : shapesOf A = shapesOf B)
    (hA : pagesDisjoint A) : pagesDisjoint B := by
  unfold pagesDisjoint at hA ⊢
  have h1 : List.Pairwise (fun x y : Nat × Nat × Nat =>
      x.1 + x.2.1 * x.2.2 ≤ y.1 ∨ y.1 + y.2.1 * y.2.2 ≤ x.1) (shapesOf A) := by
    unfold shapesOf
    rw [List.pairwise_map]
    refine List.Pairwise.imp ?_ hA
    intro a b hab
    unfold pageRangesDisjoint GPage.totalSize at hab
    exact hab
  rw [hg] at h1
  unfold shapesOf at h1
  rw [List.pairwise_map] at h1
  refine List.Pairwise.imp ?_ h1
  intro a b hab
  unfold pageRangesDisjoint GPage.totalSize
  exact hab

theorem mem_updatePage (pgs : List DHPage) :
    ∀ (pi : Nat) (f : DHPage → DHPage) (q : DHPage), q ∈ updatePage pgs pi f →
      q ∈ pgs ∨ ∃ pg ∈ pgs, q = f pg := by
  induction pgs with
  | nil => intro pi f q hq; cases hq
  | cons hd rest ih =>
    intro pi f q hq
    cases pi with
    | zero =>
      rcases List.mem_cons.mp hq with rfl | hq2
      · exact Or.inr ⟨hd, List.mem_cons_self _ _, rfl⟩
      · exact Or.inl (List.mem_cons_of_mem _ hq2)
    | succ pi =>
      rcases List.mem_cons.mp hq with rfl | hq2
      · exact Or.inl (List.mem_cons_self _ _)
      · rcases ih pi f q hq2 with hin | ⟨pg, hpgm, he⟩
        · exact Or.inl (List.mem_cons_of_mem _ hin)
        · exact Or.inr ⟨pg, List.mem_cons_of_mem _ hpgm, he⟩

theorem shapesOf_updatePage (pgs : List DHPage) :
    ∀ (pi : Nat) (f : DHPage → DHPage),
      (∀ pg, (f pg).page.base = pg.page.base ∧ (f pg).page.minAlloc = pg.page.minAlloc ∧
        (f pg).page.locs.length = pg.page.locs.length) →
      shapesOf (updatePage pgs pi f) = shapesOf pgs := by
  induction pgs with
  | nil => intro pi f _; cases pi <;> rfl
  | cons hd rest ih =>
    intro pi f hf
    cases pi with
    | zero =>
      show ((f hd).page.base, (f hd).page.minAlloc, (f hd).page.locs.length) ::
        shapesOf rest = _
      rw [(hf hd).1, (hf hd).2.1, (hf hd).2.2]
      rfl
    | succ pi =>
      show _ :: shapesOf (updatePage rest pi f) = _
      rw [ih pi f hf]
      rfl

theorem mem_updatePage_at (pgs : List DHPage) (pi : Nat) (pg : DHPage)
    (hpg : pgs.get? pi = some pg) (f : DHPage → DHPage) (q : DHPage)
    (hq : q ∈ updatePage pgs pi f) : q ∈ pgs ∨ q = f pg := by
  obtain ⟨l1, l2, hsplit, hlen, hupd⟩ := updatePage_decomp pgs pi pg hpg f
  rw [hupd, List.mem_append, List.mem_cons] at hq
  rcases hq with h1 | h2 | h3
  · rw [hsplit]; exact Or.inl (List.mem_append_left _ h1)
  · exact Or.inr h2
  · rw [hsplit]; exact Or.inl (List.mem_append_right _ (List.mem_cons_of_mem _ h3))

theorem updatePage_length (pgs : List DHPage) :
    ∀ (pi : Nat) (f : DHPage → DHPage), (updatePage pgs pi f).length = pgs.length := by
  induction pgs with
  | nil => intro pi f; cases pi <;> rfl
  | cons hd rest ih =>
    intro pi f
    cases pi with
    | zero => rfl
    | succ pi =>
      show (updatePage rest pi f).length + 1 = _
      rw [ih]
      rfl

theorem shapesOf_updatePage_at (pgs : List DHPage) (pi : Nat) (pg : DHPage)
    (hpg : pgs.get? pi = some pg) (f : DHPage → DHPage)
    (hf : (f pg).page.base = pg.page.base ∧ (f pg).page.minAlloc = pg.page.minAlloc ∧
      (f pg).page.locs.length = pg.page.locs.length) :
    shapesOf (updatePage pgs pi f) = shapesOf pgs := by
  obtain ⟨l1, l2, hsplit, hlen, hupd⟩ := updatePage_decomp pgs pi pg hpg f
  rw [hupd, hsplit]
  unfold shapesOf
  rw [List.map_append, List.map_append, List.map_cons, List.map_cons,
    hf.1, hf.2.1, hf.2.2]

theorem markRun_length (locs : List Loc) (i k : Nat) :
    (GPage.markRun locs i k).length = locs.length := by
  unfold GPage.markRun
  generalize List.range k = js
  induction js generalizing locs with
  | nil => rfl
  | cons j js ih => rw [List.foldl_cons, ih, List.length_set]

theorem allocate_shape (g g2 : GPage) (bytes q : Nat)
    (h : g.allocate bytes = some (g2, q)) :
    g2.base = g.base ∧ g2.minAlloc = g.minAlloc ∧
    g2.locs.length = g.locs.length := by
  unfold GPage.allocate at h
  by_cases hm : g.minAlloc = 0
  · rw [if_pos hm] at h; cases h
  · rw [if_neg hm] at h
    dsimp only at h
    cases hf : GPage.findRun g.locs ((bytes + g.minAlloc - 1) / g.minAlloc) 0
        (g.locs.length + 1) with
    | none => rw [hf] at h; cases h
    | some i =>
      rw [hf] at h
      simp only [Option.some.injEq, Prod.mk.injEq] at h
      rw [← h.1]
      exact ⟨rfl, rfl, markRun_length _ _ _⟩

theorem freeMids_length (fuel : Nat) :
    ∀ (locs : List Loc) (j : Nat), (GPage.freeMids fuel locs j).length = locs.length := by
  induction fuel with
  | zero => intro locs j; rfl
  | succ f ih =>
    intro locs j
    unfold GPage.freeMids
    by_cases hc : locs.getD j .free = Loc.mid
    · rw [if_pos hc, ih, List.length_set]
    · rw [if_neg hc]

theorem freeRun_length (locs : List Loc) (i : Nat) :
    (GPage.freeRun locs i).length = locs.length := by
  unfold GPage.freeRun; rw [freeMids_length, List.length_set]

theorem deallocate_shape (g : GPage) (p : Nat) :
    (g.deallocate p).base = g.base ∧ (g.deallocate p).minAlloc = g.minAlloc ∧
    (g.deallocate p).locs.length = g.locs.length :=
  ⟨rfl, rfl, freeRun_length _ _⟩

theorem addr_markPage (pg : DHPage) (s L : Nat) :
    (markPage pg s L).dptrs.map (fun dp => dp.addr) =
      pg.dptrs.map (fun dp => dp.addr) := by
  unfold markPage
  dsimp only
  rw [List.map_map]
  apply List.map_congr_left
  intro dp _
  simp only [Function.comp]
  split <;> rfl

theorem addrsOf_markGo (pgs : List DHPage) :
    ∀ p L, addrsOf (markGo pgs p L) = addrsOf pgs := by
  induction pgs with
  | nil => intro p L; rfl
  | cons pg rest ih =>
    intro p L
    unfold markGo
    dsimp only
    split
    · show (markPage pg _ L).dptrs.map _ :: addrsOf rest = pg.dptrs.map _ :: addrsOf rest
      rw [addr_markPage]
    · show pg.dptrs.map _ :: addrsOf (markGo rest p L) = _
      rw [ih p L]
      rfl

theorem addrsOf_mark (pgs : List DHPage) (p L : Nat) :
    addrsOf (mark pgs p L) = addrsOf pgs := by
  unfold mark
  split
  · rfl
  · exact addrsOf_markGo pgs p L

theorem addrsOf_passStep (L : Nat) (acc : List DHPage × Bool) (pos : Nat × Nat) :
    addrsOf (passStep L acc pos).1 = addrsOf acc.1 := by
  unfold passStep
  cases hg : getRec acc.1 pos with
  | none => rfl
  | some dp =>
    dsimp only
    split
    · exact addrsOf_mark _ _ _
    · rfl

theorem addrsOf_foldl_passStep (L : Nat) (ps : List (Nat × Nat)) :
    ∀ acc : List DHPage × Bool,
      addrsOf (ps.foldl (passStep L) acc).1 = addrsOf acc.1 := by
  induction ps with
  | nil => intro acc; rfl
  | cons p ps ih =>
    intro acc
    rw [List.foldl_cons, ih, addrsOf_passStep]

theorem addrsOf_pass (pgs : List DHPage) (L : Nat) :
    addrsOf (pass pgs L).1 = addrsOf pgs := by
  unfold pass
  exact addrsOf_foldl_passStep L _ _

theorem addrsOf_phase2go (fuel : Nat) :
    ∀ (pgs : List DHPage) (L : Nat),
      addrsOf (phase2go fuel pgs L).1 = addrsOf pgs := by
  induction fuel with
  | zero => intro pgs L; rfl
  | succ f ih =>
    intro pgs L
    unfold phase2go
    dsimp only
    split
    · dsimp only; rw [ih, addrsOf_pass]
    · dsimp only; rw [addrsOf_pass]

theorem addrsOf_markRoots (roots : List RootPtr) :
    ∀ pgs : List DHPage, addrsOf (markRoots pgs roots) = addrsOf pgs := by
  induction roots with
  | nil => intro pgs; rfl
  | cons r rs ih =>
    intro pgs
    unfold markRoots at ih ⊢
    rw [List.foldl_cons, ih, addrsOf_mark]

theorem addrsOf_phase1 (h : Heap) : addrsOf (phase1 h).pages = addrsOf h.pages := by
  unfold phase1 addrsOf
  dsimp only
  rw [List.map_map]
  apply List.map_congr_left
  intro pg _
  simp only [Function.comp]
  rw [List.map_map]
  apply List.map_congr_left
  intro dp _
  rfl

theorem addrsOf_phase3 (h : Heap) :
    addrsOf (phase3 h).1.pages = addrsOf h.pages := by
  unfold phase3 addrsOf
  dsimp only
  rw [List.map_map]
  apply List.map_congr_left
  intro pg _
  simp only [Function.comp]
  rw [List.map_map]
  apply List.map_congr_left
  intro dp _
  simp only [Function.comp]
  split <;> rfl

theorem addrsOf_afterMarking (h : Heap) :
    addrsOf (afterMarking h).pages = addrsOf h.pages := by
  unfold afterMarking phase2
  dsimp only
  rw [addrsOf_phase2go, addrsOf_markRoots, addrsOf_phase1]

theorem shapesOf_markGo (pgs : List DHPage) :
    ∀ p L, shapesOf (markGo pgs p L) = shapesOf pgs := by
  induction pgs with
  | nil => intro p L; rfl
  | cons pg rest ih =>
    intro p L
    unfold markGo
    dsimp only
    split
    · rfl
    · show _ :: shapesOf (markGo rest p L) = _
      rw [ih p L]
      rfl

theorem shapesOf_mark (pgs : List DHPage) (p L : Nat) :
    shapesOf (mark pgs p L) = shapesOf pgs := by
  unfold mark
  split
  · rfl
  · exact shapesOf_markGo pgs p L

theorem shapesOf_passStep (L : Nat) (acc : List DHPage × Bool) (pos : Nat × Nat) :
    shapesOf (passStep L acc pos).1 = shapesOf acc.1 := by
  unfold passStep
  cases hg : getRec acc.1 pos with
  | none => rfl
  | some dp =>
    dsimp only
    split
    · exact shapesOf_mark _ _ _
    · rfl

theorem shapesOf_foldl_passStep (L : Nat) (ps : List (Nat × Nat)) :
    ∀ acc : List DHPage × Bool,
      shapesOf (ps.foldl (passStep L) acc).1 = shapesOf acc.1 := by
  induction ps with
  | nil => intro acc; rfl
  | cons p ps ih =>
    intro acc
    rw [List.foldl_cons, ih, shapesOf_passStep]

theorem shapesOf_pass (pgs : List DHPage) (L : Nat) :
    shapesOf (pass pgs L).1 = shapesOf pgs := by
  unfold pass
  exact shapesOf_foldl_passStep L _ _

theorem shapesOf_phase2go (fuel : Nat) :
    ∀ (pgs : List DHPage) (L : Nat),
      shapesOf (phase2go fuel pgs L).1 = shapesOf pgs := by
  induction fuel with
  | zero => intro pgs L; rfl
  | succ f ih =>
    intro pgs L
    unfold phase2go
    dsimp only
    split
    · dsimp only; rw [ih, shapesOf_pass]
    · dsimp only; rw [shapesOf_pass]

theorem shapesOf_markRoots (roots : List RootPtr) :
    ∀ pgs : List DHPage, shapesOf (markRoots pgs roots) = shapesOf pgs := by
  induction roots with
  | nil => intro pgs; rfl
  | cons r rs ih =>
    intro pgs
    unfold markRoots at ih ⊢
    rw [List.foldl_cons, ih, shapesOf_mark]

theorem shapesOf_phase1 (h : Heap) :
    shapesOf (phase1 h).pages = shapesOf h.pages := by
  unfold phase1 shapesOf
  dsimp only
  rw [List.map_map]
  apply List.map_congr_left
  intro pg _
  rfl

theorem shapesOf_phase3 (h : Heap) :
    shapesOf (phase3 h).1.pages = shapesOf h.pages := by
  unfold phase3 shapesOf
  dsimp only
  rw [List.map_map]
  apply List.map_congr_left
  intro pg _
  rfl

theorem shapesOf_afterMarking (h : Heap) :
    shapesOf (afterMarking h).pages = shapesOf h.pages := by
  unfold afterMarking phase2
  dsimp only
  rw [shapesOf_phase2go, shapesOf_markRoots, shapesOf_phase1]

theorem shapesOf_removeRecs (pgs : List DHPage) (td : List Destructor) :
    shapesOf (removeRecs pgs td) = shapesOf pgs := by
  unfold removeRecs shapesOf
  rw [List.map_map]
  apply List.map_congr_left
  intro pg _
  rfl

theorem shapesOf_sweepLoc (acc : Heap × List Ev) (pos : Nat × Nat) :
    shapesOf (sweepLoc acc pos).1.pages = shapesOf acc.1.pages := by
  unfold sweepLoc
  dsimp only
  cases hg : acc.1.pages.get? pos.1 with
  | none => rfl
  | some pg =>
    dsimp only
    split
    · dsimp only
      rw [shapesOf_updatePage _ pos.1
          (fun q => { q with page := q.page.deallocate (pg.page.locPtr pos.2) })
          (fun q => deallocate_shape q.page (pg.page.locPtr pos.2)),
        shapesOf_removeRecs]
    · rfl

theorem shapesOf_foldl_sweepLoc (ps : List (Nat × Nat)) :
    ∀ acc : Heap × List Ev,
      shapesOf (ps.foldl sweepLoc acc).1.pages = shapesOf acc.1.pages := by
  induction ps with
  | nil => intro acc; rfl
  | cons p ps ih =>
    intro acc
    rw [List.foldl_cons, ih, shapesOf_sweepLoc]

theorem shapesOf_phase4 (h : Heap) :
    shapesOf (phase4 h).1.pages = shapesOf h.pages := by
  unfold phase4
  exact shapesOf_foldl_sweepLoc _ _

theorem shapesOf_collect (h : Heap) :
    shapesOf (collect h).1.pages = shapesOf h.pages := by
  unfold collect
  dsimp only
  rw [shapesOf_phase4, shapesOf_phase3, shapesOf_afterMarking]

theorem collect_roots (h : Heap) : (collect h).1.roots = h.roots := by
  unfold collect
  dsimp only
  rw [(phase4_invariants _).1]
  rfl

theorem addrsSub_refl (A : List DHPage) : AddrsSub A A := by
  refine ⟨rfl, ?_⟩
  intro pi pgA pgB hA hB
  rw [hA] at hB
  cases hB
  exact List.Sublist.refl _

theorem addrsSub_trans (A B C : List DHPage) (h1 : AddrsSub A B)
    (h2 : AddrsSub B C) : AddrsSub A C := by
  refine ⟨h1.1.trans h2.1, ?_⟩
  intro pi pgA pgC hA hC
  have hlt : pi < B.length := by
    obtain ⟨hlt', _⟩ := List.get?_eq_some.mp hA
    have h4 := h1.1
    omega
  have hB : B.get? pi = some (B.get ⟨pi, hlt⟩) := List.get?_eq_get hlt
  exact (h1.2 pi pgA _ hA hB).trans (h2.2 pi _ pgC hB hC)

theorem addrsSub_sweepLoc (acc : Heap × List Ev) (pos : Nat × Nat) :
    AddrsSub (sweepLoc acc pos).1.pages acc.1.pages := by
  unfold sweepLoc
  dsimp only
  cases hg : acc.1.pages.get? pos.1 with
  | none => exact addrsSub_refl _
  | some pg =>
    dsimp only
    split
    · dsimp only
      constructor
      · rw [updatePage_length]
        unfold removeRecs
        rw [List.length_map]
      · intro pi pgA pgB hA hB
        rw [updatePage_get] at hA
        by_cases hip : pi = pos.1
        · subst hip
          rw [if_pos rfl] at hA
          unfold removeRecs at hA
          rw [List.get?_map, hg] at hA
          simp only [Option.map_some', Option.some.injEq] at hA
          rw [hg] at hB
          injection hB with hB
          subst hB
          rw [← hA]
          exact List.Sublist.map _ (List.filter_sublist _)
        · rw [if_neg hip] at hA
          unfold removeRecs at hA
          rw [List.get?_map, hB] at hA
          simp only [Option.map_some', Option.some.injEq] at hA
          rw [← hA]
          exact List.Sublist.map _ (List.filter_sublist _)
    · exact addrsSub_refl _

theorem addrsSub_foldl_sweepLoc (ps : List (Nat × Nat)) :
    ∀ acc : Heap × List Ev, AddrsSub (ps.foldl sweepLoc acc).1.pages acc.1.pages := by
  induction ps with
  | nil => intro acc; exact addrsSub_refl _
  | cons p ps ih =>
    intro acc
    rw [List.foldl_cons]
    exact addrsSub_trans _ _ _ (ih _) (addrsSub_sweepLoc acc p)

theorem addrsSub_phase4 (h : Heap) : AddrsSub (phase4 h).1.pages h.pages :=
  addrsSub_foldl_sweepLoc _ (h, [])

theorem addrsSub_of_addrsOf_eq (A B : List DHPage) (he : addrsOf A = addrsOf B) :
    AddrsSub A B := by
  constructor
  · have hl := congrArg List.length he
    unfold addrsOf at hl
    rw [List.length_map, List.length_map] at hl
    exact hl
  · intro pi pgA pgB hA hB
    have h1 : (addrsOf A).get? pi = (addrsOf B).get? pi := by rw [he]
    unfold addrsOf at h1
    rw [List.get?_map, List.get?_map, hA, hB] at h1
    simp only [Option.map_some', Option.some.injEq] at h1
    rw [h1]

theorem addrsSub_collect (h : Heap) : AddrsSub (collect h).1.pages h.pages := by
  unfold collect
  dsimp only
  refine addrsSub_trans _ _ _ (addrsSub_phase4 _) ?_
  apply addrsSub_of_addrsOf_eq
  rw [addrsOf_phase3, addrsOf_afterMarking]

theorem countP_addr (l : List NonRoot) (a : Nat) :
    (l.map (fun dp => dp.addr)).countP (fun x => decide (x = a)) =
      l.countP (fun dp => decide (dp.addr = a)) := by
  rw [List.countP_map]
  rfl

theorem getD_map_zero (A : List DHPage) (fn : DHPage → Nat) :
    ∀ i : Nat, (A.map fn).getD i 0 = ((A.get? i).map fn).getD 0 := by
  induction A with
  | nil => intro i; cases i <;> rfl
  | cons x xs ih =>
    intro i
    cases i with
    | zero => rfl
    | succ i => exact ih i

theorem regCount_collect_le (h : Heap) (a : Nat) :
    regCount (collect h).1 a ≤ regCount h a := by
  have hs := addrsSub_collect h
  unfold regCount
  rw [collect_roots]
  have hp : ((collect h).1.pages.map
      (fun pg => pg.dptrs.countP (fun dp => decide (dp.addr = a)))).sum ≤
      (h.pages.map (fun pg => pg.dptrs.countP (fun dp => decide (dp.addr = a)))).sum := by
    apply sum_le_sum_of_get
    · rw [List.length_map, List.length_map]
      exact hs.1
    · intro i hi
      rw [List.length_map] at hi
      have hiB : i < h.pages.length := by
        have := hs.1
        omega
      have hA : (collect h).1.pages.get? i = some ((collect h).1.pages.get ⟨i, hi⟩) :=
        List.get?_eq_get hi
      have hB : h.pages.get? i = some (h.pages.get ⟨i, hiB⟩) := List.get?_eq_get hiB
      rw [getD_map_zero, getD_map_zero, hA, hB]
      dsimp only [Option.map_some', Option.getD_some]
      have hsub := hs.2 i _ _ hA hB
      have hle := List.Sublist.countP_le (fun x => decide (x = a)) hsub
      rw [countP_addr, countP_addr] at hle
      exact hle
  omega

theorem minv_enregister (h : Heap) (a v : Nat) (hfresh : ¬ isRegistered h a)
    (hd : pagesDisjoint h.pages) (hi : RegInv h) :
    pagesDisjoint (enregister h a v).pages ∧ RegInv (enregister h a v) := by
  obtain ⟨hA, hB, hC⟩ := hi
  have hcnt : ∀ b, regCount (enregister h a v) b ≤ 1 := by
    intro b
    rw [regCount_enregister]
    by_cases hab : a = b
    · subst hab
      have hz : regCount h a = 0 := by
        by_contra hne
        exact hfresh ((isRegistered_iff h a).mpr (by omega))
      rw [if_pos rfl]
      omega
    · rw [if_neg hab]
      have := hC b
      omega
  cases hf : findDhpageIdx h.pages a with
  | none =>
    have he : enregister h a v = { h with roots := h.roots ++ [⟨a, v⟩] } := by
      unfold enregister
      rw [hf]
    rw [he] at hcnt ⊢
    refine ⟨hd, ?_, ?_, hcnt⟩
    · intro r hr pg hpg
      rw [List.mem_append] at hr
      rcases hr with hr | hr
      · exact hA r hr pg hpg
      · rw [List.mem_singleton] at hr
        subst hr
        exact findDhpageIdx_none h.pages a hf pg hpg
    · intro pg hpg dp hdp
      exact hB pg hpg dp hdp
  | some pi =>
    obtain ⟨pg0, hpg0, hcont0⟩ := findDhpageIdx_some h.pages a pi hf
    have he : enregister h a v =
        { h with pages :=
            updatePage h.pages pi (fun pg => { pg with dptrs := pg.dptrs ++ [⟨a, v, 0⟩] }) } := by
      unfold enregister
      rw [hf]
    rw [he] at hcnt ⊢
    have hsh : shapesOf (updatePage h.pages pi
        (fun pg => { pg with dptrs := pg.dptrs ++ [⟨a, v, 0⟩] })) = shapesOf h.pages :=
      shapesOf_updatePage h.pages pi _ (fun pg => ⟨rfl, rfl, rfl⟩)
    refine ⟨pagesDisjoint_shapes h.pages _ hsh.symm hd, ?_, ?_, hcnt⟩
    · intro r hr pg hpg
      rcases mem_updatePage_at h.pages pi pg0 hpg0 _ pg hpg with hin | heq
      · exact hA r hr pg hin
      · rw [heq]
        exact hA r hr pg0 (List.get?_mem hpg0)
    · intro pg hpg dp hdp
      rcases mem_updatePage_at h.pages pi pg0 hpg0 _ pg hpg with hin | heq
      · exact hB pg hin dp hdp
      · rw [heq] at hdp ⊢
        rcases List.mem_append.mp hdp with h1 | h2
        · exact hB pg0 (List.get?_mem hpg0) dp h1
        · rw [List.mem_singleton] at h2
          subst h2
          exact hcont0

theorem regCount_deregister_le (h : Heap) (a b : Nat) :
    regCount (deregister h a) b ≤ regCount h b := by
  unfold deregister
  by_cases hr : h.roots.any (fun r => decide (r.addr = a))
  · rw [if_pos hr]
    unfold regCount
    dsimp only
    have hsub : (h.roots.filter (fun r => decide (r.addr ≠ a))).countP
        (fun r => decide (r.addr = b)) ≤
        h.roots.countP (fun r => decide (r.addr = b)) :=
      List.Sublist.countP_le _ (List.filter_sublist _)
    omega
  · rw [if_neg hr]
    cases hfind : (List.range h.pages.length).find?
        (fun pi => (h.pages.getD pi default).dptrs.any (fun dp => decide (dp.addr = a))) with
    | none => exact le_refl _
    | some pi =>
      have hpi : pi < h.pages.length :=
        List.mem_range.mp (List.mem_of_find?_eq_some hfind)
      have hpg : h.pages.get? pi = some (h.pages.get ⟨pi, hpi⟩) := List.get?_eq_get hpi
      obtain ⟨l1, l2, hsplit, hlen, hupd⟩ := updatePage_decomp h.pages pi _ hpg
        (fun pg => { pg with dptrs := swapRemove pg.dptrs a })
      unfold regCount
      dsimp only
      rw [hupd]
      conv_rhs => rw [hsplit]
      rw [List.map_append, List.map_append, List.map_cons, List.map_cons,
        List.sum_append, List.sum_append, List.sum_cons, List.sum_cons]
      have hsw : (swapRemove (h.pages.get ⟨pi, hpi⟩).dptrs a).countP
          (fun dp => decide (dp.addr = b)) ≤
          (h.pages.get ⟨pi, hpi⟩).dptrs.countP (fun dp => decide (dp.addr = b)) :=
        (swapRemove_subperm _ _).countP_le _
      dsimp only
      omega

theorem minv_deregister (h : Heap) (a : Nat)
    (hd : pagesDisjoint h.pages) (hi : RegInv h) :
    pagesDisjoint (deregister h a).pages ∧ RegInv (deregister h a) := by
  obtain ⟨hA, hB, hC⟩ := hi
  have hcnt : ∀ b, regCount (deregister h a) b ≤ 1 :=
    fun b => le_trans (regCount_deregister_le h a b) (hC b)
  unfold deregister at hcnt ⊢
  by_cases hr : h.roots.any (fun r => decide (r.addr = a))
  · rw [if_pos hr] at hcnt ⊢
    refine ⟨hd, ?_, ?_, hcnt⟩
    · intro r hrm pg hpg
      exact hA r (List.mem_of_mem_filter hrm) pg hpg
    · intro pg hpg dp hdp
      exact hB pg hpg dp hdp
  · rw [if_neg hr] at hcnt ⊢
    cases hfind : (List.range h.pages.length).find?
        (fun pi => (h.pages.getD pi default).dptrs.any (fun dp => decide (dp.addr = a))) with
    | none =>
      rw [hfind] at hcnt
      dsimp only at hcnt ⊢
      exact ⟨hd, hA, hB, hcnt⟩
    | some pi =>
      rw [hfind] at hcnt
      dsimp only at hcnt ⊢
      have hpi : pi < h.pages.length :=
        List.mem_range.mp (List.mem_of_find?_eq_some hfind)
      have hpg0 : h.pages.get? pi = some (h.pages.get ⟨pi, hpi⟩) := List.get?_eq_get hpi
      have hsh : shapesOf (updatePage h.pages pi
          (fun pg => { pg with dptrs := swapRemove pg.dptrs a })) = shapesOf h.pages :=
        shapesOf_updatePage h.pages pi _ (fun pg => ⟨rfl, rfl, rfl⟩)
      refine ⟨pagesDisjoint_shapes h.pages _ hsh.symm hd, ?_, ?_, hcnt⟩
      · intro r hrm pg hpg
        rcases mem_updatePage_at h.pages pi _ hpg0 _ pg hpg with hin | heq
        · exact hA r hrm pg hin
        · rw [heq]
          exact hA r hrm (h.pages.get ⟨pi, hpi⟩) (List.get?_mem hpg0)
      · intro pg hpg dp hdp
        rcases mem_updatePage_at h.pages pi _ hpg0 _ pg hpg with hin | heq
        · exact hB pg hin dp hdp
        · rw [heq] at hdp ⊢
          exact hB (h.pages.get ⟨pi, hpi⟩) (List.get?_mem hpg0) dp
            ((swapRemove_subperm _ _).subset hdp)

theorem regCount_setRaw (h : Heap) (a v b : Nat) :
    regCount (setRaw h a v) b = regCount h b := by
  unfold setRaw regCount
  dsimp only
  congr 1
  · rw [List.countP_map]
    apply List.countP_congr
    intro r _
    simp only [Function.comp]
    split <;> rfl
  · rw [List.map_map]
    congr 1
    apply List.map_congr_left
    intro pg _
    simp only [Function.comp]
    rw [List.countP_map]
    apply List.countP_congr
    intro dp _
    simp only [Function.comp]
    split <;> rfl

theorem minv_setRaw (h : Heap) (a v : Nat)
    (hd : pagesDisjoint h.pages) (hi : RegInv h) :
    pagesDisjoint (setRaw h a v).pages ∧ RegInv (setRaw h a v) := by
  obtain ⟨hA, hB, hC⟩ := hi
  have hsh : shapesOf (setRaw h a v).pages = shapesOf h.pages := by
    unfold setRaw shapesOf
    dsimp only
    rw [List.map_map]
    apply List.map_congr_left
    intro pg _
    rfl
  refine ⟨pagesDisjoint_shapes h.pages _ hsh.symm hd, ?_, ?_,
    fun b => by rw [regCount_setRaw]; exact hC b⟩
  · intro r2 hr2 pg2 hpg2
    unfold setRaw at hr2 hpg2
    dsimp only at hr2 hpg2
    rw [List.mem_map] at hr2 hpg2
    obtain ⟨r, hr, hre⟩ := hr2
    obtain ⟨pg, hpg, hpe⟩ := hpg2
    have haddr : r2.addr = r.addr := by
      rw [← hre]
      split <;> rfl
    rw [haddr, ← hpe]
    exact hA r hr pg hpg
  · intro pg2 hpg2 dp2 hdp2
    unfold setRaw at hpg2
    dsimp only at hpg2
    rw [List.mem_map] at hpg2
    obtain ⟨pg, hpg, hpe⟩ := hpg2
    rw [← hpe] at hdp2
    dsimp only at hdp2
    rw [List.mem_map] at hdp2
    obtain ⟨dp, hdp, hde⟩ := hdp2
    have haddr : dp2.addr = dp.addr := by
      rw [← hde]
      split <;> rfl
    rw [haddr, ← hpe]
    exact hB pg hpg dp hdp

theorem map_updatePage (pgs : List DHPage) :
    ∀ (pi : Nat) (f : DHPage → DHPage) (g : DHPage → Nat),
      (∀ pg, g (f pg) = g pg) → (updatePage pgs pi f).map g = pgs.map g := by
  induction pgs with
  | nil => intro pi f g _; cases pi <;> rfl
  | cons hd rest ih =>
    intro pi f g hg
    cases pi with
    | zero =>
      show g (f hd) :: rest.map g = g hd :: rest.map g
      rw [hg]
    | succ pi =>
      show g hd :: (updatePage rest pi f).map g = _
      rw [ih pi f g hg]
      rfl

theorem minv_allocInPage (h : Heap) (pi bytes : Nat) (pg : DHPage) (g2 : GPage) (q : Nat)
    (hpg : h.pages.get? pi = some pg) (halloc : pg.page.allocate bytes = some (g2, q))
    (hd : pagesDisjoint h.pages) (hi : RegInv h) :
    pagesDisjoint { h with
        pages := updatePage h.pages pi (fun x => { x with page := g2 }) }.pages ∧
    RegInv { h with pages := updatePage h.pages pi (fun x => { x with page := g2 }) } := by
  obtain ⟨hA, hB, hC⟩ := hi
  obtain ⟨hb, hm, hl⟩ := allocate_shape pg.page g2 bytes q halloc
  have hcof : ∀ x, g2.contains x = pg.page.contains x :=
    fun x => contains_of_shape g2 pg.page hb hm hl x
  have hsh : shapesOf (updatePage h.pages pi (fun x => { x with page := g2 })) =
      shapesOf h.pages :=
    shapesOf_updatePage_at h.pages pi pg hpg _ ⟨hb, hm, hl⟩
  refine ⟨pagesDisjoint_shapes h.pages _ hsh.symm hd, ?_, ?_, ?_⟩
  · intro r hr pg2 hpg2
    rcases mem_updatePage_at h.pages pi pg hpg _ pg2 hpg2 with hin | heq
    · exact hA r hr pg2 hin
    · rw [heq]
      show g2.contains r.addr = false
      rw [hcof]
      exact hA r hr pg (List.get?_mem hpg)
  · intro pg2 hpg2 dp hdp
    rcases mem_updatePage_at h.pages pi pg hpg _ pg2 hpg2 with hin | heq
    · exact hB pg2 hin dp hdp
    · rw [heq] at hdp ⊢
      show g2.contains dp.addr = true
      rw [hcof]
      exact hB pg (List.get?_mem hpg) dp hdp
  · intro b
    have heq : regCount { h with
        pages := updatePage h.pages pi (fun x => { x with page := g2 }) } b =
        regCount h b := by
      unfold regCount
      dsimp only
      have hmap : (updatePage h.pages pi (fun x => { x with page := g2 })).map
          (fun pg2 => pg2.dptrs.countP (fun dp => decide (dp.addr = b))) =
          h.pages.map (fun pg2 => pg2.dptrs.countP (fun dp => decide (dp.addr = b))) :=
        map_updatePage h.pages pi _ _ (fun x => rfl)
      rw [hmap]
    rw [heq]
    exact hC b

theorem minv_addPage (h : Heap) (base s n : Nat)
    (hdisj : ∀ pg ∈ h.pages, pageRangesDisjoint pg (freshDhpage base s n))
    (hfresh : ∀ a ∈ registeredAddrs h, (freshDhpage base s n).page.contains a = false)
    (hd : pagesDisjoint h.pages) (hi : RegInv h) :
    pagesDisjoint { h with pages := h.pages ++ [freshDhpage base s n] }.pages ∧
    RegInv { h with pages := h.pages ++ [freshDhpage base s n] } := by
  obtain ⟨hA, hB, hC⟩ := hi
  refine ⟨?_, ?_, ?_, ?_⟩
  · show List.Pairwise pageRangesDisjoint (h.pages ++ [freshDhpage base s n])
    rw [List.pairwise_append]
    refine ⟨hd, List.pairwise_singleton _ _, ?_⟩
    intro pg hpg q hq
    rw [List.mem_singleton] at hq
    subst hq
    exact hdisj pg hpg
  · intro r hr pg hpg
    rcases List.mem_append.mp hpg with hin | hone
    · exact hA r hr pg hin
    · rw [List.mem_singleton] at hone
      subst hone
      apply hfresh
      unfold registeredAddrs
      exact List.mem_append_left _ (List.mem_map_of_mem _ hr)
  · intro pg hpg dp hdp
    rcases List.mem_append.mp hpg with hin | hone
    · exact hB pg hin dp hdp
    · rw [List.mem_singleton] at hone
      subst hone
      cases hdp
  · intro b
    have heq : regCount { h with pages := h.pages ++ [freshDhpage base s n] } b =
        regCount h b := by
      unfold regCount
      dsimp only
      rw [List.map_append, List.sum_append]
      simp [freshDhpage]
    rw [heq]
    exact hC b

theorem minv_collect (h : Heap) (hd : pagesDisjoint h.pages) (hi : RegInv h) :
    pagesDisjoint (collect h).1.pages ∧ RegInv (collect h).1 := by
  obtain ⟨hA, hB, hC⟩ := hi
  have hsh := shapesOf_collect h
  have hsub := addrsSub_collect h
  refine ⟨pagesDisjoint_shapes h.pages _ hsh.symm hd, ?_, ?_,
    fun b => le_trans (regCount_collect_le h b) (hC b)⟩
  · intro r hr pg hpg
    rw [collect_roots] at hr
    obtain ⟨pi, hpi⟩ := List.get?_of_mem hpg
    obtain ⟨pgB, hpgB, hb, hm, hl⟩ := shapes_get _ _ hsh pi pg hpi
    rw [contains_of_shape pg.page pgB.page hb hm hl]
    exact hA r hr pgB (List.get?_mem hpgB)
  · intro pg hpg dp hdp
    obtain ⟨pi, hpi⟩ := List.get?_of_mem hpg
    obtain ⟨pgB, hpgB, hb, hm, hl⟩ := shapes_get _ _ hsh pi pg hpi
    have hsubl := hsub.2 pi pg pgB hpi hpgB
    have haddr : dp.addr ∈ pgB.dptrs.map (fun dp => dp.addr) :=
      hsubl.subset (List.mem_map_of_mem _ hdp)
    rw [List.mem_map] at haddr
    obtain ⟨dp0, hdp0, hde⟩ := haddr
    rw [contains_of_shape pg.page pgB.page hb hm hl, ← hde]
    exact hB pgB (List.get?_mem hpgB) dp0 hdp0

theorem hstep_minv (h h2 : Heap) (hs : HStep h h2)
    (hd : pagesDisjoint h.pages) (hi : RegInv h) :
    pagesDisjoint h2.pages ∧ RegInv h2 := by
  cases hs with
  | newNull a hfresh => exact minv_enregister h a 0 hfresh hd hi
  | newCopy a src v hfresh hsrc => exact minv_enregister h a v hfresh hd hi
  | newAllocated a v hfresh hv => exact minv_enregister h a v hfresh hd hi
  | drop a => exact minv_deregister h a hd hi
  | assignNull a => exact minv_setRaw h a 0 hd hi
  | assignCopy a src v hsrc => exact minv_setRaw h a v hd hi
  | storeDtor d => exact ⟨hd, hi⟩
  | setPolicy b => exact ⟨hd, hi⟩
  | allocInPage pi bytes pg g2 q hpg halloc =>
    exact minv_allocInPage h pi bytes pg g2 q hpg halloc hd hi
  | addPage base s n hdisj hfresh => exact minv_addPage h base s n hdisj hfresh hd hi
  | collectStep hwf => exact minv_collect h hd hi

theorem reach_minv (h : Heap) (hr : ReachH h) : pagesDisjoint h.pages ∧ RegInv h := by
  induction hr with
  | init =>
    refine ⟨List.Pairwise.nil, ?_, ?_, ?_⟩
    · intro r hr
      cases hr
    · intro pg hpg
      cases hpg
    · intro b
      show (0 : Nat) + 0 ≤ 1
      omega
  | step hr hs ih => exact hstep_minv _ _ hs ih.1 ih.2

/-- C4: in every heap state reachable by public operations, every registered
tracked pointer has exactly one tracking record (root set or one page's
non-root list); every root record's own address lies outside every page's
byte range; every page record's own address lies inside its page's byte
range; and pages have pairwise disjoint byte ranges, so the containing page
is unique. -/
theorem c4_registration_completeness (h : Heap) (hr : ReachH h) :
    (∀ a, isRegistered h a → regCount h a = 1) ∧
    (∀ r ∈ h.roots, ∀ pg ∈ h.pages, pg.page.contains r.addr = false) ∧
    (∀ pg ∈ h.pages, ∀ dp ∈ pg.dptrs, pg.page.contains dp.addr = true) ∧
    (∀ pi pj pgi pgj x, h.pages.get? pi = some pgi → h.pages.get? pj = some pgj →
      pgi.page.contains x = true → pgj.page.contains x = true → pi = pj) := by
  obtain ⟨hd, hA, hB, hC⟩ := reach_minv h hr
  refine ⟨?_, hA, hB, ?_⟩
  · intro a ha
    have h1 := (isRegistered_iff h a).mp ha
    have h2 := hC a
    omega
  · intro pi pj pgi pgj x hgi hgj hci hcj
    by_contra hne
    obtain ⟨hpi, hgi'⟩ := List.get?_eq_some.mp hgi
    obtain ⟨hpj, hgj'⟩ := List.get?_eq_some.mp hgj
    have hpd := List.pairwise_iff_get.mp hd
    have hdisj : pageRangesDisjoint pgi pgj ∨ pageRangesDisjoint pgj pgi := by
      rcases Nat.lt_or_ge pi pj with hlt | hge
      · left
        have hp := hpd ⟨pi, hpi⟩ ⟨pj, hpj⟩ hlt
        rwa [hgi', hgj'] at hp
      · have hlt : pj < pi := by omega
        right
        have hp := hpd ⟨pj, hpj⟩ ⟨pi, hpi⟩ hlt
        rwa [hgj', hgi'] at hp
    unfold GPage.contains at hci hcj
    have h1 := of_decide_eq_true hci
    have h2 := of_decide_eq_true hcj
    unfold pageRangesDisjoint at hdisj
    rcases hdisj with h3 | h3 <;> rcases h3 with h3 | h3 <;> omega

/-- C4 witness: from the empty heap, add one fresh page and register one
null tracked pointer at address 50; the theorem yields that 50 is tracked by
exactly one record. -/
theorem c4_registration_completeness_witness :
    regCount (enregister { emptyHeap with pages :=
        emptyHeap.pages ++ [freshDhpage 1000 4000 1] } 50 0) 50 = 1 := by
  have hstep1 : HStep emptyHeap { emptyHeap with pages :=
      emptyHeap.pages ++ [freshDhpage 1000 4000 1] } :=
    HStep.addPage emptyHeap 1000 4000 1 (by decide) (by decide)
  have hstep2 : HStep
      { emptyHeap with pages := emptyHeap.pages ++ [freshDhpage 1000 4000 1] }
      (enregister { emptyHeap with pages :=
        emptyHeap.pages ++ [freshDhpage 1000 4000 1] } 50 0) :=
    HStep.newNull _ 50 (by decide)
  have hreach : ReachH (enregister { emptyHeap with pages :=
      emptyHeap.pages ++ [freshDhpage 1000 4000 1] } 50 0) :=
    ReachH.step (ReachH.step ReachH.init hstep1) hstep2
  exact (c4_registration_completeness _ hreach).1 50 (by decide)

theorem gpagesOf_markGo (pgs : List DHPage) :
    ∀ p L, gpagesOf (markGo pgs p L) = gpagesOf pgs := by
  induction pgs with
  | nil => intro p L; rfl
  | cons pg rest ih =>
    intro p L
    unfold markGo
    dsimp only
    split
    · rfl
    · show _ :: gpagesOf (markGo rest p L) = _
      rw [ih p L]
      rfl

theorem gpagesOf_mark (pgs : List DHPage) (p L : Nat) :
    gpagesOf (mark pgs p L) = gpagesOf pgs := by
  unfold mark
  split
  · rfl
  · exact gpagesOf_markGo pgs p L

theorem gpagesOf_passStep (L : Nat) (acc : List DHPage × Bool) (pos : Nat × Nat) :
    gpagesOf (passStep L acc pos).1 = gpagesOf acc.1 := by
  unfold passStep
  cases hg : getRec acc.1 pos with
  | none => rfl
  | some dp =>
    dsimp only
    split
    · exact gpagesOf_mark _ _ _
    · rfl

theorem gpagesOf_foldl_passStep (L : Nat) (ps : List (Nat × Nat)) :
    ∀ acc : List DHPage × Bool,
      gpagesOf (ps.foldl (passStep L) acc).1 = gpagesOf acc.1 := by
  induction ps with
  | nil => intro acc; rfl
  | cons p ps ih =>
    intro acc
    rw [List.foldl_cons, ih, gpagesOf_passStep]

theorem gpagesOf_pass (pgs : List DHPage) (L : Nat) :
    gpagesOf (pass pgs L).1 = gpagesOf pgs := by
  unfold pass
  exact gpagesOf_foldl_passStep L _ _

theorem gpagesOf_phase2go (fuel : Nat) :
    ∀ (pgs : List DHPage) (L : Nat),
      gpagesOf (phase2go fuel pgs L).1 = gpagesOf pgs := by
  induction fuel with
  | zero => intro pgs L; rfl
  | succ f ih =>
    intro pgs L
    unfold phase2go
    dsimp only
    split
    · dsimp only; rw [ih, gpagesOf_pass]
    · dsimp only; rw [gpagesOf_pass]

theorem gpagesOf_markRoots (roots : List RootPtr) :
    ∀ pgs : List DHPage, gpagesOf (markRoots pgs roots) = gpagesOf pgs := by
  induction roots with
  | nil => intro pgs; rfl
  | cons r rs ih =>
    intro pgs
    unfold markRoots at ih ⊢
    rw [List.foldl_cons, ih, gpagesOf_mark]

theorem gpagesOf_phase1 (h : Heap) :
    gpagesOf (phase1 h).pages = gpagesOf h.pages := by
  unfold phase1 gpagesOf
  dsimp only
  rw [List.map_map]
  apply List.map_congr_left
  intro pg _
  rfl

theorem gpagesOf_phase3 (h : Heap) :
    gpagesOf (phase3 h).1.pages = gpagesOf h.pages := by
  unfold phase3 gpagesOf
  dsimp only
  rw [List.map_map]
  apply List.map_congr_left
  intro pg _
  rfl

theorem gpagesOf_afterMarking (h : Heap) :
    gpagesOf (afterMarking h).pages = gpagesOf h.pages := by
  unfold afterMarking phase2
  dsimp only
  rw [gpagesOf_phase2go, gpagesOf_markRoots, gpagesOf_phase1]

theorem allocatedB_gpages (A : List DHPage) :
    ∀ (B : List DHPage), gpagesOf A = gpagesOf B →
      ∀ x, allocatedB A x = allocatedB B x := by
  induction A with
  | nil =>
    intro B hg x
    cases B with
    | nil => rfl
    | cons b bs => cases hg
  | cons a as ih =>
    intro B hg x
    cases B with
    | nil => cases hg
    | cons b bs =>
      unfold gpagesOf at hg
      simp only [List.map_cons, List.cons.injEq] at hg
      obtain ⟨hpage, htail⟩ := hg
      unfold allocatedB
      rw [hpage]
      by_cases hc : (b.page.containsInfo x).found ≠ .notInRange
      · rw [if_pos hc, if_pos hc]
      · rw [if_neg hc, if_neg hc]
        exact ih bs htail x

theorem allocatedB_append (A : List DHPage) (fresh : DHPage) (x : Nat)
    (h : allocatedB A x = true) : allocatedB (A ++ [fresh]) x = true := by
  induction A with
  | nil => cases h
  | cons a as ih =>
    rw [List.cons_append]
    unfold allocatedB at h ⊢
    by_cases hc : (a.page.containsInfo x).found ≠ .notInRange
    · rw [if_pos hc] at h
      rw [if_pos hc]
      exact h
    · rw [if_neg hc] at h
      rw [if_neg hc]
      exact ih h

theorem obsOf_removeRecs (pgs : List DHPage) (td : List Destructor) :
    obsOf (removeRecs pgs td) = obsOf pgs := by
  unfold removeRecs obsOf
  rw [List.map_map]
  apply List.map_congr_left
  intro pg _
  rfl

theorem obsOf_phase3 (h : Heap) : obsOf (phase3 h).1.pages = obsOf h.pages := by
  unfold phase3 obsOf
  dsimp only
  rw [List.map_map]
  apply List.map_congr_left
  intro pg _
  rfl

theorem liveAllocGo_obs (A : List DHPage) :
    ∀ (B : List DHPage), obsOf A = obsOf B →
      ∀ x, liveAllocGo A x → liveAllocGo B x := by
  induction A with
  | nil =>
    intro B hg x hl
    cases hl
  | cons a as ih =>
    intro B hg x hl
    cases B with
    | nil => cases hg
    | cons b bs =>
      unfold obsOf at hg
      simp only [List.map_cons, List.cons.injEq, Prod.mk.injEq] at hg
      obtain ⟨⟨hpage, hbits⟩, htail⟩ := hg
      unfold liveAllocGo at hl ⊢
      rw [← hpage, ← hbits]
      by_cases hc : (a.page.containsInfo x).found ≠ .notInRange
      · rw [if_pos hc] at hl ⊢
        exact hl
      · rw [if_neg hc] at hl ⊢
        exact ih bs htail x hl

theorem liveAlloc_allocatedB (pgs : List DHPage) :
    ∀ x, liveAllocGo pgs x → allocatedB pgs x = true := by
  induction pgs with
  | nil => intro x hl; cases hl
  | cons pg rest ih =>
    intro x hl
    unfold liveAllocGo at hl
    unfold allocatedB
    by_cases hc : (pg.page.containsInfo x).found ≠ .notInRange
    · rw [if_pos hc] at hl
      rw [if_pos hc]
      exact decide_eq_true hl.1
    · rw [if_neg hc] at hl
      rw [if_neg hc]
      exact ih x hl

theorem liveAlloc_of_markEffect (pgs : List DHPage) :
    ∀ x, allocatedB pgs x = true → markEffectGo pgs x → liveAllocGo pgs x := by
  induction pgs with
  | nil => intro x ha _; cases ha
  | cons pg rest ih =>
    intro x ha hm
    unfold allocatedB at ha
    unfold markEffectGo at hm
    unfold liveAllocGo
    by_cases hc : (pg.page.containsInfo x).found ≠ .notInRange
    · rw [if_pos hc] at ha hm
      rw [if_pos hc]
      exact ⟨of_decide_eq_true ha, hm.1⟩
    · rw [if_neg hc] at ha hm
      rw [if_neg hc]
      exact ih x ha hm

theorem getD_set_ne_loc (l : List Loc) (i m : Nat) (v : Loc) (h : i ≠ m) :
    (l.set i v).getD m .free = l.getD m .free := by
  unfold List.getD
  rw [List.get?_set_ne _ _ h]

theorem freeMids_getD_lt (fuel : Nat) :
    ∀ (locs : List Loc) (j m : Nat), m < j →
      (GPage.freeMids fuel locs j).getD m .free = locs.getD m .free := by
  induction fuel with
  | zero => intro locs j m _; rfl
  | succ f ih =>
    intro locs j m hm
    unfold GPage.freeMids
    by_cases hc : locs.getD j .free = .mid
    · rw [if_pos hc, ih _ (j + 1) m (by omega), getD_set_ne_loc _ _ _ _ (by omega)]
    · rw [if_neg hc]

theorem freeMids_getD_stop (fuel : Nat) :
    ∀ (locs : List Loc) (j m t : Nat), j ≤ t → t ≤ m →
      locs.getD t .free ≠ .mid →
      (GPage.freeMids fuel locs j).getD m .free = locs.getD m .free := by
  induction fuel with
  | zero => intro locs j m t _ _ _; rfl
  | succ f ih =>
    intro locs j m t hjt htm hnm
    unfold GPage.freeMids
    by_cases hc : locs.getD j .free = .mid
    · have hne : j ≠ t := by
        intro hEq
        rw [hEq] at hc
        exact hnm hc
      have hjt' : j + 1 ≤ t := by omega
      rw [if_pos hc]
      rw [ih (locs.set j .free) (j + 1) m t hjt'
        htm (by rw [getD_set_ne_loc _ _ _ _ hne]; exact hnm)]
      exact getD_set_ne_loc _ _ _ _ (by omega)
    · rw [if_neg hc]

theorem backStart_succ (locs : List Loc) (ℓ : Nat) :
    GPage.backStart locs (ℓ + 1) =
      if locs.getD (ℓ + 1) .free = .mid then GPage.backStart locs ℓ else ℓ + 1 := by
  rfl

theorem backStart_mid_range (locs : List Loc) :
    ∀ ℓ m, GPage.backStart locs ℓ < m → m ≤ ℓ → locs.getD m .free = .mid := by
  intro ℓ
  induction ℓ with
  | zero =>
    intro m h1 h2
    have : GPage.backStart locs 0 = 0 := rfl
    omega
  | succ ℓ ih =>
    intro m h1 h2
    rw [backStart_succ] at h1
    by_cases hc : locs.getD (ℓ + 1) .free = .mid
    · rw [if_pos hc] at h1
      by_cases hmε : m = ℓ + 1
      · rw [hmε]
        exact hc
      · exact ih m h1 (by omega)
    · rw [if_neg hc] at h1
      omega

theorem backStart_stop (locs : List Loc) :
    ∀ ℓ, GPage.backStart locs ℓ = 0 ∨
      locs.getD (GPage.backStart locs ℓ) .free ≠ .mid := by
  intro ℓ
  induction ℓ with
  | zero => exact Or.inl rfl
  | succ ℓ ih =>
    rw [backStart_succ]
    by_cases hc : locs.getD (ℓ + 1) .free = .mid
    · rw [if_pos hc]
      exact ih
    · rw [if_neg hc]
      exact Or.inr hc

theorem backStart_congr (locs locs2 : List Loc) :
    ∀ ℓ, (∀ m, GPage.backStart locs ℓ ≤ m → m ≤ ℓ →
      locs2.getD m .free = locs.getD m .free) →
      GPage.backStart locs2 ℓ = GPage.backStart locs ℓ := by
  intro ℓ
  induction ℓ with
  | zero => intro _; rfl
  | succ ℓ ih =>
    intro hyp
    rw [backStart_succ, backStart_succ]
    by_cases hc : locs.getD (ℓ + 1) .free = .mid
    · have hbs : GPage.backStart locs (ℓ + 1) = GPage.backStart locs ℓ := by
        rw [backStart_succ, if_pos hc]
      have h2 : locs2.getD (ℓ + 1) .free = .mid := by
        rw [hyp (ℓ + 1) (backStart_le locs (ℓ + 1)) (le_refl _)]
        exact hc
      rw [if_pos hc, if_pos h2]
      apply ih
      intro m hm1 hm2
      exact hyp m (by rw [hbs]; exact hm1) (by omega)
    · have h2 : locs2.getD (ℓ + 1) .free ≠ .mid := by
        rw [hyp (ℓ + 1) (backStart_le locs (ℓ + 1)) (le_refl _)]
        exact hc
      rw [if_neg hc, if_neg h2]

theorem freeRun_getD_keep (locs : List Loc) (i s ℓ m : Nat)
    (hsm : s ≤ m) (hml : m ≤ ℓ) (hsi : s ≠ i)
    (hcase : ℓ < i ∨ (i < s ∧ locs.getD s .free ≠ .mid)) :
    (GPage.freeRun locs i).getD m .free = locs.getD m .free := by
  unfold GPage.freeRun
  rcases hcase with hlt | ⟨his, hnm⟩
  · rw [freeMids_getD_lt _ _ _ _ (by omega), getD_set_ne_loc _ _ _ _ (by omega)]
  · rw [freeMids_getD_stop _ _ _ _ s (by omega) hsm
      (by rw [getD_set_ne_loc _ _ _ _ (by omega)]; exact hnm),
      getD_set_ne_loc _ _ _ _ (by omega)]

theorem containsInfo_notInRange_iff (g : GPage) (x : Nat) :
    ((g.containsInfo x).found = .notInRange) ↔ g.contains x = false := by
  unfold GPage.containsInfo
  cases hc : g.contains x
  · rw [if_neg (by simp)]
    simp
  · rw [if_pos rfl]
    dsimp only
    constructor
    · intro h
      exfalso
      revert h
      cases g.locs.getD (g.locIndex x) .free <;> dsimp only <;> intro h <;> cases h
    · intro h
      cases h

theorem containsInfo_expand (g : GPage) (x : Nat) (hc : g.contains x = true) :
    g.containsInfo x =
      match g.locs.getD (g.locIndex x) .free with
      | .free => ⟨.inRangeUnallocated, g.locIndex x⟩
      | .strt => ⟨.inRangeAllocatedStart, g.locIndex x⟩
      | .mid => ⟨.inRangeAllocatedMiddle, GPage.backStart g.locs (g.locIndex x)⟩ := by
  unfold GPage.containsInfo
  rw [hc, if_pos rfl]

theorem dealloc_containsInfo_keep (g : GPage) (ls : List Bool) (i x : Nat)
    (hm : 0 < g.minAlloc) (hstart : g.isStart i = true)
    (hbit : ls.getD i false = false)
    (hfound : (g.containsInfo x).found = .inRangeAllocatedStart ∨
      (g.containsInfo x).found = .inRangeAllocatedMiddle)
    (hlive : ls.getD (g.containsInfo x).startLocation false = true) :
    (g.deallocate (g.locPtr i)).containsInfo x = g.containsInfo x := by
  have hstrt : g.locs.getD i .free = .strt := of_decide_eq_true hstart
  cases hc : g.contains x with
  | false =>
    exfalso
    unfold GPage.containsInfo at hfound
    rw [hc] at hfound
    simp at hfound
  | true =>
    have hc2 : (g.deallocate (g.locPtr i)).contains x = true := by
      rw [contains_of_shape (g.deallocate (g.locPtr i)) g rfl rfl (freeRun_length _ _)]
      exact hc
    have hidx : g.locIndex (g.locPtr i) = i := by
      unfold GPage.locIndex GPage.locPtr
      rw [Nat.add_sub_cancel_left]
      exact Nat.mul_div_cancel_left i hm
    have hloc2 : (g.deallocate (g.locPtr i)).locIndex x = g.locIndex x := rfl
    have hE1 := containsInfo_expand g x hc
    have hE2 := containsInfo_expand (g.deallocate (g.locPtr i)) x hc2
    rw [hE1] at hfound hlive
    rw [hE1, hE2, hloc2]
    cases hgl : g.locs.getD (g.locIndex x) .free with
    | free =>
      exfalso
      rw [hgl] at hfound
      dsimp only at hfound
      rcases hfound with h | h <;> cases h
    | strt =>
      rw [hgl] at hlive
      dsimp only at hlive
      have hsi : g.locIndex x ≠ i := by
        intro hEq
        rw [hEq, hbit] at hlive
        cases hlive
      have hkeep : ((g.deallocate (g.locPtr i)).locs).getD (g.locIndex x) .free =
          g.locs.getD (g.locIndex x) .free := by
        show (GPage.freeRun g.locs (g.locIndex (g.locPtr i))).getD (g.locIndex x) .free = _
        rw [hidx]
        apply freeRun_getD_keep g.locs i (g.locIndex x) (g.locIndex x) (g.locIndex x)
          (le_refl _) (le_refl _) hsi
        rcases Nat.lt_or_ge (g.locIndex x) i with hlt | hge
        · exact Or.inl hlt
        · right
          refine ⟨by omega, ?_⟩
          rw [hgl]
          intro hmm
          cases hmm
      rw [hkeep, hgl]
    | mid =>
      rw [hgl] at hlive
      dsimp only at hlive
      have hsi : GPage.backStart g.locs (g.locIndex x) ≠ i := by
        intro hEq
        rw [hEq, hbit] at hlive
        cases hlive
      have hsl : GPage.backStart g.locs (g.locIndex x) ≤ g.locIndex x :=
        backStart_le g.locs (g.locIndex x)
      have hcase : g.locIndex x < i ∨ (i < GPage.backStart g.locs (g.locIndex x) ∧
          g.locs.getD (GPage.backStart g.locs (g.locIndex x)) .free ≠ .mid) := by
        rcases Nat.lt_or_ge (GPage.backStart g.locs (g.locIndex x)) i with hlt | hge
        · left
          by_contra hnl
          have hil : i ≤ g.locIndex x := by omega
          have hmid : g.locs.getD i .free = .mid :=
            backStart_mid_range g.locs (g.locIndex x) i hlt hil
          rw [hstrt] at hmid
          cases hmid
        · right
          refine ⟨by omega, ?_⟩
          rcases backStart_stop g.locs (g.locIndex x) with h0 | hnm
          · omega
          · exact hnm
      have hA : ∀ m, GPage.backStart g.locs (g.locIndex x) ≤ m → m ≤ g.locIndex x →
          (GPage.freeRun g.locs i).getD m .free = g.locs.getD m .free := by
        intro m hm1 hm2
        exact freeRun_getD_keep g.locs i _ (g.locIndex x) m hm1 hm2 hsi hcase
      have hkeep : ((g.deallocate (g.locPtr i)).locs).getD (g.locIndex x) .free =
          g.locs.getD (g.locIndex x) .free := by
        show (GPage.freeRun g.locs (g.locIndex (g.locPtr i))).getD (g.locIndex x) .free = _
        rw [hidx]
        exact hA (g.locIndex x) hsl (le_refl _)
      have hbs : GPage.backStart ((g.deallocate (g.locPtr i)).locs) (g.locIndex x) =
          GPage.backStart g.locs (g.locIndex x) := by
        show GPage.backStart (GPage.freeRun g.locs (g.locIndex (g.locPtr i))) (g.locIndex x) = _
        rw [hidx]
        exact backStart_congr g.locs _ (g.locIndex x) hA
      rw [hkeep, hgl]
      dsimp only
      rw [hbs]

theorem liveAlloc_dealloc (pgs : List DHPage) :
    ∀ (pi : Nat) (pg : DHPage) (i st : Nat),
      pgs.get? pi = some pg → 0 < pg.page.minAlloc →
      st = pg.page.locPtr i →
      pg.page.isStart i = true → pg.liveStarts.getD i false = false →
      ∀ x, liveAllocGo pgs x →
      liveAllocGo (updatePage pgs pi
        (fun q => { q with page := q.page.deallocate st })) x := by
  induction pgs with
  | nil =>
    intro pi pg i st hpg
    cases pi <;> cases hpg
  | cons hd rest ih =>
    intro pi pg i st hpg hm hst hstart hbit x hl
    cases pi with
    | zero =>
      injection hpg with hpg
      subst hpg
      subst hst
      show liveAllocGo ({ hd with page := hd.page.deallocate (hd.page.locPtr i) } :: rest) x
      unfold liveAllocGo at hl ⊢
      by_cases hc : (hd.page.containsInfo x).found ≠ .notInRange
      · rw [if_pos hc] at hl
        have hkeep := dealloc_containsInfo_keep hd.page hd.liveStarts i x hm hstart hbit
          hl.1 hl.2
        dsimp only
        rw [hkeep, if_pos hc]
        exact hl
      · rw [if_neg hc] at hl
        have h1 : (hd.page.containsInfo x).found = .notInRange := not_not.mp hc
        have h2 : hd.page.contains x = false := (containsInfo_notInRange_iff _ _).mp h1
        have h3 : (hd.page.deallocate (hd.page.locPtr i)).contains x = false := by
          rw [contains_of_shape (hd.page.deallocate (hd.page.locPtr i)) hd.page rfl rfl
            (freeRun_length _ _)]
          exact h2
        have h4 := (containsInfo_notInRange_iff _ _).mpr h3
        dsimp only
        rw [if_neg (fun hnn => hnn h4)]
        exact hl
    | succ pi =>
      show liveAllocGo (hd :: updatePage rest pi _) x
      unfold liveAllocGo at hl ⊢
      by_cases hc : (hd.page.containsInfo x).found ≠ .notInRange
      · rw [if_pos hc] at hl ⊢
        exact hl
      · rw [if_neg hc] at hl ⊢
        exact ih pi pg i st hpg hm hst hstart hbit x hl

theorem wfPages_removeRecs (pgs : List DHPage) (td : List Destructor)
    (h : WfPages pgs) : WfPages (removeRecs pgs td) := by
  intro pg2 hpg2
  unfold removeRecs at hpg2
  rw [List.mem_map] at hpg2
  obtain ⟨pg, hpg, rfl⟩ := hpg2
  exact h pg hpg

theorem wfPage_dealloc (pg : DHPage) (st : Nat) (h : WfPage pg) :
    WfPage { pg with page := pg.page.deallocate st } := by
  obtain ⟨hm, hlen⟩ := h
  refine ⟨hm, ?_⟩
  show pg.liveStarts.length = (GPage.freeRun pg.page.locs _).length
  rw [freeRun_length]
  exact hlen

theorem wfPages_sweepLoc (acc : Heap × List Ev) (pos : Nat × Nat)
    (hwf : WfPages acc.1.pages) : WfPages (sweepLoc acc pos).1.pages := by
  unfold sweepLoc
  dsimp only
  cases hg : acc.1.pages.get? pos.1 with
  | none => exact hwf
  | some pg =>
    dsimp only
    split
    · dsimp only
      intro pg2 hpg2
      rcases mem_updatePage _ _ _ pg2 hpg2 with hin | ⟨pg1, hpg1, heq⟩
      · exact wfPages_removeRecs _ _ hwf pg2 hin
      · rw [heq]
        exact wfPage_dealloc pg1 _ (wfPages_removeRecs _ _ hwf pg1 hpg1)
    · exact hwf

theorem liveAlloc_sweepLoc (acc : Heap × List Ev) (pos : Nat × Nat)
    (hwf : WfPages acc.1.pages) (x : Nat) (hl : liveAllocGo acc.1.pages x) :
    liveAllocGo (sweepLoc acc pos).1.pages x := by
  unfold sweepLoc
  dsimp only
  cases hg : acc.1.pages.get? pos.1 with
  | none => exact hl
  | some pg =>
    dsimp only
    split
    · dsimp only
      rename_i hcond
      have hl1 : liveAllocGo (removeRecs acc.1.pages
          (runSplit acc.1.dtors (pg.page.locPtr pos.2) (findEndPtr pg.page pos.2)).2) x :=
        liveAllocGo_obs _ _ (obsOf_removeRecs _ _).symm x hl
      have hg2 : (removeRecs acc.1.pages
          (runSplit acc.1.dtors (pg.page.locPtr pos.2) (findEndPtr pg.page pos.2)).2).get?
            pos.1 = some { pg with dptrs := pg.dptrs.filter (fun dp =>
              !inDtorRanges (runSplit acc.1.dtors (pg.page.locPtr pos.2)
                (findEndPtr pg.page pos.2)).2 dp.addr) } := by
        rw [removeRecs_get, hg]
        rfl
      exact liveAlloc_dealloc _ pos.1 _ pos.2 (pg.page.locPtr pos.2) hg2
        (hwf pg (List.get?_mem hg)).1 rfl hcond.1 hcond.2 x hl1
    · exact hl

theorem phase4_keep (ps : List (Nat × Nat)) :
    ∀ acc : Heap × List Ev, WfPages acc.1.pages →
      WfPages (ps.foldl sweepLoc acc).1.pages ∧
      (∀ x, liveAllocGo acc.1.pages x →
        liveAllocGo (ps.foldl sweepLoc acc).1.pages x) := by
  induction ps with
  | nil => intro acc hwf; exact ⟨hwf, fun x hl => hl⟩
  | cons p ps ih =>
    intro acc hwf
    rw [List.foldl_cons]
    have hwf2 := wfPages_sweepLoc acc p hwf
    obtain ⟨hw, hk⟩ := ih (sweepLoc acc p) hwf2
    exact ⟨hw, fun x hl => hk x (liveAlloc_sweepLoc acc p hwf x hl)⟩

theorem liveAlloc_phase4 (h : Heap) (hwf : WfPages h.pages) (x : Nat)
    (hl : liveAllocGo h.pages x) : liveAllocGo (phase4 h).1.pages x := by
  unfold phase4
  exact (phase4_keep _ (h, []) hwf).2 x hl

theorem raw_markPage (pg : DHPage) (s L : Nat) :
    (markPage pg s L).dptrs.map (fun dp => dp.raw) =
      pg.dptrs.map (fun dp => dp.raw) := by
  unfold markPage
  dsimp only
  rw [List.map_map]
  apply List.map_congr_left
  intro dp _
  simp only [Function.comp]
  split <;> rfl

theorem rawsOf_markGo (pgs : List DHPage) :
    ∀ p L, rawsOf (markGo pgs p L) = rawsOf pgs := by
  induction pgs with
  | nil => intro p L; rfl
  | cons pg rest ih =>
    intro p L
    unfold markGo
    dsimp only
    split
    · show (markPage pg _ L).dptrs.map _ :: rawsOf rest = pg.dptrs.map _ :: rawsOf rest
      rw [raw_markPage]
    · show pg.dptrs.map _ :: rawsOf (markGo rest p L) = _
      rw [ih p L]
      rfl

theorem rawsOf_mark (pgs : List DHPage) (p L : Nat) :
    rawsOf (mark pgs p L) = rawsOf pgs := by
  unfold mark
  split
  · rfl
  · exact rawsOf_markGo pgs p L

theorem rawsOf_passStep (L : Nat) (acc : List DHPage × Bool) (pos : Nat × Nat) :
    rawsOf (passStep L acc pos).1 = rawsOf acc.1 := by
  unfold passStep
  cases hg : getRec acc.1 pos with
  | none => rfl
  | some dp =>
    dsimp only
    split
    · exact rawsOf_mark _ _ _
    · rfl

theorem rawsOf_foldl_passStep (L : Nat) (ps : List (Nat × Nat)) :
    ∀ acc : List DHPage × Bool,
      rawsOf (ps.foldl (passStep L) acc).1 = rawsOf acc.1 := by
  induction ps with
  | nil => intro acc; rfl
  | cons p ps ih =>
    intro acc
    rw [List.foldl_cons, ih, rawsOf_passStep]

theorem rawsOf_pass (pgs : List DHPage) (L : Nat) :
    rawsOf (pass pgs L).1 = rawsOf pgs := by
  unfold pass
  exact rawsOf_foldl_passStep L _ _

theorem rawsOf_phase2go (fuel : Nat) :
    ∀ (pgs : List DHPage) (L : Nat),
      rawsOf (phase2go fuel pgs L).1 = rawsOf pgs := by
  induction fuel with
  | zero => intro pgs L; rfl
  | succ f ih =>
    intro pgs L
    unfold phase2go
    dsimp only
    split
    · dsimp only; rw [ih, rawsOf_pass]
    · dsimp only; rw [rawsOf_pass]

theorem rawsOf_markRoots (roots : List RootPtr) :
    ∀ pgs : List DHPage, rawsOf (markRoots pgs roots) = rawsOf pgs := by
  induction roots with
  | nil => intro pgs; rfl
  | cons r rs ih =>
    intro pgs
    unfold markRoots at ih ⊢
    rw [List.foldl_cons, ih, rawsOf_mark]

theorem rawsOf_phase1 (h : Heap) : rawsOf (phase1 h).pages = rawsOf h.pages := by
  unfold phase1 rawsOf
  dsimp only
  rw [List.map_map]
  apply List.map_congr_left
  intro pg _
  simp only [Function.comp]
  rw [List.map_map]
  apply List.map_congr_left
  intro dp _
  rfl

theorem rawsOf_afterMarking (h : Heap) :
    rawsOf (afterMarking h).pages = rawsOf h.pages := by
  unfold afterMarking phase2
  dsimp only
  rw [rawsOf_phase2go, rawsOf_markRoots, rawsOf_phase1]

theorem rawsOf_mem (A B : List DHPage) (hr : rawsOf A = rawsOf B)
    (pg : DHPage) (hpg : pg ∈ A) (dp : NonRoot) (hdp : dp ∈ pg.dptrs) :
    ∃ pg0 ∈ B, ∃ dp0 ∈ pg0.dptrs, dp0.raw = dp.raw := by
  obtain ⟨pi, hpi⟩ := List.get?_of_mem hpg
  have h1 : (rawsOf A).get? pi = (rawsOf B).get? pi := by rw [hr]
  unfold rawsOf at h1
  rw [List.get?_map, List.get?_map, hpi] at h1
  cases hB : B.get? pi with
  | none => rw [hB] at h1; cases h1
  | some pg0 =>
    rw [hB] at h1
    simp only [Option.map_some', Option.some.injEq] at h1
    have hmem : dp.raw ∈ pg0.dptrs.map (fun dp => dp.raw) := by
      rw [← h1]
      exact List.mem_map_of_mem _ hdp
    rw [List.mem_map] at hmem
    obtain ⟨dp0, hdp0, he⟩ := hmem
    exact ⟨pg0, List.get?_mem hB, dp0, hdp0, he⟩

theorem wfPages_phase2go (fuel : Nat) :
    ∀ pgs L, WfPages pgs → WfPages (phase2go fuel pgs L).1 := by
  induction fuel with
  | zero => intro pgs L h; exact h
  | succ f ih =>
    intro pgs L h
    unfold phase2go
    dsimp only
    split
    · dsimp only
      exact ih _ _ (pass_wf pgs L h)
    · dsimp only
      exact pass_wf pgs L h

theorem wfPages_afterMarking (h : Heap) (hwf : WfPages h.pages) :
    WfPages (afterMarking h).pages := by
  unfold afterMarking phase2
  dsimp only
  exact wfPages_phase2go _ _ _ (wfPages_markRoots _ _ (wfPages_phase1 h hwf))

theorem wfPages_phase3 (h : Heap) (hwf : WfPages h.pages) :
    WfPages (phase3 h).1.pages := by
  intro pg2 hpg2
  unfold phase3 at hpg2
  dsimp only at hpg2
  rw [List.mem_map] at hpg2
  obtain ⟨pg, hpg, rfl⟩ := hpg2
  exact hwf pg hpg

theorem rawInv_collect (h : Heap) (hwf : WfPages h.pages) (hr : RawInv h) :
    RawInv (collect h).1 := by
  obtain ⟨hroots, hrecs⟩ := hr
  have hwfS2 : WfPages (afterMarking h).pages := wfPages_afterMarking h hwf
  have hwfS3 : WfPages (phase3 (afterMarking h)).1.pages := wfPages_phase3 _ hwfS2
  have hgp2 : gpagesOf (afterMarking h).pages = gpagesOf h.pages := gpagesOf_afterMarking h
  have hstep : ∀ x, x ≠ 0 → allocatedB h.pages x = true →
      MarkEffect (afterMarking h).pages x →
      allocatedB (collect h).1.pages x = true := by
    intro x hx0 hall hme
    rcases hme with h0 | hgo
    · exact absurd h0 hx0
    · have hall2 : allocatedB (afterMarking h).pages x = true :=
        (allocatedB_gpages _ _ hgp2 x).trans hall
      have hla2 : liveAllocGo (afterMarking h).pages x :=
        liveAlloc_of_markEffect _ x hall2 hgo
      have hla3 : liveAllocGo (phase3 (afterMarking h)).1.pages x :=
        liveAllocGo_obs _ _ (obsOf_phase3 _).symm x hla2
      have hla4 : liveAllocGo (phase4 (phase3 (afterMarking h)).1).1.pages x :=
        liveAlloc_phase4 _ hwfS3 x hla3
      exact liveAlloc_allocatedB _ x hla4
  constructor
  · intro r hrm
    rw [collect_roots] at hrm
    by_cases hz : r.raw = 0
    · exact Or.inl hz
    · right
      rcases hroots r hrm with h0 | hall
      · exact absurd h0 hz
      · exact hstep r.raw hz hall (afterMarking_roots_effect h hwf r hrm)
  · intro pg4 hpg4 dp4 hdp4
    have hcp : (collect h).1.pages = (phase4 (phase3 (afterMarking h)).1).1.pages := rfl
    rw [hcp] at hpg4
    obtain ⟨pi, hpi⟩ := List.get?_of_mem hpg4
    obtain ⟨pgB, hpgB, hsub⟩ :=
      (phase4_invariants (phase3 (afterMarking h)).1).2.2 pi pg4 hpi
    have hdpB : dp4 ∈ pgB.dptrs := hsub dp4 hdp4
    rcases phase3_record_cases (afterMarking h) pgB dp4 (List.get?_mem hpgB) hdpB with
      hz | ⟨pg2, dp2, hpg2, hdp2, hlev, hEq⟩
    · exact Or.inl hz
    · subst hEq
      by_cases hz4 : dp4.raw = 0
      · exact Or.inl hz4
      right
      obtain ⟨pos, hpos⟩ := mem_getRec _ pg2 dp4 hpg2 hdp2
      have hme : MarkEffect (afterMarking h).pages dp4.raw :=
        afterMarking_saturated h hwf pos dp4 hpos hlev
      obtain ⟨pg0, hpg0, dp0, hdp0, hre⟩ := rawsOf_mem (afterMarking h).pages h.pages
        (rawsOf_afterMarking h) pg2 hpg2 dp4 hdp2
      rcases hrecs pg0 hpg0 dp0 hdp0 with h0 | hall0
      · rw [hre] at h0
        exact absurd h0 hz4
      · rw [hre] at hall0
        exact hstep dp4.raw hz4 hall0 hme

theorem findRun_free (locs : List Loc) (k : Nat) :
    ∀ (fuel s i : Nat), GPage.findRun locs k s fuel = some i →
      ∀ j, j < k → locs.getD (i + j) .free = .free := by
  intro fuel
  induction fuel with
  | zero => intro s i h; cases h
  | succ f ih =>
    intro s i h j hj
    unfold GPage.findRun at h
    by_cases hle : s + k ≤ locs.length
    · rw [if_pos hle] at h
      by_cases hall : (List.range k).all (fun j => decide (locs.getD (s + j) .free = .free))
      · rw [if_pos hall] at h
        injection h with h
        subst h
        exact of_decide_eq_true (List.all_eq_true.mp hall j (List.mem_range.mpr hj))
      · rw [if_neg hall] at h
        exact ih (s + 1) i h j hj
    · rw [if_neg hle] at h
      cases h

theorem markRun_getD_out (locs : List Loc) (i k m : Nat)
    (hout : m < i ∨ i + k ≤ m) :
    (GPage.markRun locs i k).getD m .free = locs.getD m .free := by
  unfold GPage.markRun
  have hgen : ∀ (js : List Nat), (∀ j ∈ js, j < k) → ∀ locs2 : List Loc,
      (js.foldl (fun acc j => acc.set (i + j) (if j = 0 then Loc.strt else Loc.mid))
        locs2).getD m .free = locs2.getD m .free := by
    intro js
    induction js with
    | nil => intro _ locs2; rfl
    | cons j js ihj =>
      intro hbound locs2
      rw [List.foldl_cons, ihj (fun y hy => hbound y (List.mem_cons_of_mem _ hy)),
        getD_set_ne_loc _ _ _ _ (by have := hbound j (List.mem_cons_self _ _); omega)]
  exact hgen (List.range k) (fun j hj => List.mem_range.mp hj) locs

theorem allocate_allocatedB_page (g g2 : GPage) (bytes q : Nat)
    (halloc : g.allocate bytes = some (g2, q)) (x : Nat)
    (hfound : (g.containsInfo x).found = .inRangeAllocatedStart ∨
      (g.containsInfo x).found = .inRangeAllocatedMiddle) :
    (g2.containsInfo x).found = .inRangeAllocatedStart ∨
    (g2.containsInfo x).found = .inRangeAllocatedMiddle := by
  unfold GPage.allocate at halloc
  by_cases hm : g.minAlloc = 0
  · rw [if_pos hm] at halloc; cases halloc
  rw [if_neg hm] at halloc
  dsimp only at halloc
  cases hfr : GPage.findRun g.locs ((bytes + g.minAlloc - 1) / g.minAlloc) 0
      (g.locs.length + 1) with
  | none => rw [hfr] at halloc; cases halloc
  | some i =>
    rw [hfr] at halloc
    simp only [Option.some.injEq, Prod.mk.injEq] at halloc
    obtain ⟨hg2, hq⟩ := halloc
    subst hg2
    have hfree : ∀ j, j < (bytes + g.minAlloc - 1) / g.minAlloc →
        g.locs.getD (i + j) .free = .free :=
      findRun_free g.locs _ _ 0 i hfr
    cases hc : g.contains x with
    | false =>
      exfalso
      have h1 : (g.containsInfo x).found = .notInRange :=
        (containsInfo_notInRange_iff g x).mpr hc
      rcases hfound with h2 | h2 <;> rw [h1] at h2 <;> cases h2
    | true =>
      have hc2 : GPage.contains
          { g with locs := GPage.markRun g.locs i ((bytes + g.minAlloc - 1) / g.minAlloc) }
          x = true := by
        rw [contains_of_shape
          { g with locs := GPage.markRun g.locs i ((bytes + g.minAlloc - 1) / g.minAlloc) }
          g rfl rfl (markRun_length _ _ _)]
        exact hc
      rw [containsInfo_expand _ x hc2]
      rw [containsInfo_expand g x hc] at hfound
      cases hgl : g.locs.getD (g.locIndex x) .free with
      | free =>
        exfalso
        rw [hgl] at hfound
        dsimp only at hfound
        rcases hfound with h2 | h2 <;> cases h2
      | strt =>
        have hout : g.locIndex x < i ∨
            i + (bytes + g.minAlloc - 1) / g.minAlloc ≤ g.locIndex x := by
          by_contra hno
          push_neg at hno
          have hj : g.locIndex x - i < (bytes + g.minAlloc - 1) / g.minAlloc := by omega
          have hjf := hfree (g.locIndex x - i) hj
          rw [show i + (g.locIndex x - i) = g.locIndex x from by omega, hgl] at hjf
          cases hjf
        dsimp only
        have hli : GPage.locIndex
            { g with locs := GPage.markRun g.locs i ((bytes + g.minAlloc - 1) / g.minAlloc) }
            x = g.locIndex x := rfl
        rw [hli, markRun_getD_out _ _ _ _ hout, hgl]
        exact Or.inl rfl
      | mid =>
        have hout : g.locIndex x < i ∨
            i + (bytes + g.minAlloc - 1) / g.minAlloc ≤ g.locIndex x := by
          by_contra hno
          push_neg at hno
          have hj : g.locIndex x - i < (bytes + g.minAlloc - 1) / g.minAlloc := by omega
          have hjf := hfree (g.locIndex x - i) hj
          rw [show i + (g.locIndex x - i) = g.locIndex x from by omega, hgl] at hjf
          cases hjf
        dsimp only
        have hli : GPage.locIndex
            { g with locs := GPage.markRun g.locs i ((bytes + g.minAlloc - 1) / g.minAlloc) }
            x = g.locIndex x := rfl
        rw [hli, markRun_getD_out _ _ _ _ hout, hgl]
        exact Or.inr rfl

theorem allocInPage_allocatedB (pgs : List DHPage) :
    ∀ (pi : Nat) (pg : DHPage) (g2 : GPage) (bytes q : Nat),
      pgs.get? pi = some pg → pg.page.allocate bytes = some (g2, q) →
      ∀ x, allocatedB pgs x = true →
      allocatedB (updatePage pgs pi (fun x2 => { x2 with page := g2 })) x = true := by
  induction pgs with
  | nil =>
    intro pi pg g2 bytes q hpg
    cases pi <;> cases hpg
  | cons hd rest ih =>
    intro pi pg g2 bytes q hpg halloc x hall
    cases pi with
    | zero =>
      injection hpg with hpg
      subst hpg
      show allocatedB ({ hd with page := g2 } :: rest) x = true
      unfold allocatedB at hall ⊢
      dsimp only
      by_cases hc : (hd.page.containsInfo x).found ≠ .notInRange
      · rw [if_pos hc] at hall
        have hfound := of_decide_eq_true hall
        have hfound2 := allocate_allocatedB_page hd.page g2 bytes q halloc x hfound
        have hc2 : (g2.containsInfo x).found ≠ .notInRange := by
          rcases hfound2 with h2 | h2 <;> rw [h2] <;> intro hmm <;> cases hmm
        rw [if_pos hc2]
        exact decide_eq_true hfound2
      · rw [if_neg hc] at hall
        have h1 : (hd.page.containsInfo x).found = .notInRange := not_not.mp hc
        have h2 : hd.page.contains x = false := (containsInfo_notInRange_iff _ _).mp h1
        obtain ⟨hb, hm2, hl2⟩ := allocate_shape hd.page g2 bytes q halloc
        have h3 : g2.contains x = false := by
          rw [contains_of_shape g2 hd.page hb hm2 hl2]
          exact h2
        have h4 := (containsInfo_notInRange_iff g2 x).mpr h3
        rw [if_neg (fun hnn => hnn h4)]
        exact hall
    | succ pi =>
      show allocatedB (hd :: updatePage rest pi _) x = true
      unfold allocatedB at hall ⊢
      by_cases hc : (hd.page.containsInfo x).found ≠ .notInRange
      · rw [if_pos hc] at hall ⊢
        exact hall
      · rw [if_neg hc] at hall ⊢
        exact ih pi pg g2 bytes q hpg halloc x hall

theorem gpagesOf_updatePage (pgs : List DHPage) :
    ∀ (pi : Nat) (f : DHPage → DHPage), (∀ pg, (f pg).page = pg.page) →
      gpagesOf (updatePage pgs pi f) = gpagesOf pgs := by
  induction pgs with
  | nil => intro pi f _; cases pi <;> rfl
  | cons hd rest ih =>
    intro pi f hf
    cases pi with
    | zero =>
      show (f hd).page :: gpagesOf rest = hd.page :: gpagesOf rest
      rw [hf hd]
    | succ pi =>
      show hd.page :: gpagesOf (updatePage rest pi f) = _
      rw [ih pi f hf]
      rfl

theorem rawOf_cases (h : Heap) (a v : Nat) (hs : rawOf h a = some v) :
    (∃ r ∈ h.roots, r.raw = v) ∨ ∃ pg ∈ h.pages, ∃ dp ∈ pg.dptrs, dp.raw = v := by
  unfold rawOf at hs
  cases hfr : h.roots.find? (fun r => decide (r.addr = a)) with
  | some r =>
    rw [hfr] at hs
    injection hs with hs
    exact Or.inl ⟨r, List.mem_of_find?_eq_some hfr, hs⟩
  | none =>
    rw [hfr] at hs
    cases hfp : (h.pages.flatMap (fun pg => pg.dptrs)).find?
        (fun dp => decide (dp.addr = a)) with
    | some dp =>
      rw [hfp] at hs
      injection hs with hs
      have hmem := List.mem_of_find?_eq_some hfp
      rw [List.mem_flatMap] at hmem
      obtain ⟨pg, hpg, hdp⟩ := hmem
      exact Or.inr ⟨pg, hpg, dp, hdp, hs⟩
    | none =>
      rw [hfp] at hs
      cases hs

theorem rawOf_allocated (h : Heap) (a v : Nat) (hr : RawInv h)
    (hs : rawOf h a = some v) : v = 0 ∨ allocatedB h.pages v = true := by
  rcases rawOf_cases h a v hs with ⟨r, hrm, hre⟩ | ⟨pg, hpg, dp, hdp, hde⟩
  · rw [← hre]
    exact hr.1 r hrm
  · rw [← hde]
    exact hr.2 pg hpg dp hdp

theorem rawInv_enregister (h : Heap) (a v : Nat)
    (hv : v = 0 ∨ allocatedB h.pages v = true) (hr : RawInv h) :
    RawInv (enregister h a v) := by
  obtain ⟨hroots, hrecs⟩ := hr
  cases hf : findDhpageIdx h.pages a with
  | none =>
    have he : enregister h a v = { h with roots := h.roots ++ [⟨a, v⟩] } := by
      unfold enregister
      rw [hf]
    rw [he]
    constructor
    · intro r hrm
      rcases List.mem_append.mp hrm with hold | hone
      · exact hroots r hold
      · rw [List.mem_singleton] at hone
        subst hone
        exact hv
    · intro pg hpg dp hdp
      exact hrecs pg hpg dp hdp
  | some pi =>
    obtain ⟨pg0, hpg0, hcont0⟩ := findDhpageIdx_some h.pages a pi hf
    have he : enregister h a v =
        { h with pages :=
            updatePage h.pages pi (fun pg => { pg with dptrs := pg.dptrs ++ [⟨a, v, 0⟩] }) } := by
      unfold enregister
      rw [hf]
    rw [he]
    have hgp : gpagesOf (updatePage h.pages pi
        (fun pg => { pg with dptrs := pg.dptrs ++ [⟨a, v, 0⟩] })) = gpagesOf h.pages :=
      gpagesOf_updatePage h.pages pi _ (fun pg => rfl)
    have hab := allocatedB_gpages _ _ hgp
    constructor
    · intro r hrm
      rcases hroots r hrm with h0 | h1
      · exact Or.inl h0
      · right
        rw [hab]
        exact h1
    · intro pg hpg dp hdp
      rcases mem_updatePage_at h.pages pi pg0 hpg0 _ pg hpg with hin | heq
      · rcases hrecs pg hin dp hdp with h0 | h1
        · exact Or.inl h0
        · right
          rw [hab]
          exact h1
      · rw [heq] at hdp
        rcases List.mem_append.mp hdp with hold | hone
        · rcases hrecs pg0 (List.get?_mem hpg0) dp hold with h0 | h1
          · exact Or.inl h0
          · right
            rw [hab]
            exact h1
        · rw [List.mem_singleton] at hone
          subst hone
          rcases hv with h0 | h1
          · exact Or.inl h0
          · right
            rw [hab]
            exact h1

theorem rawInv_deregister (h : Heap) (a : Nat) (hr : RawInv h) :
    RawInv (deregister h a) := by
  obtain ⟨hroots, hrecs⟩ := hr
  unfold deregister
  by_cases hb : h.roots.any (fun r => decide (r.addr = a))
  · rw [if_pos hb]
    exact ⟨fun r hrm => hroots r (List.mem_of_mem_filter hrm),
      fun pg hpg dp hdp => hrecs pg hpg dp hdp⟩
  · rw [if_neg hb]
    cases hfind : (List.range h.pages.length).find?
        (fun pi => (h.pages.getD pi default).dptrs.any (fun dp => decide (dp.addr = a))) with
    | none => exact ⟨hroots, hrecs⟩
    | some pi =>
      dsimp only
      have hpi : pi < h.pages.length :=
        List.mem_range.mp (List.mem_of_find?_eq_some hfind)
      have hpg0 : h.pages.get? pi = some (h.pages.get ⟨pi, hpi⟩) := List.get?_eq_get hpi
      have hgp : gpagesOf (updatePage h.pages pi
          (fun pg => { pg with dptrs := swapRemove pg.dptrs a })) = gpagesOf h.pages :=
        gpagesOf_updatePage h.pages pi _ (fun pg => rfl)
      have hab := allocatedB_gpages _ _ hgp
      constructor
      · intro r hrm
        rcases hroots r hrm with h0 | h1
        · exact Or.inl h0
        · right
          rw [hab]
          exact h1
      · intro pg hpg dp hdp
        rcases mem_updatePage_at h.pages pi _ hpg0 _ pg hpg with hin | heq
        · rcases hrecs pg hin dp hdp with h0 | h1
          · exact Or.inl h0
          · right
            rw [hab]
            exact h1
        · rw [heq] at hdp
          rcases hrecs (h.pages.get ⟨pi, hpi⟩) (List.get?_mem hpg0) dp
              ((swapRemove_subperm _ _).subset hdp) with h0 | h1
          · exact Or.inl h0
          · right
            rw [hab]
            exact h1

theorem rawInv_setRaw (h : Heap) (a v : Nat)
    (hv : v = 0 ∨ allocatedB h.pages v = true) (hr : RawInv h) :
    RawInv (setRaw h a v) := by
  obtain ⟨hroots, hrecs⟩ := hr
  have hgp : gpagesOf (setRaw h a v).pages = gpagesOf h.pages := by
    unfold setRaw gpagesOf
    dsimp only
    rw [List.map_map]
    apply List.map_congr_left
    intro pg _
    rfl
  have hab := allocatedB_gpages _ _ hgp
  constructor
  · intro r2 hr2
    show r2.raw = 0 ∨ allocatedB (setRaw h a v).pages r2.raw = true
    unfold setRaw at hr2
    dsimp only at hr2
    rw [List.mem_map] at hr2
    obtain ⟨r, hrm, hre⟩ := hr2
    rw [← hre]
    by_cases hc : r.addr = a
    · rw [if_pos hc]
      rcases hv with h0 | h1
      · exact Or.inl h0
      · right
        rw [hab]
        exact h1
    · rw [if_neg hc]
      rcases hroots r hrm with h0 | h1
      · exact Or.inl h0
      · right
        rw [hab]
        exact h1
  · intro pg2 hpg2 dp2 hdp2
    show dp2.raw = 0 ∨ allocatedB (setRaw h a v).pages dp2.raw = true
    unfold setRaw at hpg2
    dsimp only at hpg2
    rw [List.mem_map] at hpg2
    obtain ⟨pg, hpg, hpe⟩ := hpg2
    rw [← hpe] at hdp2
    dsimp only at hdp2
    rw [List.mem_map] at hdp2
    obtain ⟨dp, hdp, hde⟩ := hdp2
    rw [← hde]
    by_cases hc : dp.addr = a
    · rw [if_pos hc]
      rcases hv with h0 | h1
      · exact Or.inl h0
      · right
        rw [hab]
        exact h1
    · rw [if_neg hc]
      rcases hrecs pg hpg dp hdp with h0 | h1
      · exact Or.inl h0
      · right
        rw [hab]
        exact h1

theorem rawInv_allocInPage (h : Heap) (pi bytes : Nat) (pg : DHPage) (g2 : GPage)
    (q : Nat) (hpg : h.pages.get? pi = some pg)
    (halloc : pg.page.allocate bytes = some (g2, q)) (hr : RawInv h) :
    RawInv { h with pages := updatePage h.pages pi (fun x => { x with page := g2 }) } := by
  obtain ⟨hroots, hrecs⟩ := hr
  have hab : ∀ x, allocatedB h.pages x = true →
      allocatedB (updatePage h.pages pi (fun x2 => { x2 with page := g2 })) x = true :=
    allocInPage_allocatedB h.pages pi pg g2 bytes q hpg halloc
  constructor
  · intro r hrm
    rcases hroots r hrm with h0 | h1
    · exact Or.inl h0
    · exact Or.inr (hab _ h1)
  · intro pg2 hpg2 dp hdp
    rcases mem_updatePage_at h.pages pi pg hpg _ pg2 hpg2 with hin | heq
    · rcases hrecs pg2 hin dp hdp with h0 | h1
      · exact Or.inl h0
      · exact Or.inr (hab _ h1)
    · rw [heq] at hdp
      rcases hrecs pg (List.get?_mem hpg) dp hdp with h0 | h1
      · exact Or.inl h0
      · exact Or.inr (hab _ h1)

theorem rawInv_addPage (h : Heap) (base s n : Nat) (hr : RawInv h) :
    RawInv { h with pages := h.pages ++ [freshDhpage base s n] } := by
  obtain ⟨hroots, hrecs⟩ := hr
  constructor
  · intro r hrm
    rcases hroots r hrm with h0 | h1
    · exact Or.inl h0
    · exact Or.inr (allocatedB_append _ _ _ h1)
  · intro pg hpg dp hdp
    rcases List.mem_append.mp hpg with hin | hone
    · rcases hrecs pg hin dp hdp with h0 | h1
      · exact Or.inl h0
      · exact Or.inr (allocatedB_append _ _ _ h1)
    · rw [List.mem_singleton] at hone
      subst hone
      cases hdp

theorem hstep_rawInv (h h2 : Heap) (hs : HStep h h2) (hr : RawInv h) : RawInv h2 := by
  cases hs with
  | newNull a hfresh => exact rawInv_enregister h a 0 (Or.inl rfl) hr
  | newCopy a src v hfresh hsrc =>
    exact rawInv_enregister h a v (rawOf_allocated h src v hr hsrc) hr
  | newAllocated a v hfresh hv => exact rawInv_enregister h a v (Or.inr hv) hr
  | drop a => exact rawInv_deregister h a hr
  | assignNull a => exact rawInv_setRaw h a 0 (Or.inl rfl) hr
  | assignCopy a src v hsrc =>
    exact rawInv_setRaw h a v (rawOf_allocated h src v hr hsrc) hr
  | storeDtor d => exact hr
  | setPolicy b => exact hr
  | allocInPage pi bytes pg g2 q hpg halloc =>
    exact rawInv_allocInPage h pi bytes pg g2 q hpg halloc hr
  | addPage base s n hdisj hfresh => exact rawInv_addPage h base s n hr
  | collectStep hwf => exact rawInv_collect h hwf hr

/-- C8 counterexample: `deferred_ptr::pointer_to(T&)` constructs a tracked
pointer from an arbitrary reference with no validation, so one `pointer_to`
call on a non-heap object (modelled here as registering a pointer whose raw
value 77 lies in no page of the empty heap) takes a heap satisfying the
raw-value invariant to one violating it — refuting "this holds for every way
a non-null tracked pointer can be produced, including pointer_to". -/
theorem c8_pointer_to_breaks_raw_invariant :
    RawInv emptyHeap ∧ ¬ RawInv (enregister emptyHeap 50 77) := by
  constructor
  · constructor
    · intro r hrm
      cases hrm
    · intro pg hpg
      cases hpg
  · intro hinv
    have hmem : (⟨50, 77⟩ : RootPtr) ∈ (enregister emptyHeap 50 77).roots := by
      show (⟨50, 77⟩ : RootPtr) ∈ ([] ++ [(⟨50, 77⟩ : RootPtr)] : List RootPtr)
      exact List.mem_append_right _ (List.mem_singleton.mpr rfl)
    rcases hinv.1 ⟨50, 77⟩ hmem with h0 | hall
    · exact absurd h0 (by decide)
    · exact absurd hall (by decide)

/-- C8 (amended): between public operations — with tracked-pointer creation
from a raw reference (`pointer_to` and `make`'s result alike) restricted to
addresses of bytes inside currently allocated heap chunks, as `mark`'s
"points to unallocated memory" assertions presuppose — every tracked
pointer's raw value is either null or a byte of some heap page whose
location is allocated (start or middle): the raw-value invariant holds in
every reachable heap state, and in particular survives `collect()`'s
nulling, record removal and deallocations. -/
theorem c8_raw_values_allocated (h : Heap) (hr : ReachH h) : RawInv h := by
  induction hr with
  | init =>
    constructor
    · intro r hrm
      cases hrm
    · intro pg hpg
      cases hpg
  | step hr hs ih => exact hstep_rawInv _ _ hs ih

theorem marksGo_congr (A : List DHPage) :
    ∀ (B : List DHPage), gpagesOf A = gpagesOf B →
      ∀ q pi s, marksGo A q pi s → marksGo B q pi s := by
  induction A with
  | nil =>
    intro B hg q pi s hm
    cases B with
    | nil => exact hm
    | cons b bs => cases hg
  | cons a as ih =>
    intro B hg q pi s hm
    cases B with
    | nil => cases hg
    | cons b bs =>
      unfold gpagesOf at hg
      simp only [List.map_cons, List.cons.injEq] at hg
      obtain ⟨hpage, htail⟩ := hg
      cases pi with
      | zero =>
        unfold marksGo at hm ⊢
        rw [← hpage]
        exact hm
      | succ pi =>
        unfold marksGo at hm ⊢
        obtain ⟨h1, h2⟩ := hm
        rw [← hpage]
        exact ⟨h1, ih bs htail q pi s h2⟩

theorem bit_set_bwd (l : List Bool) (j i : Nat)
    (h : (l.set j true).getD i false = true) :
    l.getD i false = true ∨ i = j := by
  by_cases hij : i = j
  · exact Or.inr hij
  · left
    unfold List.getD at h ⊢
    rw [List.get?_set_ne _ _ (Ne.symm hij)] at h
    exact h

theorem getD_set_free (l : List Loc) (m : Nat) :
    (l.set m .free).getD m .free = .free := by
  by_cases hm : m < l.length
  · unfold List.getD
    rw [List.get?_set_eq_of_lt _ hm]
    rfl
  · rw [List.set_eq_of_length_le (by omega)]
    unfold List.getD
    rw [List.get?_eq_none.mpr (by omega)]
    rfl

theorem freeMids_getD_or (fuel : Nat) :
    ∀ (locs : List Loc) (j m : Nat),
      (GPage.freeMids fuel locs j).getD m .free = locs.getD m .free ∨
      (GPage.freeMids fuel locs j).getD m .free = .free := by
  induction fuel with
  | zero => intro locs j m; exact Or.inl rfl
  | succ f ih =>
    intro locs j m
    unfold GPage.freeMids
    by_cases hc : locs.getD j .free = .mid
    · rw [if_pos hc]
      rcases ih (locs.set j .free) (j + 1) m with h1 | h1
      · by_cases hjm : j = m
        · right
          rw [h1, hjm, getD_set_free]
        · left
          rw [h1, getD_set_ne_loc _ _ _ _ hjm]
      · exact Or.inr h1
    · rw [if_neg hc]
      exact Or.inl rfl

theorem freeRun_getD_or (locs : List Loc) (i m : Nat) :
    (GPage.freeRun locs i).getD m .free = locs.getD m .free ∨
    (GPage.freeRun locs i).getD m .free = .free := by
  unfold GPage.freeRun
  rcases freeMids_getD_or _ (locs.set i .free) (i + 1) m with h1 | h1
  · by_cases him : i = m
    · right
      rw [h1, him, getD_set_free]
    · left
      rw [h1, getD_set_ne_loc _ _ _ _ him]
  · exact Or.inr h1

theorem dealloc_containsInfo_unalloc (g : GPage) (st x : Nat)
    (hfound : (g.containsInfo x).found = .inRangeUnallocated) :
    (g.deallocate st).containsInfo x = g.containsInfo x := by
  cases hc : g.contains x with
  | false =>
    exfalso
    have h1 := (containsInfo_notInRange_iff g x).mpr hc
    rw [h1] at hfound
    cases hfound
  | true =>
    have hc2 : (g.deallocate st).contains x = true := by
      rw [contains_of_shape (g.deallocate st) g rfl rfl (freeRun_length _ _)]
      exact hc
    rw [containsInfo_expand g x hc] at hfound
    rw [containsInfo_expand g x hc, containsInfo_expand _ x hc2]
    have hloc2 : (g.deallocate st).locIndex x = g.locIndex x := rfl
    rw [hloc2]
    cases hgl : g.locs.getD (g.locIndex x) .free with
    | strt =>
      exfalso
      rw [hgl] at hfound
      dsimp only at hfound
      cases hfound
    | mid =>
      exfalso
      rw [hgl] at hfound
      dsimp only at hfound
      cases hfound
    | free =>
      have hnew : ((g.deallocate st).locs).getD (g.locIndex x) .free = .free := by
        show (GPage.freeRun g.locs (g.locIndex st)).getD (g.locIndex x) .free = .free
        rcases freeRun_getD_or g.locs (g.locIndex st) (g.locIndex x) with h1 | h1
        · rw [h1, hgl]
        · exact h1
      rw [hnew]

theorem dealloc_containsInfo_keep_ne (g : GPage) (i x : Nat)
    (hm : 0 < g.minAlloc) (hstart : g.isStart i = true)
    (hfound : (g.containsInfo x).found = .inRangeAllocatedStart ∨
      (g.containsInfo x).found = .inRangeAllocatedMiddle)
    (hne : (g.containsInfo x).startLocation ≠ i) :
    (g.deallocate (g.locPtr i)).containsInfo x = g.containsInfo x := by
  have hstrt : g.locs.getD i .free = .strt := of_decide_eq_true hstart
  cases hc : g.contains x with
  | false =>
    exfalso
    have h1 := (containsInfo_notInRange_iff g x).mpr hc
    rcases hfound with h2 | h2 <;> rw [h1] at h2 <;> cases h2
  | true =>
    have hc2 : (g.deallocate (g.locPtr i)).contains x = true := by
      rw [contains_of_shape (g.deallocate (g.locPtr i)) g rfl rfl (freeRun_length _ _)]
      exact hc
    have hidx : g.locIndex (g.locPtr i) = i := by
      unfold GPage.locIndex GPage.locPtr
      rw [Nat.add_sub_cancel_left]
      exact Nat.mul_div_cancel_left i hm
    have hloc2 : (g.deallocate (g.locPtr i)).locIndex x = g.locIndex x := rfl
    have hE1 := containsInfo_expand g x hc
    have hE2 := containsInfo_expand (g.deallocate (g.locPtr i)) x hc2
    rw [hE1] at hfound hne
    rw [hE1, hE2, hloc2]
    cases hgl : g.locs.getD (g.locIndex x) .free with
    | free =>
      exfalso
      rw [hgl] at hfound
      dsimp only at hfound
      rcases hfound with h | h <;> cases h
    | strt =>
      rw [hgl] at hne
      dsimp only at hne
      have hkeep : ((g.deallocate (g.locPtr i)).locs).getD (g.locIndex x) .free =
          g.locs.getD (g.locIndex x) .free := by
        show (GPage.freeRun g.locs (g.locIndex (g.locPtr i))).getD (g.locIndex x) .free = _
        rw [hidx]
        apply freeRun_getD_keep g.locs i (g.locIndex x) (g.locIndex x) (g.locIndex x)
          (le_refl _) (le_refl _) hne
        rcases Nat.lt_or_ge (g.locIndex x) i with hlt | hge
        · exact Or.inl hlt
        · right
          refine ⟨by omega, ?_⟩
          rw [hgl]
          intro hmm
          cases hmm
      rw [hkeep, hgl]
    | mid =>
      rw [hgl] at hne
      dsimp only at hne
      have hsl : GPage.backStart g.locs (g.locIndex x) ≤ g.locIndex x :=
        backStart_le g.locs (g.locIndex x)
      have hcase : g.locIndex x < i ∨ (i < GPage.backStart g.locs (g.locIndex x) ∧
          g.locs.getD (GPage.backStart g.locs (g.locIndex x)) .free ≠ .mid) := by
        rcases Nat.lt_or_ge (GPage.backStart g.locs (g.locIndex x)) i with hlt | hge
        · left
          by_contra hnl
          have hil : i ≤ g.locIndex x := by omega
          have hmid : g.locs.getD i .free = .mid :=
            backStart_mid_range g.locs (g.locIndex x) i hlt hil
          rw [hstrt] at hmid
          cases hmid
        · right
          refine ⟨by omega, ?_⟩
          rcases backStart_stop g.locs (g.locIndex x) with h0 | hnm
          · omega
          · exact hnm
      have hA : ∀ m, GPage.backStart g.locs (g.locIndex x) ≤ m → m ≤ g.locIndex x →
          (GPage.freeRun g.locs i).getD m .free = g.locs.getD m .free := by
        intro m hm1 hm2
        exact freeRun_getD_keep g.locs i _ (g.locIndex x) m hm1 hm2 hne hcase
      have hkeep : ((g.deallocate (g.locPtr i)).locs).getD (g.locIndex x) .free =
          g.locs.getD (g.locIndex x) .free := by
        show (GPage.freeRun g.locs (g.locIndex (g.locPtr i))).getD (g.locIndex x) .free = _
        rw [hidx]
        exact hA (g.locIndex x) hsl (le_refl _)
      have hbs : GPage.backStart ((g.deallocate (g.locPtr i)).locs) (g.locIndex x) =
          GPage.backStart g.locs (g.locIndex x) := by
        show GPage.backStart (GPage.freeRun g.locs (g.locIndex (g.locPtr i))) (g.locIndex x) = _
        rw [hidx]
        exact backStart_congr g.locs _ (g.locIndex x) hA
      rw [hkeep, hgl]
      dsimp only
      rw [hbs]

theorem find?_first {α : Type} (l : List α) (p : α → Bool) :
    ∀ a, l.find? p = some a →
      ∃ k, l.get? k = some a ∧ p a = true ∧
        ∀ m x, m < k → l.get? m = some x → p x = false := by
  induction l with
  | nil => intro a h; cases h
  | cons hd tl ih =>
    intro a h
    by_cases hp : p hd
    · rw [List.find?_cons_of_pos _ hp] at h
      injection h with h
      subst h
      exact ⟨0, rfl, hp, fun m x hm _ => absurd hm (Nat.not_lt_zero m)⟩
    · rw [List.find?_cons_of_neg _ hp] at h
      obtain ⟨k, h1, h2, h3⟩ := ih a h
      refine ⟨k + 1, h1, h2, ?_⟩
      intro m x hm hx
      cases m with
      | zero =>
        injection hx with hx
        subst hx
        exact Bool.eq_false_iff.mpr hp
      | succ m => exact h3 m x (by omega) hx

theorem findEndPtr_spec (g : GPage) (i : Nat) (hi : i < g.locs.length) :
    ∃ e, findEndPtr g i = g.locPtr e ∧ i + 1 ≤ e ∧ e ≤ g.locs.length ∧
      ∀ m, i < m → m < e → g.isStart m = false := by
  unfold findEndPtr
  cases hf : ((List.range (g.locs.length - (i + 1))).map (fun k => i + 1 + k)).find?
      (fun j => g.isStart j) with
  | none =>
    refine ⟨g.locs.length, rfl, by omega, le_refl _, ?_⟩
    intro m h1 h2
    have hmem : m ∈ (List.range (g.locs.length - (i + 1))).map (fun k => i + 1 + k) := by
      rw [List.mem_map]
      exact ⟨m - (i + 1), List.mem_range.mpr (by omega), by omega⟩
    have := List.find?_eq_none.mp hf m hmem
    exact Bool.eq_false_iff.mpr this
  | some j =>
    obtain ⟨k, hk, hpj, hbefore⟩ := find?_first _ _ j hf
    have hklt : k < g.locs.length - (i + 1) := by
      by_contra hge
      rw [List.get?_map, List.get?_eq_none.mpr (by simp; omega)] at hk
      cases hk
    have hjval : j = i + 1 + k := by
      rw [List.get?_map, List.get?_eq_get (by simp [hklt])] at hk
      injection hk with hk
      rw [← hk]
      simp
    refine ⟨j, rfl, by omega, by omega, ?_⟩
    intro m h1 h2
    have hmk : m - (i + 1) < k := by omega
    have hgm : ((List.range (g.locs.length - (i + 1))).map (fun k => i + 1 + k)).get?
        (m - (i + 1)) = some m := by
      rw [List.get?_map, List.get?_eq_get (by simp; omega)]
      simp
      omega
    exact hbefore (m - (i + 1)) m hmk hgm

theorem contains_unique (pgs : List DHPage) (hd : pagesDisjoint pgs) (pi pj : Nat)
    (pgi pgj : DHPage) (hgi : pgs.get? pi = some pgi) (hgj : pgs.get? pj = some pgj)
    (x : Nat) (hci : pgi.page.contains x = true) (hcj : pgj.page.contains x = true) :
    pi = pj := by
  by_contra hne
  obtain ⟨hpi, hgi'⟩ := List.get?_eq_some.mp hgi
  obtain ⟨hpj, hgj'⟩ := List.get?_eq_some.mp hgj
  have hpd := List.pairwise_iff_get.mp hd
  have hdisj : pageRangesDisjoint pgi pgj ∨ pageRangesDisjoint pgj pgi := by
    rcases Nat.lt_or_ge pi pj with hlt | hge
    · left
      have hp := hpd ⟨pi, hpi⟩ ⟨pj, hpj⟩ hlt
      rwa [hgi', hgj'] at hp
    · have hlt : pj < pi := by omega
      right
      have hp := hpd ⟨pj, hpj⟩ ⟨pi, hpi⟩ hlt
      rwa [hgj', hgi'] at hp
  unfold GPage.contains at hci hcj
  have h1 := of_decide_eq_true hci
  have h2 := of_decide_eq_true hcj
  unfold pageRangesDisjoint at hdisj
  rcases hdisj with h3 | h3 <;> rcases h3 with h3 | h3 <;> omega

theorem marksGo_of_contains (pgs : List DHPage) :
    ∀ (pi : Nat) (pg : DHPage) (x : Nat), pgs.get? pi = some pg →
      (∀ pj pgj, pj < pi → pgs.get? pj = some pgj → pgj.page.contains x = false) →
      pg.page.contains x = true →
      marksGo pgs x pi ((pg.page.containsInfo x).startLocation) := by
  induction pgs with
  | nil =>
    intro pi pg x hpg
    cases pi <;> cases hpg
  | cons hd rest ih =>
    intro pi pg x hpg hbefore hc
    cases pi with
    | zero =>
      injection hpg with hpg
      subst hpg
      unfold marksGo
      refine ⟨?_, rfl⟩
      intro hn
      have := (containsInfo_notInRange_iff _ _).mp hn
      rw [hc] at this
      cases this
    | succ pi =>
      unfold marksGo
      constructor
      · intro hnn
        have hc0 : hd.page.contains x = false := hbefore 0 hd (by omega) rfl
        have := (containsInfo_notInRange_iff hd.page x).mpr hc0
        exact hnn this
      · exact ih pi pg x hpg (fun pj pgj hlt hget => hbefore (pj + 1) pgj (by omega) hget) hc

theorem dtorWithinGo_elim (pgs : List DHPage) (d : Destructor) :
    ∀ (h : dtorWithinGo pgs d),
      ∃ pi pg, pgs.get? pi = some pg ∧
        (∀ pj pgj, pj < pi → pgs.get? pj = some pgj → pgj.page.contains d.p = false) ∧
        (pg.page.containsInfo d.p).found = .inRangeAllocatedStart ∧
        (∀ k ∈ List.range (d.size * d.n),
          (pg.page.containsInfo (d.p + k)).found ≠ .notInRange ∧
          (pg.page.containsInfo (d.p + k)).startLocation =
            (pg.page.containsInfo d.p).startLocation) := by
  induction pgs with
  | nil => intro h; cases h
  | cons hd rest ih =>
    intro h
    unfold dtorWithinGo at h
    by_cases hc : (hd.page.containsInfo d.p).found ≠ .notInRange
    · rw [if_pos hc] at h
      exact ⟨0, hd, rfl, fun pj pgj hlt => absurd hlt (Nat.not_lt_zero pj), h.1, h.2⟩
    · rw [if_neg hc] at h
      obtain ⟨pi, pg, hpg, hbefore, hstart, hrange⟩ := ih h
      refine ⟨pi + 1, pg, hpg, ?_, hstart, hrange⟩
      intro pj pgj hlt hget
      cases pj with
      | zero =>
        injection hget with hget
        subst hget
        exact (containsInfo_notInRange_iff _ _).mp (not_not.mp hc)
      | succ pj => exact hbefore pj pgj (by omega) hget

/-- C8 witness: the amended theorem applied to the heap reached by adding a
fresh page and registering one null tracked pointer. -/
theorem c8_raw_values_allocated_witness :
    RawInv (enregister { emptyHeap with pages :=
        emptyHeap.pages ++ [freshDhpage 2000 4000 1] } 60 0) := by
  have hstep1 : HStep emptyHeap { emptyHeap with pages :=
      emptyHeap.pages ++ [freshDhpage 2000 4000 1] } :=
    HStep.addPage emptyHeap 2000 4000 1 (by decide) (by decide)
  have hstep2 : HStep
      { emptyHeap with pages := emptyHeap.pages ++ [freshDhpage 2000 4000 1] }
      (enregister { emptyHeap with pages :=
        emptyHeap.pages ++ [freshDhpage 2000 4000 1] } 60 0) :=
    HStep.newNull _ 60 (by decide)
  exact c8_raw_values_allocated _ (ReachH.step (ReachH.step ReachH.init hstep1) hstep2)

theorem recMarker_bitMarker (pgs : List DHPage) (roots : List RootPtr) (L q : Nat)
    (h : RecMarker pgs roots L q) : BitMarker pgs roots q := by
  rcases h with ⟨_, r, hr, hraw⟩ | ⟨hL, pos, dpj, hg, hlv, hraw⟩
  · exact Or.inl ⟨r, hr, hraw⟩
  · exact Or.inr ⟨pos, dpj, hg, by omega, hraw⟩

theorem recMarker_mono (pgs P2 : List DHPage) (roots : List RootPtr) (L q : Nat)
    (hfr : Frozen pgs P2) (h : RecMarker pgs roots L q) : RecMarker P2 roots L q := by
  rcases h with ⟨h1, r, hr, hraw⟩ | ⟨hL, pos, dpj, hg, hlv, hraw⟩
  · exact Or.inl ⟨h1, r, hr, hraw⟩
  · exact Or.inr ⟨hL, pos, dpj, hfr pos dpj hg (by omega), hlv, hraw⟩

theorem bitMarker_mono (pgs P2 : List DHPage) (roots : List RootPtr) (q : Nat)
    (hfr : Frozen pgs P2) (h : BitMarker pgs roots q) : BitMarker P2 roots q := by
  rcases h with ⟨r, hr, hraw⟩ | ⟨pos, dpj, hg, hlv, hraw⟩
  · exact Or.inl ⟨r, hr, hraw⟩
  · exact Or.inr ⟨pos, dpj, hfr pos dpj hg hlv, hlv, hraw⟩

theorem markGo_rec_bwd2 (pgs : List DHPage) (q L : Nat) :
    ∀ pi ri dp2, getRec (markGo pgs q L) (pi, ri) = some dp2 →
      getRec pgs (pi, ri) = some dp2 ∨
      ∃ dp pg, getRec pgs (pi, ri) = some dp ∧ pgs.get? pi = some pg ∧
        dp.level = 0 ∧ dp2 = { dp with level := L } ∧
        marksGo pgs q pi ((pg.page.containsInfo dp.addr).startLocation) := by
  induction pgs with
  | nil =>
    intro pi ri dp2 h
    exact absurd h (by cases pi <;> simp [markGo, getRec])
  | cons pg rest ih =>
    intro pi ri dp2 h
    unfold markGo at h
    by_cases hf : (pg.page.containsInfo q).found ≠ .notInRange
    · rw [if_pos hf] at h
      cases pi with
      | zero =>
        rw [getRec_cons_zero, markPage_get] at h
        cases hg : pg.dptrs.get? ri with
        | none => rw [hg] at h; exact absurd h (by simp)
        | some dp =>
          rw [hg, Option.map_some', Option.some.injEq] at h
          by_cases hcnd : (pg.page.containsInfo dp.addr).startLocation =
              (pg.page.containsInfo q).startLocation ∧ dp.level = 0
          · rw [if_pos hcnd] at h
            right
            refine ⟨dp, pg, ?_, rfl, hcnd.2, h.symm, ?_⟩
            · rw [getRec_cons_zero]; exact hg
            · unfold marksGo
              exact ⟨hf, hcnd.1.symm⟩
          · rw [if_neg hcnd] at h
            left
            rw [getRec_cons_zero, hg, h]
      | succ pi =>
        rw [getRec_cons_succ] at h
        left
        rw [getRec_cons_succ]
        exact h
    · rw [if_neg hf] at h
      cases pi with
      | zero =>
        left
        rw [getRec_cons_zero] at h ⊢
        exact h
      | succ pi =>
        rw [getRec_cons_succ] at h
        rcases ih pi ri dp2 h with h1 | ⟨dp, pg1, h1, h2, h3, h4, h5⟩
        · left
          rw [getRec_cons_succ]
          exact h1
        · right
          refine ⟨dp, pg1, ?_, h2, h3, h4, ?_⟩
          · rw [getRec_cons_succ]
            exact h1
          · unfold marksGo
            exact ⟨hf, h5⟩

theorem mark_rec_bwd2 (pgs : List DHPage) (q L : Nat) (pi ri : Nat) (dp2 : NonRoot)
    (h : getRec (mark pgs q L) (pi, ri) = some dp2) :
    getRec pgs (pi, ri) = some dp2 ∨
    (q ≠ 0 ∧ ∃ dp pg, getRec pgs (pi, ri) = some dp ∧ pgs.get? pi = some pg ∧
      dp.level = 0 ∧ dp2 = { dp with level := L } ∧
      marksGo pgs q pi ((pg.page.containsInfo dp.addr).startLocation)) := by
  unfold mark at h
  by_cases hq : q = 0
  · rw [if_pos hq] at h
    exact Or.inl h
  · rw [if_neg hq] at h
    rcases markGo_rec_bwd2 pgs q L pi ri dp2 h with h1 | h2
    · exact Or.inl h1
    · exact Or.inr ⟨hq, h2⟩

theorem markGo_page_bwd (pgs : List DHPage) (q L : Nat) :
    ∀ pi pg2, (markGo pgs q L).get? pi = some pg2 →
      ∃ pg, pgs.get? pi = some pg ∧ pg2.page = pg.page ∧
        (∀ i, pg2.liveStarts.getD i false = true →
          pg.liveStarts.getD i false = true ∨ marksGo pgs q pi i) ∧
        (∀ i, pg.liveStarts.getD i false = true →
          pg2.liveStarts.getD i false = true) := by
  induction pgs with
  | nil =>
    intro pi pg2 h
    cases pi <;> cases h
  | cons pg rest ih =>
    intro pi pg2 h
    unfold markGo at h
    by_cases hf : (pg.page.containsInfo q).found ≠ .notInRange
    · rw [if_pos hf] at h
      cases pi with
      | zero =>
        injection h with h
        subst h
        refine ⟨pg, rfl, rfl, ?_, ?_⟩
        · intro i hb
          rcases bit_set_bwd pg.liveStarts _ i hb with h1 | h1
          · exact Or.inl h1
          · right
            unfold marksGo
            exact ⟨hf, h1.symm⟩
        · intro i hb
          exact bit_set_keep hb
      | succ pi =>
        exact ⟨pg2, h, rfl, fun i hb => Or.inl hb, fun i hb => hb⟩
    · rw [if_neg hf] at h
      cases pi with
      | zero =>
        injection h with h
        subst h
        exact ⟨pg, rfl, rfl, fun i hb => Or.inl hb, fun i hb => hb⟩
      | succ pi =>
        obtain ⟨pg1, h1, h2, h3, h4⟩ := ih pi pg2 h
        refine ⟨pg1, h1, h2, ?_, h4⟩
        intro i hb
        rcases h3 i hb with hb1 | hb1
        · exact Or.inl hb1
        · right
          unfold marksGo
          exact ⟨hf, hb1⟩

theorem mark_page_bwd (pgs : List DHPage) (q L : Nat) (pi : Nat) (pg2 : DHPage)
    (h : (mark pgs q L).get? pi = some pg2) :
    ∃ pg, pgs.get? pi = some pg ∧ pg2.page = pg.page ∧
      (∀ i, pg2.liveStarts.getD i false = true →
        pg.liveStarts.getD i false = true ∨ (q ≠ 0 ∧ marksGo pgs q pi i)) ∧
      (∀ i, pg.liveStarts.getD i false = true → pg2.liveStarts.getD i false = true) := by
  unfold mark at h
  by_cases hq : q = 0
  · rw [if_pos hq] at h
    exact ⟨pg2, h, rfl, fun i hb => Or.inl hb, fun i hb => hb⟩
  · rw [if_neg hq] at h
    obtain ⟨pg, h1, h2, h3, h4⟩ := markGo_page_bwd pgs q L pi pg2 h
    exact ⟨pg, h1, h2, fun i hb => (h3 i hb).imp id (fun hm => ⟨hq, hm⟩), h4⟩

theorem markGo_sets_bit (pgs : List DHPage) (q L : Nat) (hwf : WfPages pgs) :
    ∀ pi s, marksGo pgs q pi s →
      ∃ pg2, (markGo pgs q L).get? pi = some pg2 ∧
        pg2.liveStarts.getD s false = true := by
  induction pgs with
  | nil =>
    intro pi s hm
    cases pi <;> exact absurd hm (fun h => h)
  | cons pg rest ih =>
    intro pi s hm
    unfold markGo
    cases pi with
    | zero =>
      obtain ⟨hf, hs⟩ := hm
      rw [if_pos hf]
      refine ⟨markPage pg (pg.page.containsInfo q).startLocation L, rfl, ?_⟩
      show (pg.liveStarts.set (pg.page.containsInfo q).startLocation true).getD s false = true
      rw [← hs]
      apply bit_set_self
      have hlt := containsInfo_startLoc_lt pg.page q
        (hwf pg (List.mem_cons_self _ _)).1 hf
      rw [(hwf pg (List.mem_cons_self _ _)).2]
      exact hlt
    | succ pi =>
      obtain ⟨hnf, hrec⟩ := hm
      rw [if_neg hnf]
      obtain ⟨pg2, h1, h2⟩ := ih (fun p hp => hwf p (List.mem_cons_of_mem _ hp)) pi s hrec
      exact ⟨pg2, h1, h2⟩

theorem mark_sets_bit (pgs : List DHPage) (q L : Nat) (hwf : WfPages pgs)
    (hq : q ≠ 0) (pi s : Nat) (hm : marksGo pgs q pi s) :
    ∃ pg2, (mark pgs q L).get? pi = some pg2 ∧ pg2.liveStarts.getD s false = true := by
  unfold mark
  rw [if_neg hq]
  exact markGo_sets_bit pgs q L hwf pi s hm

theorem getD_replicate_false (n i : Nat) :
    (List.replicate n false).getD i false = false := by
  induction n generalizing i with
  | zero => rfl
  | succ n ih =>
    cases i with
    | zero => rfl
    | succ i => exact ih i

theorem ranked_mark (pgs : List DHPage) (roots : List RootPtr) (q L : Nat)
    (hwf : WfPages pgs) (hM : RecMarker pgs roots L q)
    (hr : Ranked pgs roots) : Ranked (mark pgs q L) roots := by
  obtain ⟨hRR, hRS, hSL⟩ := hr
  have hg : gpagesOf pgs = gpagesOf (mark pgs q L) := (gpagesOf_mark pgs q L).symm
  have hfr : Frozen pgs (mark pgs q L) := mark_frozen pgs q L
  refine ⟨?_, ?_, ?_⟩
  · intro pi pg2 hpg2 dp2 hdp2 hlv
    obtain ⟨ri, hri⟩ := List.get?_of_mem hdp2
    have hgr2 : getRec (mark pgs q L) (pi, ri) = some dp2 := by
      unfold getRec
      rw [hpg2]
      exact hri
    obtain ⟨pg1, hpg1, hpage, _, _⟩ := mark_page_bwd pgs q L pi pg2 hpg2
    rcases mark_rec_bwd2 pgs q L pi ri dp2 hgr2 with hold |
        ⟨hq, dp, pg1', hgold, hpg1', hlev0, hdpeq, hmga⟩
    · have hdp1 : dp2 ∈ pg1.dptrs := by
        unfold getRec at hold
        rw [hpg1] at hold
        exact List.get?_mem hold
      obtain ⟨q', hq', hmg, hrm⟩ := hRR pi pg1 hpg1 dp2 hdp1 hlv
      refine ⟨q', hq', ?_, recMarker_mono pgs _ roots dp2.level q' hfr hrm⟩
      rw [hpage]
      exact marksGo_congr pgs _ hg q' pi _ hmg
    · rw [hpg1] at hpg1'
      injection hpg1' with hpe
      subst hpe
      have haddr : dp2.addr = dp.addr := by rw [hdpeq]
      have hlvL : dp2.level = L := by rw [hdpeq]
      refine ⟨q, hq, ?_, ?_⟩
      · rw [hpage, haddr]
        exact marksGo_congr pgs _ hg q pi _ hmga
      · rw [hlvL]
        exact recMarker_mono pgs _ roots L q hfr hM
  · intro pi pg2 i hpg2 hst hbit
    obtain ⟨pg1, hpg1, hpage, hbwd, _⟩ := mark_page_bwd pgs q L pi pg2 hpg2
    rcases hbwd i hbit with hold | ⟨hq, hmg⟩
    · have hst1 : pg1.page.isStart i = true := by
        rw [← hpage]
        exact hst
      obtain ⟨q', hq', hmg, hbm⟩ := hRS pi pg1 i hpg1 hst1 hold
      exact ⟨q', hq', marksGo_congr pgs _ hg q' pi i hmg,
        bitMarker_mono pgs _ roots q' hfr hbm⟩
    · exact ⟨q, hq, marksGo_congr pgs _ hg q pi i hmg,
        bitMarker_mono pgs _ roots q hfr (recMarker_bitMarker pgs roots L q hM)⟩
  · intro pi pg2 hpg2 dp2 hdp2 hlv
    obtain ⟨ri, hri⟩ := List.get?_of_mem hdp2
    have hgr2 : getRec (mark pgs q L) (pi, ri) = some dp2 := by
      unfold getRec
      rw [hpg2]
      exact hri
    obtain ⟨pg1, hpg1, hpage, _, hfwd⟩ := mark_page_bwd pgs q L pi pg2 hpg2
    rcases mark_rec_bwd2 pgs q L pi ri dp2 hgr2 with hold |
        ⟨hq, dp, pg1', hgold, hpg1', hlev0, hdpeq, hmga⟩
    · have hdp1 : dp2 ∈ pg1.dptrs := by
        unfold getRec at hold
        rw [hpg1] at hold
        exact List.get?_mem hold
      have hb := hSL pi pg1 hpg1 dp2 hdp1 hlv
      rw [hpage]
      exact hfwd _ hb
    · rw [hpg1] at hpg1'
      injection hpg1' with hpe
      subst hpe
      have haddr : dp2.addr = dp.addr := by rw [hdpeq]
      obtain ⟨pg2', hpg2', hbit⟩ := mark_sets_bit pgs q L hwf hq pi _ hmga
      rw [hpg2] at hpg2'
      injection hpg2' with hpe2
      rw [hpage, haddr, hpe2]
      exact hbit

theorem ranked_markRoots_go (roots : List RootPtr) (rs : List RootPtr) :
    ∀ (pgs : List DHPage), WfPages pgs → (∀ r ∈ rs, r ∈ roots) → Ranked pgs roots →
      Ranked (rs.foldl (fun pgs r => mark pgs r.raw 1) pgs) roots := by
  induction rs with
  | nil =>
    intro pgs _ _ hr
    exact hr
  | cons r rest ih =>
    intro pgs hwf hsub hr
    rw [List.foldl_cons]
    apply ih (mark pgs r.raw 1) (wfPages_mark pgs r.raw 1 hwf)
      (fun x hx => hsub x (List.mem_cons_of_mem _ hx))
    exact ranked_mark pgs roots r.raw 1 hwf
      (Or.inl ⟨rfl, r, hsub r (List.mem_cons_self _ _), rfl⟩) hr

theorem ranked_markRoots (pgs : List DHPage) (roots : List RootPtr)
    (hwf : WfPages pgs) (hr : Ranked pgs roots) :
    Ranked (markRoots pgs roots) roots := by
  unfold markRoots
  exact ranked_markRoots_go roots roots pgs hwf (fun _ h => h) hr

theorem ranked_passStep (roots : List RootPtr) (L : Nat) (hL : 2 ≤ L)
    (acc : List DHPage × Bool) (pos : Nat × Nat) (hwf : WfPages acc.1)
    (hr : Ranked acc.1 roots) : Ranked (passStep L acc pos).1 roots := by
  rcases passStep_cases L acc pos with heq | ⟨dp, hget, hlev, heq⟩
  · rw [heq]
    exact hr
  · rw [heq]
    exact ranked_mark acc.1 roots dp.raw L hwf
      (Or.inr ⟨hL, pos, dp, hget, by omega, rfl⟩) hr

theorem ranked_foldl_passStep (roots : List RootPtr) (L : Nat) (hL : 2 ≤ L)
    (ps : List (Nat × Nat)) :
    ∀ acc : List DHPage × Bool, WfPages acc.1 → Ranked acc.1 roots →
      Ranked (ps.foldl (passStep L) acc).1 roots := by
  induction ps with
  | nil =>
    intro acc _ hr
    exact hr
  | cons p rest ih =>
    intro acc hwf hr
    rw [List.foldl_cons]
    exact ih (passStep L acc p) (passStep_wf L acc p hwf)
      (ranked_passStep roots L hL acc p hwf hr)

theorem ranked_pass (pgs : List DHPage) (roots : List RootPtr) (L : Nat)
    (hL : 2 ≤ L) (hwf : WfPages pgs) (hr : Ranked pgs roots) :
    Ranked (pass pgs L).1 roots := by
  unfold pass
  exact ranked_foldl_passStep roots L hL (positionsOf pgs) (pgs, false) hwf hr

theorem ranked_phase2go (roots : List RootPtr) (fuel : Nat) :
    ∀ (pgs : List DHPage) (L : Nat), 2 ≤ L → WfPages pgs → Ranked pgs roots →
      Ranked (phase2go fuel pgs L).1 roots := by
  induction fuel with
  | zero =>
    intro pgs L _ _ hr
    exact hr
  | succ fuel ih =>
    intro pgs L hL hwf hr
    cases hf : (pass pgs L).2 with
    | true =>
      rw [phase2go_succ_found fuel pgs L hf]
      exact ih (pass pgs L).1 (L + 1) (by omega) (pass_wf pgs L hwf)
        (ranked_pass pgs roots L hL hwf hr)
    | false =>
      rw [phase2go_succ_notfound fuel pgs L hf]
      exact ranked_pass pgs roots L hL hwf hr

theorem ranked_phase1 (h : Heap) (roots : List RootPtr) :
    Ranked (phase1 h).pages roots := by
  refine ⟨?_, ?_, ?_⟩
  · intro pi pg hpg dp hdp hlv
    exfalso
    obtain ⟨ri, hri⟩ := List.get?_of_mem hdp
    have hz : dp.level = 0 := phase1_levels h (pi, ri) dp (by
      unfold getRec
      rw [hpg]
      exact hri)
    omega
  · intro pi pg i hpg hst hbit
    exfalso
    have hmem : pg ∈ (phase1 h).pages := List.get?_mem hpg
    simp only [phase1, List.mem_map] at hmem
    obtain ⟨pg0, _, rfl⟩ := hmem
    dsimp only at hbit
    rw [getD_replicate_false] at hbit
    cases hbit
  · intro pi pg hpg dp hdp hlv
    exfalso
    obtain ⟨ri, hri⟩ := List.get?_of_mem hdp
    have hz : dp.level = 0 := phase1_levels h (pi, ri) dp (by
      unfold getRec
      rw [hpg]
      exact hri)
    omega

theorem ranked_afterMarking (h : Heap) (hwf : WfPages h.pages) :
    Ranked (afterMarking h).pages h.roots := by
  have hwf1 : WfPages (phase1 h).pages := wfPages_phase1 h hwf
  have hr1 : Ranked (phase1 h).pages h.roots := ranked_phase1 h h.roots
  have hrm : Ranked (markRoots (phase1 h).pages h.roots) h.roots :=
    ranked_markRoots _ _ hwf1 hr1
  have hwfm : WfPages (markRoots (phase1 h).pages h.roots) :=
    wfPages_markRoots _ _ hwf1
  exact ranked_phase2go h.roots _ _ 2 (le_refl 2) hwfm hrm

theorem gpagesOf_get (A B : List DHPage) (hg : gpagesOf A = gpagesOf B) (pi : Nat)
    (pgA pgB : DHPage) (ha : A.get? pi = some pgA) (hb : B.get? pi = some pgB) :
    pgA.page = pgB.page := by
  have h1 : (gpagesOf A).get? pi = (gpagesOf B).get? pi := by rw [hg]
  unfold gpagesOf at h1
  rw [List.get?_map, List.get?_map, ha, hb] at h1
  simpa using h1

theorem shapesOf_len (A B : List DHPage) (hs : shapesOf A = shapesOf B) :
    A.length = B.length := by
  have := congrArg List.length hs
  unfold shapesOf at this
  simpa using this

theorem shapesOf_get (A B : List DHPage) (hs : shapesOf A = shapesOf B) (pi : Nat)
    (pgA pgB : DHPage) (ha : A.get? pi = some pgA) (hb : B.get? pi = some pgB) :
    pgA.page.base = pgB.page.base ∧ pgA.page.minAlloc = pgB.page.minAlloc ∧
    pgA.page.locs.length = pgB.page.locs.length := by
  have h1 : (shapesOf A).get? pi = (shapesOf B).get? pi := by rw [hs]
  unfold shapesOf at h1
  rw [List.get?_map, List.get?_map, ha, hb] at h1
  simp only [Option.map_some', Option.some.injEq, Prod.mk.injEq] at h1
  exact ⟨h1.1, h1.2.1, h1.2.2⟩

theorem contains_of_shapes (A B : List DHPage) (hs : shapesOf A = shapesOf B)
    (pi : Nat) (pgA pgB : DHPage) (ha : A.get? pi = some pgA)
    (hb : B.get? pi = some pgB) (x : Nat) :
    pgA.page.contains x = pgB.page.contains x := by
  obtain ⟨h1, h2, h3⟩ := shapesOf_get A B hs pi pgA pgB ha hb
  exact contains_of_shape pgA.page pgB.page h1 h2 h3 x

theorem pagesDisjoint_of_shapes (A B : List DHPage) (hs : shapesOf A = shapesOf B)
    (hd : pagesDisjoint A) : pagesDisjoint B := by
  have hlen : A.length = B.length := shapesOf_len A B hs
  unfold pagesDisjoint at hd ⊢
  rw [List.pairwise_iff_get] at hd ⊢
  intro i j hij
  have hAi : A.get? (i.1 : Nat) = some (A.get ⟨i.1, by omega⟩) :=
    List.get?_eq_get (by omega)
  have hAj : A.get? (j.1 : Nat) = some (A.get ⟨j.1, by omega⟩) :=
    List.get?_eq_get (by omega)
  have hBi : B.get? (i.1 : Nat) = some (B.get i) := List.get?_eq_get i.2
  have hBj : B.get? (j.1 : Nat) = some (B.get j) := List.get?_eq_get j.2
  have hp := hd ⟨i.1, by omega⟩ ⟨j.1, by omega⟩ hij
  obtain ⟨hb1, hm1, hl1⟩ := shapesOf_get A B hs i.1 _ _ hAi hBi
  obtain ⟨hb2, hm2, hl2⟩ := shapesOf_get A B hs j.1 _ _ hAj hBj
  unfold pageRangesDisjoint GPage.totalSize at hp ⊢
  rw [← hb1, ← hb2, ← hm1, ← hm2, ← hl1, ← hl2]
  exact hp

theorem getRec_of_projections (A B : List DHPage) (ha : addrsOf A = addrsOf B)
    (hr : rawsOf A = rawsOf B) (pos : Nat × Nat) (dp : NonRoot)
    (hg : getRec B pos = some dp) :
    ∃ dp2, getRec A pos = some dp2 ∧ dp2.addr = dp.addr ∧ dp2.raw = dp.raw := by
  cases hB : B.get? pos.1 with
  | none =>
    unfold getRec at hg
    rw [hB] at hg
    exact Option.noConfusion hg
  | some pgB =>
    unfold getRec at hg
    rw [hB] at hg
    dsimp only at hg
    have h1 : (addrsOf A).get? pos.1 = (addrsOf B).get? pos.1 := by rw [ha]
    have h2 : (rawsOf A).get? pos.1 = (rawsOf B).get? pos.1 := by rw [hr]
    unfold addrsOf at h1
    unfold rawsOf at h2
    rw [List.get?_map, List.get?_map, hB] at h1 h2
    cases hA : A.get? pos.1 with
    | none =>
      rw [hA] at h1
      cases h1
    | some pgA =>
      rw [hA] at h1 h2
      simp only [Option.map_some', Option.some.injEq] at h1 h2
      have h3 : (pgA.dptrs.map (fun dp => dp.addr)).get? pos.2 =
          (pgB.dptrs.map (fun dp => dp.addr)).get? pos.2 := by rw [h1]
      have h4 : (pgA.dptrs.map (fun dp => dp.raw)).get? pos.2 =
          (pgB.dptrs.map (fun dp => dp.raw)).get? pos.2 := by rw [h2]
      rw [List.get?_map, List.get?_map, hg] at h3 h4
      cases hA2 : pgA.dptrs.get? pos.2 with
      | none =>
        rw [hA2] at h3
        cases h3
      | some dp2 =>
        rw [hA2] at h3 h4
        simp only [Option.map_some', Option.some.injEq] at h3 h4
        refine ⟨dp2, ?_, h3, h4⟩
        unfold getRec
        rw [hA]
        exact hA2

theorem map_pair_of_proj (l1 l2 : List NonRoot)
    (ha : l1.map (fun dp => dp.addr) = l2.map (fun dp => dp.addr))
    (hr : l1.map (fun dp => dp.raw) = l2.map (fun dp => dp.raw)) :
    l1.map (fun dp => (dp.addr, dp.raw)) = l2.map (fun dp => (dp.addr, dp.raw)) := by
  apply List.ext_get?
  intro n
  have h1 : (l1.map (fun dp => dp.addr)).get? n = (l2.map (fun dp => dp.addr)).get? n := by
    rw [ha]
  have h2 : (l1.map (fun dp => dp.raw)).get? n = (l2.map (fun dp => dp.raw)).get? n := by
    rw [hr]
  rw [List.get?_map, List.get?_map] at h1 h2
  rw [List.get?_map, List.get?_map]
  cases hx : l1.get? n with
  | none =>
    rw [hx] at h1
    cases hy : l2.get? n with
    | none => rfl
    | some b =>
      rw [hy] at h1
      cases h1
  | some a =>
    rw [hx] at h1 h2
    cases hy : l2.get? n with
    | none =>
      rw [hy] at h1
      cases h1
    | some b =>
      rw [hy] at h1 h2
      simp only [Option.map_some', Option.some.injEq] at h1 h2 ⊢
      rw [h1, h2]

theorem pairs_of_projections (A B : List DHPage) (ha : addrsOf A = addrsOf B)
    (hr : rawsOf A = rawsOf B) :
    A.map (fun pg => pg.dptrs.map (fun dp => (dp.addr, dp.raw))) =
    B.map (fun pg => pg.dptrs.map (fun dp => (dp.addr, dp.raw))) := by
  apply List.ext_get?
  intro pi
  have h1 : (addrsOf A).get? pi = (addrsOf B).get? pi := by rw [ha]
  have h2 : (rawsOf A).get? pi = (rawsOf B).get? pi := by rw [hr]
  unfold addrsOf at h1
  unfold rawsOf at h2
  rw [List.get?_map, List.get?_map] at h1 h2
  rw [List.get?_map, List.get?_map]
  cases hx : A.get? pi with
  | none =>
    rw [hx] at h1
    cases hy : B.get? pi with
    | none => rfl
    | some pgB =>
      rw [hy] at h1
      cases h1
  | some pgA =>
    rw [hx] at h1 h2
    cases hy : B.get? pi with
    | none =>
      rw [hy] at h1
      cases h1
    | some pgB =>
      rw [hy] at h1 h2
      simp only [Option.map_some', Option.some.injEq] at h1 h2 ⊢
      exact map_pair_of_proj pgA.dptrs pgB.dptrs h1 h2

theorem marksGo_elim (pgs : List DHPage) (q : Nat) :
    ∀ pi s, marksGo pgs q pi s →
      ∃ pg, pgs.get? pi = some pg ∧
        (∀ pj pgj, pj < pi → pgs.get? pj = some pgj → pgj.page.contains q = false) ∧
        (pg.page.containsInfo q).found ≠ .notInRange ∧
        (pg.page.containsInfo q).startLocation = s := by
  induction pgs with
  | nil =>
    intro pi s hm
    cases pi <;> exact absurd hm (fun h => h)
  | cons hd rest ih =>
    intro pi s hm
    cases pi with
    | zero =>
      obtain ⟨h1, h2⟩ := hm
      exact ⟨hd, rfl, fun pj pgj hlt => absurd hlt (Nat.not_lt_zero pj), h1, h2⟩
    | succ pi =>
      obtain ⟨h1, h2⟩ := hm
      obtain ⟨pg, hpg, hbefore, h3, h4⟩ := ih pi s h2
      refine ⟨pg, hpg, ?_, h3, h4⟩
      intro pj pgj hlt hget
      cases pj with
      | zero =>
        injection hget with hget
        subst hget
        exact (containsInfo_notInRange_iff hd.page q).mp (not_not.mp h1)
      | succ pj =>
        exact hbefore pj pgj (by omega) hget

theorem isStart_lt_length (g : GPage) (i : Nat) (h : g.isStart i = true) :
    i < g.locs.length := by
  by_contra hge
  unfold GPage.isStart at h
  unfold List.getD at h
  rw [List.get?_eq_none.mpr (by omega)] at h
  cases h

theorem freeRun_getD_start (locs : List Loc) (i : Nat) :
    (GPage.freeRun locs i).getD i .free = .free := by
  unfold GPage.freeRun
  rw [freeMids_getD_lt _ _ _ _ (by omega)]
  exact getD_set_free locs i

theorem dealloc_containsInfo_notin (g : GPage) (st x : Nat)
    (hfound : (g.containsInfo x).found = .notInRange) :
    (g.deallocate st).containsInfo x = g.containsInfo x := by
  have hc : g.contains x = false := (containsInfo_notInRange_iff g x).mp hfound
  have hc2 : (g.deallocate st).contains x = false := by
    rw [contains_of_shape (g.deallocate st) g rfl rfl (freeRun_length _ _)]
    exact hc
  unfold GPage.containsInfo
  rw [hc, hc2]
  rfl

theorem locIndex_locPtr (g : GPage) (i : Nat) (hm : 0 < g.minAlloc) :
    g.locIndex (g.locPtr i) = i := by
  unfold GPage.locIndex GPage.locPtr
  rw [Nat.add_sub_cancel_left]
  exact Nat.mul_div_cancel_left i hm

theorem mem_sweepPositions (pages : List DHPage) (pi i : Nat) (pg : DHPage)
    (hpg : pages.get? pi = some pg) (hi : i < pg.page.locs.length) :
    (pi, i) ∈ sweepPositions pages := by
  unfold sweepPositions
  rw [List.mem_flatMap]
  refine ⟨pi, List.mem_range.mpr (by
    by_contra hge
    rw [List.get?_eq_none.mpr (by omega)] at hpg
    cases hpg), ?_⟩
  rw [List.mem_map]
  refine ⟨i, List.mem_range.mpr ?_, rfl⟩
  unfold List.getD
  rw [hpg]
  exact hi

theorem sweepLoc_keep_page (acc : Heap × List Ev) (pos : Nat × Nat) (pi : Nat)
    (pgS : DHPage) (hget : acc.1.pages.get? pi = some pgS)
    (hwf : WfPages acc.1.pages) (x : Nat)
    (hsafe : (pgS.page.containsInfo x).found = .notInRange ∨
      (pgS.page.containsInfo x).found = .inRangeUnallocated ∨
      (((pgS.page.containsInfo x).found = .inRangeAllocatedStart ∨
        (pgS.page.containsInfo x).found = .inRangeAllocatedMiddle) ∧
       pgS.liveStarts.getD (pgS.page.containsInfo x).startLocation false = true)) :
    ∃ pgS2, (sweepLoc acc pos).1.pages.get? pi = some pgS2 ∧
      pgS2.page.containsInfo x = pgS.page.containsInfo x ∧
      pgS2.liveStarts = pgS.liveStarts := by
  unfold sweepLoc
  dsimp only
  cases hg : acc.1.pages.get? pos.1 with
  | none => exact ⟨pgS, hget, rfl, rfl⟩
  | some pg =>
    dsimp only
    split
    · rename_i hcond
      dsimp only
      rw [updatePage_get]
      by_cases hpi : pi = pos.1
      · rw [if_pos hpi, removeRecs_get]
        subst hpi
        rw [hget] at hg
        injection hg with hg
        subst hg
        rw [hget]
        refine ⟨_, rfl, ?_, rfl⟩
        show (pgS.page.deallocate (pgS.page.locPtr pos.2)).containsInfo x = _
        have hm : 0 < pgS.page.minAlloc := (hwf pgS (List.get?_mem hget)).1
        rcases hsafe with h1 | h1 | ⟨hfound, hlive⟩
        · exact dealloc_containsInfo_notin pgS.page _ x h1
        · exact dealloc_containsInfo_unalloc pgS.page _ x h1
        · exact dealloc_containsInfo_keep pgS.page pgS.liveStarts pos.2 x hm
            hcond.1 hcond.2 hfound hlive
      · rw [if_neg hpi, removeRecs_get, hget]
        exact ⟨_, rfl, rfl, rfl⟩
    · exact ⟨pgS, hget, rfl, rfl⟩

theorem foldl_sweep_keep_page (ps : List (Nat × Nat)) :
    ∀ (acc : Heap × List Ev) (pi : Nat) (pgS : DHPage),
      acc.1.pages.get? pi = some pgS → WfPages acc.1.pages → ∀ x : Nat,
      ((pgS.page.containsInfo x).found = .notInRange ∨
        (pgS.page.containsInfo x).found = .inRangeUnallocated ∨
        (((pgS.page.containsInfo x).found = .inRangeAllocatedStart ∨
          (pgS.page.containsInfo x).found = .inRangeAllocatedMiddle) ∧
         pgS.liveStarts.getD (pgS.page.containsInfo x).startLocation false = true)) →
      ∃ pgS2, (ps.foldl sweepLoc acc).1.pages.get? pi = some pgS2 ∧
        pgS2.page.containsInfo x = pgS.page.containsInfo x ∧
        pgS2.liveStarts = pgS.liveStarts := by
  induction ps with
  | nil =>
    intro acc pi pgS hget _ x _
    exact ⟨pgS, hget, rfl, rfl⟩
  | cons p rest ih =>
    intro acc pi pgS hget hwf x hsafe
    rw [List.foldl_cons]
    obtain ⟨pgS1, hget1, hci1, hbit1⟩ := sweepLoc_keep_page acc p pi pgS hget hwf x hsafe
    have hsafe1 : (pgS1.page.containsInfo x).found = .notInRange ∨
        (pgS1.page.containsInfo x).found = .inRangeUnallocated ∨
        (((pgS1.page.containsInfo x).found = .inRangeAllocatedStart ∨
          (pgS1.page.containsInfo x).found = .inRangeAllocatedMiddle) ∧
         pgS1.liveStarts.getD (pgS1.page.containsInfo x).startLocation false = true) := by
      rw [hci1, hbit1]
      exact hsafe
    obtain ⟨pgS2, hget2, hci2, hbit2⟩ := ih (sweepLoc acc p) pi pgS1 hget1
      (wfPages_sweepLoc acc p hwf) x hsafe1
    exact ⟨pgS2, hget2, hci2.trans hci1, hbit2.trans hbit1⟩

theorem phase4_keep_page (h3 : Heap) (hwf : WfPages h3.pages) (pi : Nat)
    (pgS : DHPage) (hget : h3.pages.get? pi = some pgS) (x : Nat)
    (hsafe : (pgS.page.containsInfo x).found = .notInRange ∨
      (pgS.page.containsInfo x).found = .inRangeUnallocated ∨
      (((pgS.page.containsInfo x).found = .inRangeAllocatedStart ∨
        (pgS.page.containsInfo x).found = .inRangeAllocatedMiddle) ∧
       pgS.liveStarts.getD (pgS.page.containsInfo x).startLocation false = true)) :
    ∃ pgS2, (phase4 h3).1.pages.get? pi = some pgS2 ∧
      pgS2.page.containsInfo x = pgS.page.containsInfo x ∧
      pgS2.liveStarts = pgS.liveStarts := by
  unfold phase4
  exact foldl_sweep_keep_page (sweepPositions h3.pages) (h3, []) pi pgS hget hwf x hsafe

theorem sweepLoc_done_mono (acc : Heap × List Ev) (pos pos0 : Nat × Nat)
    (hd : ∀ pg, acc.1.pages.get? pos0.1 = some pg → pg.page.isStart pos0.2 = true →
      pg.liveStarts.getD pos0.2 false = true) :
    ∀ pg, (sweepLoc acc pos).1.pages.get? pos0.1 = some pg →
      pg.page.isStart pos0.2 = true → pg.liveStarts.getD pos0.2 false = true := by
  intro pg2 hget2 hst2
  unfold sweepLoc at hget2
  dsimp only at hget2
  cases hg : acc.1.pages.get? pos.1 with
  | none =>
    rw [hg] at hget2
    exact hd pg2 hget2 hst2
  | some pg =>
    rw [hg] at hget2
    dsimp only at hget2
    split at hget2
    · dsimp only at hget2
      rw [updatePage_get, removeRecs_get] at hget2
      by_cases hpi : pos0.1 = pos.1
      · rw [if_pos hpi] at hget2
        cases hB : acc.1.pages.get? pos0.1 with
        | none =>
          rw [hB] at hget2
          cases hget2
        | some pgB =>
          rw [hB] at hget2
          simp only [Option.map_some', Option.some.injEq] at hget2
          subst hget2
          have hor := freeRun_getD_or pgB.page.locs
            (pgB.page.locIndex (pg.page.locPtr pos.2)) pos0.2
          have hst2v : (GPage.freeRun pgB.page.locs
              (pgB.page.locIndex (pg.page.locPtr pos.2))).getD pos0.2 .free = .strt :=
            of_decide_eq_true hst2
          rcases hor with h1 | h1
          · have hstB : pgB.page.isStart pos0.2 = true := by
              unfold GPage.isStart
              rw [← h1, hst2v]
              rfl
            exact hd pgB hB hstB
          · rw [h1] at hst2v
            cases hst2v
      · rw [if_neg hpi] at hget2
        cases hB : acc.1.pages.get? pos0.1 with
        | none =>
          rw [hB] at hget2
          cases hget2
        | some pgB =>
          rw [hB] at hget2
          simp only [Option.map_some', Option.some.injEq] at hget2
          subst hget2
          exact hd pgB hB hst2
    · exact hd pg2 hget2 hst2

theorem sweepLoc_done_self (acc : Heap × List Ev) (pos : Nat × Nat)
    (hwf : WfPages acc.1.pages) :
    ∀ pg2, (sweepLoc acc pos).1.pages.get? pos.1 = some pg2 →
      pg2.page.isStart pos.2 = true → pg2.liveStarts.getD pos.2 false = true := by
  intro pg2 hget2 hst2
  unfold sweepLoc at hget2
  dsimp only at hget2
  cases hg : acc.1.pages.get? pos.1 with
  | none =>
    rw [hg] at hget2
    rw [hg] at hget2
    cases hget2
  | some pg =>
    rw [hg] at hget2
    dsimp only at hget2
    split at hget2
    · rename_i hcond
      dsimp only at hget2
      rw [updatePage_get, if_pos rfl, removeRecs_get, hg] at hget2
      simp only [Option.map_some', Option.some.injEq] at hget2
      subst hget2
      exfalso
      have hm : 0 < pg.page.minAlloc := (hwf pg (List.get?_mem hg)).1
      have hidx : pg.page.locIndex (pg.page.locPtr pos.2) = pos.2 :=
        locIndex_locPtr pg.page pos.2 hm
      have hst2v : (GPage.freeRun pg.page.locs
          (pg.page.locIndex (pg.page.locPtr pos.2))).getD pos.2 .free = .strt :=
        of_decide_eq_true hst2
      rw [hidx, freeRun_getD_start] at hst2v
      cases hst2v
    · rename_i hcond
      rw [hg] at hget2
      injection hget2 with hget2
      subst hget2
      cases hbit : pg.liveStarts.getD pos.2 false with
      | false => exact absurd ⟨hst2, hbit⟩ hcond
      | true => rfl

theorem foldl_sweep_done_mono (ps : List (Nat × Nat)) :
    ∀ (acc : Heap × List Ev) (pos0 : Nat × Nat),
      (∀ pg, acc.1.pages.get? pos0.1 = some pg → pg.page.isStart pos0.2 = true →
        pg.liveStarts.getD pos0.2 false = true) →
      ∀ pg, (ps.foldl sweepLoc acc).1.pages.get? pos0.1 = some pg →
        pg.page.isStart pos0.2 = true → pg.liveStarts.getD pos0.2 false = true := by
  induction ps with
  | nil =>
    intro acc pos0 hd
    exact hd
  | cons p rest ih =>
    intro acc pos0 hd
    rw [List.foldl_cons]
    exact ih (sweepLoc acc p) pos0 (sweepLoc_done_mono acc p pos0 hd)

theorem foldl_sweep_done (ps : List (Nat × Nat)) :
    ∀ (acc : Heap × List Ev), WfPages acc.1.pages → ∀ pos0 ∈ ps,
      ∀ pg, (ps.foldl sweepLoc acc).1.pages.get? pos0.1 = some pg →
        pg.page.isStart pos0.2 = true → pg.liveStarts.getD pos0.2 false = true := by
  induction ps with
  | nil =>
    intro acc _ pos0 h
    cases h
  | cons p rest ih =>
    intro acc hwf pos0 hmem pg hget hst
    rw [List.foldl_cons] at hget
    rcases List.mem_cons.mp hmem with rfl | hmem2
    · exact foldl_sweep_done_mono rest (sweepLoc acc pos0) pos0
        (sweepLoc_done_self acc pos0 hwf) pg hget hst
    · exact ih (sweepLoc acc p) (wfPages_sweepLoc acc p hwf) pos0 hmem2 pg hget hst

theorem phase4_post1 (h3 : Heap) (hwf : WfPages h3.pages) :
    ∀ pi pg i, (phase4 h3).1.pages.get? pi = some pg → pg.page.isStart i = true →
      pg.liveStarts.getD i false = true := by
  intro pi pg i hget hst
  have hs := shapesOf_phase4 h3
  cases hB : h3.pages.get? pi with
  | none =>
    exfalso
    have hlen := shapesOf_len _ _ hs
    obtain ⟨hlt, -⟩ := List.get?_eq_some.mp hget
    rw [List.get?_eq_none] at hB
    omega
  | some pg3 =>
    have hlen : pg.page.locs.length = pg3.page.locs.length :=
      (shapesOf_get _ _ hs pi pg pg3 hget hB).2.2
    have hi : i < pg3.page.locs.length := by
      rw [← hlen]
      exact isStart_lt_length pg.page i hst
    have hmem := mem_sweepPositions h3.pages pi i pg3 hB hi
    unfold phase4 at hget
    exact foldl_sweep_done (sweepPositions h3.pages) (h3, []) hwf (pi, i) hmem pg hget hst

theorem phase3_get_bwd (h2 : Heap) (pi : Nat) (pg3 : DHPage)
    (hg : (phase3 h2).1.pages.get? pi = some pg3) :
    ∃ pg, h2.pages.get? pi = some pg ∧
      pg3 = { pg with dptrs := pg.dptrs.map (fun dp =>
        if dp.level = 0 then { dp with raw := 0 } else dp) } := by
  unfold phase3 at hg
  dsimp only at hg
  rw [List.get?_map] at hg
  cases hA : h2.pages.get? pi with
  | none =>
    rw [hA] at hg
    cases hg
  | some pg =>
    rw [hA] at hg
    simp only [Option.map_some', Option.some.injEq] at hg
    exact ⟨pg, rfl, hg.symm⟩

theorem phase3_getRec (h2 : Heap) (pos : Nat × Nat) (dp : NonRoot)
    (hg : getRec h2.pages pos = some dp) :
    getRec (phase3 h2).1.pages pos =
      some (if dp.level = 0 then { dp with raw := 0 } else dp) := by
  cases hA : h2.pages.get? pos.1 with
  | none =>
    unfold getRec at hg
    rw [hA] at hg
    exact Option.noConfusion hg
  | some pg =>
    unfold getRec at hg
    rw [hA] at hg
    dsimp only at hg
    unfold getRec phase3
    dsimp only
    rw [List.get?_map, hA, Option.map_some']
    show (pg.dptrs.map (fun dp =>
      if dp.level = 0 then { dp with raw := 0 } else dp)).get? pos.2 = _
    rw [List.get?_map, hg]
    rfl

theorem ranked_phase3 (h2 : Heap) (roots : List RootPtr) (hr : Ranked h2.pages roots) :
    Ranked (phase3 h2).1.pages roots := by
  obtain ⟨hRR, hRS, hSL⟩ := hr
  have hgp : gpagesOf h2.pages = gpagesOf (phase3 h2).1.pages := (gpagesOf_phase3 h2).symm
  refine ⟨?_, ?_, ?_⟩
  · intro pi pg3 hpg3 dp3 hdp3 hlv
    obtain ⟨pg, hpg, rfl⟩ := phase3_get_bwd h2 pi pg3 hpg3
    dsimp only at hdp3 ⊢
    rw [List.mem_map] at hdp3
    obtain ⟨dp, hdp, hdpeq⟩ := hdp3
    by_cases hz : dp.level = 0
    · rw [if_pos hz] at hdpeq
      rw [← hdpeq] at hlv
      dsimp only at hlv
      rw [hz] at hlv
      exact absurd hlv (lt_irrefl 0)
    · rw [if_neg hz] at hdpeq
      subst hdpeq
      obtain ⟨q, hq, hmg, hrm⟩ := hRR pi pg hpg dp hdp hlv
      refine ⟨q, hq, marksGo_congr _ _ hgp q pi _ hmg, ?_⟩
      rcases hrm with ⟨h1, r, hrr, hraw⟩ | ⟨h2L, posj, dpj, hgj, hlvj, hraw⟩
      · exact Or.inl ⟨h1, r, hrr, hraw⟩
      · refine Or.inr ⟨h2L, posj, dpj, ?_, hlvj, hraw⟩
        rw [phase3_getRec h2 posj dpj hgj, if_neg (by omega)]
  · intro pi pg3 i hpg3 hst hbit
    obtain ⟨pg, hpg, rfl⟩ := phase3_get_bwd h2 pi pg3 hpg3
    have hst0 : pg.page.isStart i = true := hst
    have hbit0 : pg.liveStarts.getD i false = true := hbit
    obtain ⟨q, hq, hmg, hbm⟩ := hRS pi pg i hpg hst0 hbit0
    refine ⟨q, hq, marksGo_congr _ _ hgp q pi i hmg, ?_⟩
    rcases hbm with ⟨r, hrr, hraw⟩ | ⟨posj, dpj, hgj, hlvj, hraw⟩
    · exact Or.inl ⟨r, hrr, hraw⟩
    · refine Or.inr ⟨posj, dpj, ?_, hlvj, hraw⟩
      rw [phase3_getRec h2 posj dpj hgj, if_neg (by omega)]
  · intro pi pg3 hpg3 dp3 hdp3 hlv
    obtain ⟨pg, hpg, rfl⟩ := phase3_get_bwd h2 pi pg3 hpg3
    dsimp only at hdp3 ⊢
    rw [List.mem_map] at hdp3
    obtain ⟨dp, hdp, hdpeq⟩ := hdp3
    by_cases hz : dp.level = 0
    · rw [if_pos hz] at hdpeq
      rw [← hdpeq] at hlv
      dsimp only at hlv
      rw [hz] at hlv
      exact absurd hlv (lt_irrefl 0)
    · rw [if_neg hz] at hdpeq
      subst hdpeq
      exact hSL pi pg hpg dp hdp hlv

theorem containsInfo_start_loc (g : GPage) (x : Nat)
    (h : (g.containsInfo x).found = .inRangeAllocatedStart) :
    (g.containsInfo x).startLocation = g.locIndex x ∧
    g.locs.getD (g.locIndex x) .free = .strt := by
  cases hc : g.contains x with
  | false =>
    exfalso
    rw [(containsInfo_notInRange_iff g x).mpr hc] at h
    cases h
  | true =>
    rw [containsInfo_expand g x hc] at h ⊢
    cases hgl : g.locs.getD (g.locIndex x) .free
    · rw [hgl] at h
      cases h
    · exact ⟨rfl, rfl⟩
    · rw [hgl] at h
      cases h

theorem locIndex_ge (g : GPage) (x i : Nat) (hm : 0 < g.minAlloc)
    (hge : g.locPtr i ≤ x) : i ≤ g.locIndex x := by
  unfold GPage.locPtr at hge
  unfold GPage.locIndex
  rw [Nat.le_div_iff_mul_le hm]
  have hcomm : g.minAlloc * i = i * g.minAlloc := Nat.mul_comm _ _
  omega

theorem locIndex_lt_of (g : GPage) (x e : Nat) (hm : 0 < g.minAlloc)
    (hbase : g.base ≤ x) (hlt : x < g.locPtr e) : g.locIndex x < e := by
  unfold GPage.locPtr at hlt
  unfold GPage.locIndex
  rw [Nat.div_lt_iff_lt_mul hm]
  have hcomm : e * g.minAlloc = g.minAlloc * e := Nat.mul_comm _ _
  omega

theorem dp_run_bounds (g : GPage) (x : Nat) (hm : 0 < g.minAlloc)
    (hc : g.contains x = true) :
    g.locPtr (g.locIndex x) ≤ x ∧ x < g.locPtr (g.locIndex x + 1) := by
  unfold GPage.contains at hc
  rw [decide_eq_true_eq] at hc
  unfold GPage.locPtr GPage.locIndex
  have h1 := Nat.div_add_mod (x - g.base) g.minAlloc
  have h2 := Nat.mod_lt (x - g.base) hm
  have h3 : g.minAlloc * ((x - g.base) / g.minAlloc + 1) =
      g.minAlloc * ((x - g.base) / g.minAlloc) + g.minAlloc := Nat.mul_succ _ _
  omega

theorem start_in_run_eq (g : GPage) (i x : Nat) (hm : 0 < g.minAlloc)
    (hi : i < g.locs.length) (hge : g.locPtr i ≤ x) (hlt : x < findEndPtr g i)
    (hstrt : g.locs.getD (g.locIndex x) .free = .strt) : g.locIndex x = i := by
  obtain ⟨e, hE, he1, he2, hno⟩ := findEndPtr_spec g i hi
  rw [hE] at hlt
  have h1 : i ≤ g.locIndex x := locIndex_ge g x i hm hge
  have hbase : g.base ≤ x := by
    unfold GPage.locPtr at hge
    omega
  have h2 : g.locIndex x < e := locIndex_lt_of g x e hm hbase hlt
  by_contra hne
  have h3 : i < g.locIndex x := by omega
  have h4 := hno (g.locIndex x) h3 h2
  unfold GPage.isStart at h4
  exact absurd hstrt (of_decide_eq_false h4)

theorem dtorWithinGo_intro (pgs : List DHPage) (d : Destructor) :
    ∀ (pi : Nat) (pg : DHPage), pgs.get? pi = some pg →
      (∀ pj pgj, pj < pi → pgs.get? pj = some pgj → pgj.page.contains d.p = false) →
      (pg.page.containsInfo d.p).found = .inRangeAllocatedStart →
      (∀ k ∈ List.range (d.size * d.n),
        (pg.page.containsInfo (d.p + k)).found ≠ .notInRange ∧
        (pg.page.containsInfo (d.p + k)).startLocation =
          (pg.page.containsInfo d.p).startLocation) →
      dtorWithinGo pgs d := by
  induction pgs with
  | nil =>
    intro pi pg h
    cases pi <;> cases h
  | cons hd rest ih =>
    intro pi pg hpg hbefore hstart hrange
    unfold dtorWithinGo
    cases pi with
    | zero =>
      injection hpg with hpg
      subst hpg
      rw [if_pos (by rw [hstart]; exact fun hcc => Found.noConfusion hcc)]
      exact ⟨hstart, hrange⟩
    | succ pi =>
      have hc0 : hd.page.contains d.p = false := hbefore 0 hd (Nat.succ_pos pi) rfl
      rw [if_neg (not_not_intro ((containsInfo_notInRange_iff hd.page d.p).mpr hc0))]
      exact ih pi pg hpg (fun pj pgj hlt hget => hbefore (pj + 1) pgj (by omega) hget)
        hstart hrange

theorem inDtorRanges_of_mem (td : List Destructor) (d : Destructor) (hd : d ∈ td)
    (a : Nat) (h1 : d.p ≤ a) (h2 : a < d.p + d.size * d.n) :
    inDtorRanges td a = true := by
  unfold inDtorRanges
  rw [List.any_eq_true]
  exact ⟨d, hd, decide_eq_true ⟨h1, h2⟩⟩

theorem mem_of_inDtorRanges (td : List Destructor) (a : Nat)
    (h : inDtorRanges td a = true) :
    ∃ d ∈ td, d.p ≤ a ∧ a < d.p + d.size * d.n := by
  unfold inDtorRanges at h
  rw [List.any_eq_true] at h
  obtain ⟨d, hd, hdec⟩ := h
  exact ⟨d, hd, of_decide_eq_true hdec⟩

theorem dtor_cover_core (pgs : List DHPage) (hdisj : pagesDisjoint pgs)
    (d : Destructor) (hdw : dtorWithinGo pgs d)
    (a : Nat) (ha1 : d.p ≤ a) (ha2 : a < d.p + d.size * d.n)
    (pj : Nat) (pgj : DHPage) (hpgj : pgs.get? pj = some pgj)
    (hcont : pgj.page.contains a = true) :
    pgj.page.contains d.p = true ∧
    (pgj.page.containsInfo d.p).found = .inRangeAllocatedStart ∧
    (pgj.page.containsInfo a).startLocation =
      (pgj.page.containsInfo d.p).startLocation ∧
    (pgj.page.containsInfo a).found ≠ .notInRange := by
  obtain ⟨pi0, pg0, hpg0, hbefore, hstart0, hrange0⟩ := dtorWithinGo_elim pgs d hdw
  have hk : a - d.p ∈ List.range (d.size * d.n) := List.mem_range.mpr (by omega)
  obtain ⟨hne0, hsl0⟩ := hrange0 (a - d.p) hk
  have hae : d.p + (a - d.p) = a := by omega
  rw [hae] at hne0 hsl0
  have hcont0 : pg0.page.contains a = true := by
    by_contra hc
    exact hne0 ((containsInfo_notInRange_iff pg0.page a).mpr
      (Bool.not_eq_true _ ▸ (fun h => hc h : ¬ pg0.page.contains a = true)))
  have heq : pi0 = pj := contains_unique pgs hdisj pi0 pj pg0 pgj hpg0 hpgj a hcont0 hcont
  subst heq
  rw [hpg0] at hpgj
  injection hpgj with hE
  subst hE
  have hcontp : pg0.page.contains d.p = true := by
    by_contra hc
    have hnr := (containsInfo_notInRange_iff pg0.page d.p).mpr
      (Bool.not_eq_true _ ▸ (fun h => hc h : ¬ pg0.page.contains d.p = true))
    rw [hnr] at hstart0
    cases hstart0
  exact ⟨hcontp, hstart0, hsl0, hne0⟩

theorem locPtr_mono (g : GPage) (i j : Nat) (hij : i ≤ j) :
    g.locPtr i ≤ g.locPtr j := by
  unfold GPage.locPtr
  exact Nat.add_le_add_left (Nat.mul_le_mul_left _ hij) _

theorem extracted_start_loc (pgs : List DHPage) (hwf : WfPages pgs)
    (hdisj : pagesDisjoint pgs) (ds : List Destructor) (hdw : DtorsWithin pgs ds)
    (p1 : Nat) (pg : DHPage) (hpg : pgs.get? p1 = some pg)
    (i : Nat) (hstart : pg.page.isStart i = true)
    (d : Destructor)
    (hd : d ∈ (runSplit ds (pg.page.locPtr i) (findEndPtr pg.page i)).2)
    (a : Nat) (ha1 : d.p ≤ a) (ha2 : a < d.p + d.size * d.n)
    (pj : Nat) (pgj : DHPage) (hpgj : pgs.get? pj = some pgj)
    (hcont : pgj.page.contains a = true) :
    pj = p1 ∧ (pgj.page.containsInfo a).startLocation = i := by
  rw [runSplit_snd] at hd
  obtain ⟨hdm, hdr⟩ := List.mem_filter.mp hd
  unfold dtorInRange at hdr
  have hdr2 := of_decide_eq_true hdr
  obtain ⟨hcontp, hfoundp, hsl, hne⟩ :=
    dtor_cover_core pgs hdisj d (hdw d hdm) a ha1 ha2 pj pgj hpgj hcont
  have hm : 0 < pg.page.minAlloc := (hwf pg (List.get?_mem hpg)).1
  have hilen : i < pg.page.locs.length := isStart_lt_length pg.page i hstart
  obtain ⟨e, hE, he1, he2, hno⟩ := findEndPtr_spec pg.page i hilen
  have hcontp1 : pg.page.contains d.p = true := by
    unfold GPage.contains GPage.totalSize
    rw [decide_eq_true_eq]
    have hb1 : pg.page.locPtr i ≤ d.p := hdr2.1
    have hb2 : d.p < pg.page.locPtr e := by rw [← hE]; exact hdr2.2
    have hb3 : pg.page.locPtr e ≤ pg.page.locPtr pg.page.locs.length :=
      locPtr_mono pg.page e pg.page.locs.length he2
    unfold GPage.locPtr at hb1 hb2 hb3
    omega
  have hpj1 : pj = p1 :=
    contains_unique pgs hdisj pj p1 pgj pg hpgj hpg d.p hcontp hcontp1
  subst hpj1
  rw [hpg] at hpgj
  injection hpgj with hEq
  subst hEq
  obtain ⟨hslp, hstrtp⟩ := containsInfo_start_loc pg.page d.p hfoundp
  have hidx : pg.page.locIndex d.p = i :=
    start_in_run_eq pg.page i d.p hm hilen hdr2.1 hdr2.2 hstrtp
  refine ⟨rfl, ?_⟩
  rw [hsl, hslp, hidx]

theorem covering_extracted (pgs : List DHPage) (hwf : WfPages pgs)
    (hdisj : pagesDisjoint pgs) (ds : List Destructor) (hdw : DtorsWithin pgs ds)
    (p1 : Nat) (pg : DHPage) (hpg : pgs.get? p1 = some pg)
    (i : Nat) (hstart : pg.page.isStart i = true)
    (d : Destructor) (hdm : d ∈ ds)
    (a : Nat) (ha1 : d.p ≤ a) (ha2 : a < d.p + d.size * d.n)
    (hcont : pg.page.contains a = true)
    (hsl : (pg.page.containsInfo a).startLocation = i) :
    d ∈ (runSplit ds (pg.page.locPtr i) (findEndPtr pg.page i)).2 := by
  obtain ⟨hcontp, hfoundp, hsl2, hne⟩ :=
    dtor_cover_core pgs hdisj d (hdw d hdm) a ha1 ha2 p1 pg hpg hcont
  obtain ⟨hslp, hstrtp⟩ := containsInfo_start_loc pg.page d.p hfoundp
  have hm : 0 < pg.page.minAlloc := (hwf pg (List.get?_mem hpg)).1
  have hidx : pg.page.locIndex d.p = i := by
    rw [← hslp, ← hsl2, hsl]
  obtain ⟨hb1, hb2⟩ := dp_run_bounds pg.page d.p hm hcontp
  rw [hidx] at hb1 hb2
  have hilen : i < pg.page.locs.length := isStart_lt_length pg.page i hstart
  obtain ⟨e, hE, he1, he2, hno⟩ := findEndPtr_spec pg.page i hilen
  have hb3 : d.p < findEndPtr pg.page i := by
    rw [hE]
    exact lt_of_lt_of_le hb2 (locPtr_mono pg.page (i + 1) e he1)
  rw [runSplit_snd]
  exact List.mem_filter.mpr ⟨hdm, decide_eq_true ⟨hb1, hb3⟩⟩

theorem contains_true_of_found (g : GPage) (x : Nat)
    (h : (g.containsInfo x).found ≠ .notInRange) : g.contains x = true := by
  cases hc : g.contains x with
  | true => rfl
  | false => exact absurd ((containsInfo_notInRange_iff g x).mpr hc) h

theorem sweepLoc_cases (acc : Heap × List Ev) (pos : Nat × Nat) :
    (sweepLoc acc pos).1 = acc.1 ∨
    ∃ pg, acc.1.pages.get? pos.1 = some pg ∧
      pg.page.isStart pos.2 = true ∧ pg.liveStarts.getD pos.2 false = false ∧
      (sweepLoc acc pos).1 =
      { acc.1 with
        pages := updatePage (removeRecs acc.1.pages
            (runSplit acc.1.dtors (pg.page.locPtr pos.2) (findEndPtr pg.page pos.2)).2)
          pos.1 (fun q => { q with page := q.page.deallocate (pg.page.locPtr pos.2) }),
        dtors := (runSplit acc.1.dtors (pg.page.locPtr pos.2)
          (findEndPtr pg.page pos.2)).1 } := by
  unfold sweepLoc
  dsimp only
  cases hg : acc.1.pages.get? pos.1 with
  | none => exact Or.inl rfl
  | some pg =>
    dsimp only
    split
    · rename_i hcond
      exact Or.inr ⟨pg, rfl, hcond.1, hcond.2, rfl⟩
    · exact Or.inl rfl

theorem recAlloc_contains (pgs : List DHPage) (hra : RecAlloc pgs) (pgj : DHPage)
    (h1 : pgj ∈ pgs) (dp : NonRoot) (h2 : dp ∈ pgj.dptrs) :
    pgj.page.contains dp.addr = true := by
  rcases hra pgj h1 dp h2 with hf | hf <;>
    exact contains_true_of_found _ _ (by rw [hf]; exact fun c => Found.noConfusion c)

theorem sweep_keeprec (S : Heap) (pos : Nat × Nat) (pg : DHPage)
    (hg : S.pages.get? pos.1 = some pg)
    (hstart : pg.page.isStart pos.2 = true)
    (hbitf : pg.liveStarts.getD pos.2 false = false)
    (hwf : WfPages S.pages) (hdisj : pagesDisjoint S.pages) (hra : RecAlloc S.pages)
    (hsl : SelfLive S.pages) (hdw : DtorsWithin S.pages S.dtors) :
    ∀ pj pgj, S.pages.get? pj = some pgj → ∀ dp ∈ pgj.dptrs, 0 < dp.level →
      inDtorRanges (runSplit S.dtors (pg.page.locPtr pos.2)
        (findEndPtr pg.page pos.2)).2 dp.addr = false := by
  intro pj pgj hpgj dp hdp hlv
  cases hio : inDtorRanges (runSplit S.dtors (pg.page.locPtr pos.2)
      (findEndPtr pg.page pos.2)).2 dp.addr with
  | false => rfl
  | true =>
    exfalso
    obtain ⟨d, hdm, hc1, hc2⟩ := mem_of_inDtorRanges _ dp.addr hio
    have hcont : pgj.page.contains dp.addr = true :=
      recAlloc_contains S.pages hra pgj (List.get?_mem hpgj) dp hdp
    obtain ⟨hpj1, hsla⟩ := extracted_start_loc S.pages hwf hdisj S.dtors hdw
      pos.1 pg hg pos.2 hstart d hdm dp.addr hc1 hc2 pj pgj hpgj hcont
    subst hpj1
    rw [hg] at hpgj
    injection hpgj with hE
    subst hE
    have hbt := hsl pos.1 pg hg dp hdp hlv
    rw [hsla] at hbt
    rw [hbt] at hbitf
    cases hbitf

theorem sweep_survloc (S : Heap) (pos : Nat × Nat) (pg : DHPage)
    (hg : S.pages.get? pos.1 = some pg)
    (hstart : pg.page.isStart pos.2 = true)
    (hwf : WfPages S.pages) (hdisj : pagesDisjoint S.pages) (hra : RecAlloc S.pages)
    (hdw : DtorsWithin S.pages S.dtors) (hrc : RecCovered S.pages S.dtors) :
    ∀ dp ∈ pg.dptrs,
      inDtorRanges (runSplit S.dtors (pg.page.locPtr pos.2)
        (findEndPtr pg.page pos.2)).2 dp.addr = false →
      (pg.page.containsInfo dp.addr).startLocation ≠ pos.2 := by
  intro dp hdp hnr hsl2
  obtain ⟨d, hdm, hc1, hc2⟩ := hrc pg (List.get?_mem hg) dp hdp
  have hcont : pg.page.contains dp.addr = true :=
    recAlloc_contains S.pages hra pg (List.get?_mem hg) dp hdp
  have hext := covering_extracted S.pages hwf hdisj S.dtors hdw pos.1 pg hg pos.2
    hstart d hdm dp.addr hc1 hc2 hcont hsl2
  have hin := inDtorRanges_of_mem _ d hext dp.addr hc1 hc2
  rw [hin] at hnr
  cases hnr

theorem sweep_contains_keep (S : Heap) (pos : Nat × Nat) (pg : DHPage)
    (hg : S.pages.get? pos.1 = some pg)
    (td : List Destructor) :
    ∀ pj pgj2, (updatePage (removeRecs S.pages td) pos.1
        (fun q => { q with page := q.page.deallocate (pg.page.locPtr pos.2) })).get? pj =
        some pgj2 →
      ∃ pgj, S.pages.get? pj = some pgj ∧
        (∀ x, pgj2.page.contains x = pgj.page.contains x) ∧
        pgj2.liveStarts = pgj.liveStarts ∧
        pgj2.dptrs = pgj.dptrs.filter (fun dp => !inDtorRanges td dp.addr) ∧
        (pj ≠ pos.1 → pgj2.page = pgj.page) ∧
        (pj = pos.1 →
          pgj2.page = pg.page.deallocate (pg.page.locPtr pos.2) ∧ pgj = pg) := by
  intro pj pgj2 hpj
  rw [updatePage_get, removeRecs_get] at hpj
  by_cases hpip : pj = pos.1
  · rw [if_pos hpip] at hpj
    subst hpip
    rw [hg] at hpj
    simp only [Option.map_some', Option.some.injEq] at hpj
    subst hpj
    refine ⟨pg, hg, ?_, rfl, rfl, fun hne => absurd rfl hne, fun _ => ⟨rfl, rfl⟩⟩
    intro x
    show (pg.page.deallocate (pg.page.locPtr pos.2)).contains x = pg.page.contains x
    exact contains_of_shape (pg.page.deallocate (pg.page.locPtr pos.2)) pg.page
      rfl rfl (freeRun_length _ _) x
  · rw [if_neg hpip] at hpj
    cases hB : S.pages.get? pj with
    | none =>
      rw [hB] at hpj
      cases hpj
    | some pgS =>
      rw [hB] at hpj
      simp only [Option.map_some', Option.some.injEq] at hpj
      subst hpj
      exact ⟨pgS, rfl, fun x => rfl, rfl, rfl, fun _ => rfl, fun heq => absurd heq hpip⟩

theorem sweep_fwd_get (S : Heap) (pos : Nat × Nat) (pg : DHPage)
    (hg : S.pages.get? pos.1 = some pg) (td : List Destructor)
    (pj : Nat) (pgj : DHPage) (hpj : S.pages.get? pj = some pgj) :
    (updatePage (removeRecs S.pages td) pos.1
        (fun q => { q with page := q.page.deallocate (pg.page.locPtr pos.2) })).get? pj =
      some (if pj = pos.1 then
        { pgj with
          page := pgj.page.deallocate (pg.page.locPtr pos.2),
          dptrs := pgj.dptrs.filter (fun dp => !inDtorRanges td dp.addr) }
      else { pgj with dptrs := pgj.dptrs.filter (fun dp => !inDtorRanges td dp.addr) }) := by
  rw [updatePage_get, removeRecs_get, hpj]
  by_cases hpip : pj = pos.1
  · rw [if_pos hpip, if_pos hpip]
    rfl
  · rw [if_neg hpip, if_neg hpip]
    rfl

theorem sweep_core_swinv (S : Heap) (pos : Nat × Nat) (pg : DHPage)
    (hg : S.pages.get? pos.1 = some pg)
    (hstart : pg.page.isStart pos.2 = true)
    (hbitf : pg.liveStarts.getD pos.2 false = false)
    (hinv : SweepInv S) :
    SweepInv
      { S with
        pages := updatePage (removeRecs S.pages
            (runSplit S.dtors (pg.page.locPtr pos.2) (findEndPtr pg.page pos.2)).2)
          pos.1 (fun q => { q with page := q.page.deallocate (pg.page.locPtr pos.2) }),
        dtors := (runSplit S.dtors (pg.page.locPtr pos.2)
          (findEndPtr pg.page pos.2)).1 } := by
  obtain ⟨hwf, hdisj, hra, hsl, hdw, hrc⟩ := hinv
  have hm : 0 < pg.page.minAlloc := (hwf pg (List.get?_mem hg)).1
  have hkr := sweep_keeprec S pos pg hg hstart hbitf hwf hdisj hra hsl hdw
  have hsv := sweep_survloc S pos pg hg hstart hwf hdisj hra hdw hrc
  have hck := sweep_contains_keep S pos pg hg
    (runSplit S.dtors (pg.page.locPtr pos.2) (findEndPtr pg.page pos.2)).2
  refine ⟨?_, ?_, ?_, ?_, ?_, ?_⟩
  · show WfPages (updatePage (removeRecs S.pages _) pos.1 _)
    intro q hq
    rcases mem_updatePage _ _ _ q hq with hin | ⟨pg1, hpg1, heq2⟩
    · exact wfPages_removeRecs _ _ hwf q hin
    · rw [heq2]
      exact wfPage_dealloc pg1 _ (wfPages_removeRecs _ _ hwf pg1 hpg1)
  · have hf : ∀ q : DHPage,
        ({ q with page := q.page.deallocate (pg.page.locPtr pos.2) } : DHPage).page.base
          = q.page.base ∧
        ({ q with page := q.page.deallocate (pg.page.locPtr pos.2) } : DHPage).page.minAlloc
          = q.page.minAlloc ∧
        ({ q with page := q.page.deallocate (pg.page.locPtr pos.2) } : DHPage).page.locs.length
          = q.page.locs.length :=
      fun q => ⟨rfl, rfl, freeRun_length q.page.locs _⟩
    have hsh : shapesOf (updatePage (removeRecs S.pages
        (runSplit S.dtors (pg.page.locPtr pos.2) (findEndPtr pg.page pos.2)).2) pos.1
        (fun q => { q with page := q.page.deallocate (pg.page.locPtr pos.2) }))
        = shapesOf S.pages := by
      rw [shapesOf_updatePage _ pos.1 _ hf, shapesOf_removeRecs]
    exact pagesDisjoint_of_shapes S.pages _ hsh.symm hdisj
  · intro pg2 hpg2 dp hdp
    obtain ⟨pi, hpi⟩ := List.get?_of_mem hpg2
    obtain ⟨pgj, hpgj, hcx, hbits, hdps, hne, hat⟩ := hck pi pg2 hpi
    rw [hdps] at hdp
    obtain ⟨hdpm, hflag⟩ := List.mem_filter.mp hdp
    have hnr : inDtorRanges (runSplit S.dtors (pg.page.locPtr pos.2)
        (findEndPtr pg.page pos.2)).2 dp.addr = false := by
      cases hio : inDtorRanges (runSplit S.dtors (pg.page.locPtr pos.2)
          (findEndPtr pg.page pos.2)).2 dp.addr
      · rfl
      · rw [hio] at hflag
        cases hflag
    by_cases hpip : pi = pos.1
    · obtain ⟨hpage2, hpgeq⟩ := hat hpip
      rw [hpgeq] at hdpm
      have hnloc : (pg.page.containsInfo dp.addr).startLocation ≠ pos.2 :=
        hsv dp hdpm hnr
      have hkeep := dealloc_containsInfo_keep_ne pg.page pos.2 dp.addr hm hstart
        (hra pg (List.get?_mem hg) dp hdpm) hnloc
      rw [hpage2, hkeep]
      exact hra pg (List.get?_mem hg) dp hdpm
    · rw [hne hpip]
      exact hra pgj (List.get?_mem hpgj) dp hdpm
  · intro pi pg2 hpi dp hdp hlv
    obtain ⟨pgj, hpgj, hcx, hbits, hdps, hne, hat⟩ := hck pi pg2 hpi
    rw [hdps] at hdp
    obtain ⟨hdpm, hflag⟩ := List.mem_filter.mp hdp
    have hnr : inDtorRanges (runSplit S.dtors (pg.page.locPtr pos.2)
        (findEndPtr pg.page pos.2)).2 dp.addr = false := by
      cases hio : inDtorRanges (runSplit S.dtors (pg.page.locPtr pos.2)
          (findEndPtr pg.page pos.2)).2 dp.addr
      · rfl
      · rw [hio] at hflag
        cases hflag
    rw [hbits]
    by_cases hpip : pi = pos.1
    · obtain ⟨hpage2, hpgeq⟩ := hat hpip
      rw [hpgeq] at hdpm
      have hnloc : (pg.page.containsInfo dp.addr).startLocation ≠ pos.2 :=
        hsv dp hdpm hnr
      have hkeep := dealloc_containsInfo_keep_ne pg.page pos.2 dp.addr hm hstart
        (hra pg (List.get?_mem hg) dp hdpm) hnloc
      rw [hpage2, hkeep, hpgeq]
      exact hsl pos.1 pg hg dp hdpm hlv
    · rw [hne hpip]
      exact hsl pi pgj hpgj dp hdpm hlv
  · intro d hdk
    rw [runSplit_fst] at hdk
    obtain ⟨hdm, hflag⟩ := List.mem_filter.mp hdk
    have hflag2 : dtorInRange (pg.page.locPtr pos.2) (findEndPtr pg.page pos.2) d
        = false := by
      cases hio : dtorInRange (pg.page.locPtr pos.2) (findEndPtr pg.page pos.2) d
      · rfl
      · rw [hio] at hflag
        cases hflag
    obtain ⟨pi0, pg0, hpg0, hbefore, hstart0, hrange0⟩ :=
      dtorWithinGo_elim S.pages d (hdw d hdm)
    have hfwd0 := sweep_fwd_get S pos pg hg
      (runSplit S.dtors (pg.page.locPtr pos.2) (findEndPtr pg.page pos.2)).2 pi0 pg0 hpg0
    have hbefore2 : ∀ pj pgj2, pj < pi0 →
        (updatePage (removeRecs S.pages (runSplit S.dtors (pg.page.locPtr pos.2)
          (findEndPtr pg.page pos.2)).2) pos.1
          (fun q => { q with page :=
            q.page.deallocate (pg.page.locPtr pos.2) })).get? pj = some pgj2 →
        pgj2.page.contains d.p = false := by
      intro pj pgj2 hlt hpj2
      obtain ⟨pgj, hpgj, hcx, -, -, -, -⟩ := hck pj pgj2 hpj2
      rw [hcx d.p]
      exact hbefore pj pgj hlt hpgj
    by_cases hpip : pi0 = pos.1
    · subst hpip
      rw [hg] at hpg0
      injection hpg0 with hE
      subst hE
      obtain ⟨hslp, hstrtp⟩ := containsInfo_start_loc pg.page d.p hstart0
      have hcontp : pg.page.contains d.p = true := contains_true_of_found _ _
        (by rw [hstart0]; exact fun c => Found.noConfusion c)
      have hidxne : pg.page.locIndex d.p ≠ pos.2 := by
        intro hidx
        obtain ⟨hb1, hb2⟩ := dp_run_bounds pg.page d.p
          ((hwf pg (List.get?_mem hg)).1) hcontp
        rw [hidx] at hb1 hb2
        have hilen : pos.2 < pg.page.locs.length :=
          isStart_lt_length pg.page pos.2 hstart
        obtain ⟨e, hE2, he1, he2, hno⟩ := findEndPtr_spec pg.page pos.2 hilen
        have hb3 : d.p < findEndPtr pg.page pos.2 := by
          rw [hE2]
          exact lt_of_lt_of_le hb2 (locPtr_mono pg.page (pos.2 + 1) e he1)
        have htr : dtorInRange (pg.page.locPtr pos.2)
            (findEndPtr pg.page pos.2) d = true := decide_eq_true ⟨hb1, hb3⟩
        rw [htr] at hflag2
        cases hflag2
      have hcip : (pg.page.deallocate (pg.page.locPtr pos.2)).containsInfo d.p =
          pg.page.containsInfo d.p :=
        dealloc_containsInfo_keep_ne pg.page pos.2 d.p
          ((hwf pg (List.get?_mem hg)).1) hstart (Or.inl hstart0)
          (by rw [hslp]; exact hidxne)
      have hciK : ∀ k ∈ List.range (d.size * d.n),
          (pg.page.deallocate (pg.page.locPtr pos.2)).containsInfo (d.p + k) =
            pg.page.containsInfo (d.p + k) := by
        intro k hk
        obtain ⟨hneK, hslK⟩ := hrange0 k hk
        cases hfk : (pg.page.containsInfo (d.p + k)).found with
        | notInRange => exact absurd hfk hneK
        | inRangeUnallocated => exact dealloc_containsInfo_unalloc pg.page _ _ hfk
        | inRangeAllocatedStart =>
          exact dealloc_containsInfo_keep_ne pg.page pos.2 (d.p + k)
            ((hwf pg (List.get?_mem hg)).1) hstart (Or.inl hfk)
            (by rw [hslK, hslp]; exact hidxne)
        | inRangeAllocatedMiddle =>
          exact dealloc_containsInfo_keep_ne pg.page pos.2 (d.p + k)
            ((hwf pg (List.get?_mem hg)).1) hstart (Or.inr hfk)
            (by rw [hslK, hslp]; exact hidxne)
      apply dtorWithinGo_intro _ d pos.1
        ({ pg with
            page := pg.page.deallocate (pg.page.locPtr pos.2),
            dptrs := pg.dptrs.filter (fun dp => !inDtorRanges
              (runSplit S.dtors (pg.page.locPtr pos.2)
                (findEndPtr pg.page pos.2)).2 dp.addr) })
        (by rw [hfwd0, if_pos rfl]) hbefore2
      · show ((pg.page.deallocate (pg.page.locPtr pos.2)).containsInfo d.p).found = _
        rw [hcip]
        exact hstart0
      · intro k hk
        obtain ⟨hneK, hslK⟩ := hrange0 k hk
        constructor
        · show ((pg.page.deallocate (pg.page.locPtr pos.2)).containsInfo
            (d.p + k)).found ≠ _
          rw [hciK k hk]
          exact hneK
        · show ((pg.page.deallocate (pg.page.locPtr pos.2)).containsInfo
              (d.p + k)).startLocation =
            ((pg.page.deallocate (pg.page.locPtr pos.2)).containsInfo
              d.p).startLocation
          rw [hciK k hk, hcip]
          exact hslK
    · apply dtorWithinGo_intro _ d pi0
        ({ pg0 with dptrs := pg0.dptrs.filter (fun dp => !inDtorRanges
            (runSplit S.dtors (pg.page.locPtr pos.2)
              (findEndPtr pg.page pos.2)).2 dp.addr) })
        (by rw [hfwd0, if_neg hpip]) hbefore2
      · exact hstart0
      · exact hrange0
  · intro pg2 hpg2 dp hdp
    obtain ⟨pi, hpi⟩ := List.get?_of_mem hpg2
    obtain ⟨pgj, hpgj, hcx, hbits, hdps, hne2, hat⟩ := hck pi pg2 hpi
    rw [hdps] at hdp
    obtain ⟨hdpm, hflag⟩ := List.mem_filter.mp hdp
    have hnr : inDtorRanges (runSplit S.dtors (pg.page.locPtr pos.2)
        (findEndPtr pg.page pos.2)).2 dp.addr = false := by
      cases hio : inDtorRanges (runSplit S.dtors (pg.page.locPtr pos.2)
          (findEndPtr pg.page pos.2)).2 dp.addr
      · rfl
      · rw [hio] at hflag
        cases hflag
    obtain ⟨d, hdm, hc1, hc2⟩ := hrc pgj (List.get?_mem hpgj) dp hdpm
    have hdnot : d ∉ (runSplit S.dtors (pg.page.locPtr pos.2)
        (findEndPtr pg.page pos.2)).2 := by
      intro hmem
      have := inDtorRanges_of_mem _ d hmem dp.addr hc1 hc2
      rw [this] at hnr
      cases hnr
    have hflag3 : dtorInRange (pg.page.locPtr pos.2) (findEndPtr pg.page pos.2) d
        = false := by
      cases hio : dtorInRange (pg.page.locPtr pos.2) (findEndPtr pg.page pos.2) d
      · rfl
      · exact absurd (by rw [runSplit_snd]; exact List.mem_filter.mpr ⟨hdm, hio⟩) hdnot
    refine ⟨d, ?_, hc1, hc2⟩
    show d ∈ (runSplit S.dtors (pg.page.locPtr pos.2) (findEndPtr pg.page pos.2)).1
    rw [runSplit_fst]
    exact List.mem_filter.mpr ⟨hdm, by rw [hflag3]; rfl⟩

theorem sweep_core_rel (S : Heap) (pos : Nat × Nat) (pg : DHPage)
    (hg : S.pages.get? pos.1 = some pg)
    (hstart : pg.page.isStart pos.2 = true)
    (hbitf : pg.liveStarts.getD pos.2 false = false)
    (hinv : SweepInv S) :
    SweepRel S
      { S with
        pages := updatePage (removeRecs S.pages
            (runSplit S.dtors (pg.page.locPtr pos.2) (findEndPtr pg.page pos.2)).2)
          pos.1 (fun q => { q with page := q.page.deallocate (pg.page.locPtr pos.2) }),
        dtors := (runSplit S.dtors (pg.page.locPtr pos.2)
          (findEndPtr pg.page pos.2)).1 } := by
  obtain ⟨hwf, hdisj, hra, hsl, hdw, hrc⟩ := hinv
  have hkr := sweep_keeprec S pos pg hg hstart hbitf hwf hdisj hra hsl hdw
  intro pi pg3 hpg3
  have hfwd := sweep_fwd_get S pos pg hg
    (runSplit S.dtors (pg.page.locPtr pos.2) (findEndPtr pg.page pos.2)).2 pi pg3 hpg3
  by_cases hpip : pi = pos.1
  · rw [if_pos hpip] at hfwd
    refine ⟨_, hfwd, rfl, ?_, ?_⟩
    · intro j
      show (GPage.freeRun pg3.page.locs
        (pg3.page.locIndex (pg.page.locPtr pos.2))).getD j .free = _ ∨ _
      exact freeRun_getD_or _ _ j
    · intro dp hdp hlv
      have hnr := hkr pi pg3 hpg3 dp hdp hlv
      show dp ∈ pg3.dptrs.filter _
      exact List.mem_filter.mpr ⟨hdp, by rw [hnr]; rfl⟩
  · rw [if_neg hpip] at hfwd
    refine ⟨_, hfwd, rfl, fun j => Or.inl rfl, ?_⟩
    intro dp hdp hlv
    have hnr := hkr pi pg3 hpg3 dp hdp hlv
    show dp ∈ pg3.dptrs.filter _
    exact List.mem_filter.mpr ⟨hdp, by rw [hnr]; rfl⟩

theorem sweepLoc_inv (acc : Heap × List Ev) (pos : Nat × Nat) (hinv : SweepInv acc.1) :
    SweepInv (sweepLoc acc pos).1 ∧ SweepRel acc.1 (sweepLoc acc pos).1 := by
  rcases sweepLoc_cases acc pos with heq | ⟨pg, hg, hstart, hbitf, heq⟩
  · rw [heq]
    refine ⟨hinv, ?_⟩
    exact fun _ pg3 hpg3 => ⟨pg3, hpg3, rfl, fun _ => Or.inl rfl, fun dp hdp _ => hdp⟩
  · rw [heq]
    exact ⟨sweep_core_swinv acc.1 pos pg hg hstart hbitf hinv,
      sweep_core_rel acc.1 pos pg hg hstart hbitf hinv⟩

theorem sweepRel_refl (S : Heap) : SweepRel S S :=
  fun _ pg3 hpg3 => ⟨pg3, hpg3, rfl, fun _ => Or.inl rfl, fun dp hdp _ => hdp⟩

theorem sweepRel_trans {A B C : Heap} (h1 : SweepRel A B) (h2 : SweepRel B C) :
    SweepRel A C := by
  intro pi pg3 hpg3
  obtain ⟨pgB, hB, hb1, hb2, hb3⟩ := h1 pi pg3 hpg3
  obtain ⟨pgC, hC, hc1, hc2, hc3⟩ := h2 pi pgB hB
  refine ⟨pgC, hC, hc1.trans hb1, ?_, fun dp hdp hlv => hc3 dp (hb3 dp hdp hlv) hlv⟩
  intro j
  rcases hc2 j with h | h
  · rw [h]
    exact hb2 j
  · exact Or.inr h

theorem foldl_sweep_inv2 (ps : List (Nat × Nat)) :
    ∀ acc : Heap × List Ev, SweepInv acc.1 →
      SweepInv ((ps.foldl sweepLoc acc)).1 ∧
      SweepRel acc.1 ((ps.foldl sweepLoc acc)).1 := by
  induction ps with
  | nil =>
    intro acc h
    exact ⟨h, sweepRel_refl acc.1⟩
  | cons p rest ih =>
    intro acc h
    rw [List.foldl_cons]
    obtain ⟨h1, h2⟩ := sweepLoc_inv acc p h
    obtain ⟨h3, h4⟩ := ih (sweepLoc acc p) h1
    exact ⟨h3, sweepRel_trans h2 h4⟩

theorem phase4_swinv (h3 : Heap) (hinv : SweepInv h3) :
    SweepInv (phase4 h3).1 ∧ SweepRel h3 (phase4 h3).1 := by
  unfold phase4
  exact foldl_sweep_inv2 (sweepPositions h3.pages) (h3, []) hinv

theorem ranked_phase4 (h3 : Heap) (roots : List RootPtr)
    (hinv : SweepInv h3) (hr : Ranked h3.pages roots) :
    Ranked (phase4 h3).1.pages roots := by
  obtain ⟨hwf, hdisj, hra, hslv, hdw, hrc⟩ := hinv
  obtain ⟨hinv2, hrel⟩ := phase4_swinv h3 ⟨hwf, hdisj, hra, hslv, hdw, hrc⟩
  obtain ⟨hRR, hRS, hSL⟩ := hr
  have hshape := shapesOf_phase4 h3
  have hmg4 : ∀ q pi s, marksGo h3.pages q pi s →
      (∀ pg3, h3.pages.get? pi = some pg3 →
        (pg3.page.containsInfo q).found = .inRangeUnallocated ∨
        pg3.liveStarts.getD s false = true) →
      marksGo (phase4 h3).1.pages q pi s := by
    intro q pi s hmg hsafe
    obtain ⟨pg3, hpg3, hbefore, hneq, hsl⟩ := marksGo_elim h3.pages q pi s hmg
    have hsafe2 : (pg3.page.containsInfo q).found = .notInRange ∨
        (pg3.page.containsInfo q).found = .inRangeUnallocated ∨
        (((pg3.page.containsInfo q).found = .inRangeAllocatedStart ∨
          (pg3.page.containsInfo q).found = .inRangeAllocatedMiddle) ∧
         pg3.liveStarts.getD (pg3.page.containsInfo q).startLocation false = true) := by
      rcases hsafe pg3 hpg3 with h1 | h1
      · exact Or.inr (Or.inl h1)
      · cases hf : (pg3.page.containsInfo q).found with
        | notInRange => exact Or.inl rfl
        | inRangeUnallocated => exact Or.inr (Or.inl rfl)
        | inRangeAllocatedStart =>
          exact Or.inr (Or.inr ⟨Or.inl rfl, by rw [hsl]; exact h1⟩)
        | inRangeAllocatedMiddle =>
          exact Or.inr (Or.inr ⟨Or.inr rfl, by rw [hsl]; exact h1⟩)
    obtain ⟨pg4, hpg4, hciq, hbitsq⟩ := phase4_keep_page h3 hwf pi pg3 hpg3 q hsafe2
    have hbefore4 : ∀ pj pgj4, pj < pi → (phase4 h3).1.pages.get? pj = some pgj4 →
        pgj4.page.contains q = false := by
      intro pj pgj4 hlt hgj4
      cases hB : h3.pages.get? pj with
      | none =>
        exfalso
        have hlen := shapesOf_len _ _ hshape
        obtain ⟨hlt2, -⟩ := List.get?_eq_some.mp hgj4
        rw [List.get?_eq_none] at hB
        omega
      | some pgj3 =>
        rw [contains_of_shapes _ _ hshape pj pgj4 pgj3 hgj4 hB q]
        exact hbefore pj pgj3 hlt hB
    have hcont4 : pg4.page.contains q = true := by
      apply contains_true_of_found
      rw [hciq]
      exact hneq
    have hmgf := marksGo_of_contains (phase4 h3).1.pages pi pg4 q hpg4 hbefore4 hcont4
    rw [show (pg4.page.containsInfo q).startLocation = s from by
      rw [hciq]; exact hsl] at hmgf
    exact hmgf
  have hsurvive : ∀ posj dpj, getRec h3.pages posj = some dpj → 0 < dpj.level →
      ∃ posj2, getRec (phase4 h3).1.pages posj2 = some dpj := by
    intro posj dpj hgj hlvj
    cases hBj : h3.pages.get? posj.1 with
    | none =>
      exfalso
      unfold getRec at hgj
      rw [hBj] at hgj
      exact Option.noConfusion hgj
    | some pgj3 =>
      have hdpj3 : dpj ∈ pgj3.dptrs := by
        unfold getRec at hgj
        rw [hBj] at hgj
        exact List.get?_mem hgj
      obtain ⟨pgjS, hgjS, -, -, hsurv⟩ := hrel posj.1 pgj3 hBj
      have hdpjS : dpj ∈ pgjS.dptrs := hsurv dpj hdpj3 hlvj
      obtain ⟨rj, hrj⟩ := List.get?_of_mem hdpjS
      refine ⟨(posj.1, rj), ?_⟩
      unfold getRec
      rw [hgjS]
      exact hrj
  refine ⟨?_, ?_, ?_⟩
  · intro pi pg4 hpg4 dp hdp hlv
    obtain ⟨-, -, hsub⟩ := phase4_invariants h3
    obtain ⟨pg3, hpg3, hdp3⟩ := hsub pi pg4 hpg4
    have hdpm3 : dp ∈ pg3.dptrs := hdp3 dp hdp
    obtain ⟨q, hq, hmg, hrm⟩ := hRR pi pg3 hpg3 dp hdpm3 hlv
    have hsafedp : (pg3.page.containsInfo dp.addr).found = .notInRange ∨
        (pg3.page.containsInfo dp.addr).found = .inRangeUnallocated ∨
        (((pg3.page.containsInfo dp.addr).found = .inRangeAllocatedStart ∨
          (pg3.page.containsInfo dp.addr).found = .inRangeAllocatedMiddle) ∧
         pg3.liveStarts.getD (pg3.page.containsInfo dp.addr).startLocation false
           = true) :=
      Or.inr (Or.inr ⟨hra pg3 (List.get?_mem hpg3) dp hdpm3,
        hslv pi pg3 hpg3 dp hdpm3 hlv⟩)
    obtain ⟨pg4b, hpg4b, hcidp, -⟩ := phase4_keep_page h3 hwf pi pg3 hpg3 dp.addr hsafedp
    rw [hpg4] at hpg4b
    injection hpg4b with hEE
    subst hEE
    refine ⟨q, hq, ?_, ?_⟩
    · rw [hcidp]
      apply hmg4 q pi _ hmg
      intro pg3b hpg3b
      rw [hpg3] at hpg3b
      injection hpg3b with hEE2
      subst hEE2
      exact Or.inr (hslv pi pg3 hpg3 dp hdpm3 hlv)
    · rcases hrm with ⟨h1, r, hrr, hraw⟩ | ⟨hL2, posj, dpj, hgj, hlvj, hraw⟩
      · exact Or.inl ⟨h1, r, hrr, hraw⟩
      · obtain ⟨posj2, hgj2⟩ := hsurvive posj dpj hgj (by omega)
        exact Or.inr ⟨hL2, posj2, dpj, hgj2, hlvj, hraw⟩
  · intro pi pg4 i hpg4 hst4 hbit4
    cases hB : h3.pages.get? pi with
    | none =>
      exfalso
      have hlen := shapesOf_len _ _ hshape
      obtain ⟨hlt2, -⟩ := List.get?_eq_some.mp hpg4
      rw [List.get?_eq_none] at hB
      omega
    | some pg3 =>
      obtain ⟨pgS, hgS, hbits, hlocs, -⟩ := hrel pi pg3 hB
      rw [hpg4] at hgS
      injection hgS with hEE
      subst hEE
      have hst3 : pg3.page.isStart i = true := by
        have hv := of_decide_eq_true hst4
        rcases hlocs i with h1 | h1
        · unfold GPage.isStart
          rw [← h1] at *
          exact decide_eq_true hv
        · rw [h1] at hv
          cases hv
      have hbit3 : pg3.liveStarts.getD i false = true := by
        rw [← hbits]
        exact hbit4
      obtain ⟨q, hq, hmg, hbm⟩ := hRS pi pg3 i hB hst3 hbit3
      refine ⟨q, hq, ?_, ?_⟩
      · apply hmg4 q pi i hmg
        intro pg3b hpg3b
        rw [hB] at hpg3b
        injection hpg3b with hEE2
        subst hEE2
        exact Or.inr hbit3
      · rcases hbm with ⟨r, hrr, hraw⟩ | ⟨posj, dpj, hgj, hlvj, hraw⟩
        · exact Or.inl ⟨r, hrr, hraw⟩
        · obtain ⟨posj2, hgj2⟩ := hsurvive posj dpj hgj hlvj
          exact Or.inr ⟨posj2, dpj, hgj2, hlvj, hraw⟩
  · exact hinv2.2.2.2.1

theorem addrs_mem_transfer (A B : List DHPage) (ha : addrsOf A = addrsOf B)
    (pi : Nat) (pgA pgB : DHPage) (hA : A.get? pi = some pgA)
    (hB : B.get? pi = some pgB) (dp : NonRoot) (hdp : dp ∈ pgA.dptrs) :
    ∃ dpB ∈ pgB.dptrs, dpB.addr = dp.addr := by
  have h1 : (addrsOf A).get? pi = (addrsOf B).get? pi := by rw [ha]
  unfold addrsOf at h1
  rw [List.get?_map, List.get?_map, hA, hB] at h1
  simp only [Option.map_some', Option.some.injEq] at h1
  have h2 : dp.addr ∈ pgB.dptrs.map (fun dp => dp.addr) := by
    rw [← h1]
    exact List.mem_map_of_mem _ hdp
  obtain ⟨dpB, hdpB, heq⟩ := List.mem_map.mp h2
  exact ⟨dpB, hdpB, heq⟩

theorem get_of_len (A B : List DHPage) (hlen : A.length = B.length)
    (pi : Nat) (pgA : DHPage) (hA : A.get? pi = some pgA) :
    ∃ pgB, B.get? pi = some pgB := by
  obtain ⟨hlt, -⟩ := List.get?_eq_some.mp hA
  cases hB : B.get? pi with
  | none =>
    rw [List.get?_eq_none] at hB
    omega
  | some pgB => exact ⟨pgB, rfl⟩

theorem gpagesOf_len (A B : List DHPage) (hg : gpagesOf A = gpagesOf B) :
    A.length = B.length := by
  have := congrArg List.length hg
  unfold gpagesOf at this
  simpa using this

theorem recAlloc_of_projections (A B : List DHPage) (hg : gpagesOf A = gpagesOf B)
    (ha : addrsOf A = addrsOf B) (hr : RecAlloc B) : RecAlloc A := by
  intro pgA hpgA dp hdp
  obtain ⟨pi, hpi⟩ := List.get?_of_mem hpgA
  obtain ⟨pgB, hpiB⟩ := get_of_len A B (gpagesOf_len A B hg) pi pgA hpi
  obtain ⟨dpB, hdpB, haddr⟩ := addrs_mem_transfer A B ha pi pgA pgB hpi hpiB dp hdp
  have hpage := gpagesOf_get A B hg pi pgA pgB hpi hpiB
  rw [hpage, ← haddr]
  exact hr pgB (List.get?_mem hpiB) dpB hdpB

theorem recCovered_of_addrs (A B : List DHPage) (ha : addrsOf A = addrsOf B)
    (ds : List Destructor) (hc : RecCovered B ds) : RecCovered A ds := by
  intro pgA hpgA dp hdp
  obtain ⟨pi, hpi⟩ := List.get?_of_mem hpgA
  have hlen : A.length = B.length := by
    have := congrArg List.length ha
    unfold addrsOf at this
    simpa using this
  obtain ⟨pgB, hpiB⟩ := get_of_len A B hlen pi pgA hpi
  obtain ⟨dpB, hdpB, haddr⟩ := addrs_mem_transfer A B ha pi pgA pgB hpi hpiB dp hdp
  obtain ⟨d, hdm, hb1, hb2⟩ := hc pgB (List.get?_mem hpiB) dpB hdpB
  rw [haddr] at hb1 hb2
  exact ⟨d, hdm, hb1, hb2⟩

theorem dtorWithinGo_congr (A : List DHPage) :
    ∀ (B : List DHPage), gpagesOf A = gpagesOf B → ∀ d : Destructor,
      dtorWithinGo A d → dtorWithinGo B d := by
  induction A with
  | nil =>
    intro B hg d hd
    cases B with
    | nil => exact hd
    | cons b bs => cases hg
  | cons a as ih =>
    intro B hg d hd
    cases B with
    | nil => cases hg
    | cons b bs =>
      unfold gpagesOf at hg
      simp only [List.map_cons, List.cons.injEq] at hg
      obtain ⟨hpage, htail⟩ := hg
      unfold dtorWithinGo at hd ⊢
      by_cases hc : (a.page.containsInfo d.p).found ≠ .notInRange
      · rw [if_pos hc] at hd
        rw [if_pos (by rw [← hpage]; exact hc)]
        rw [← hpage]
        exact hd
      · rw [if_neg hc] at hd
        rw [if_neg (by rw [← hpage]; exact hc)]
        exact ih bs htail d hd

theorem dtorsWithin_of_gpages (A B : List DHPage) (hg : gpagesOf A = gpagesOf B)
    (ds : List Destructor) (hd : DtorsWithin A ds) : DtorsWithin B ds :=
  fun d hdm => dtorWithinGo_congr A B hg d (hd d hdm)

theorem collect_hprime (h : Heap) (hcwf : CollectWF h) :
    WfPages (collect h).1.pages ∧
    Ranked (collect h).1.pages h.roots ∧
    (∀ pi pg i, (collect h).1.pages.get? pi = some pg → pg.page.isStart i = true →
      pg.liveStarts.getD i false = true) ∧
    (∀ pg ∈ (collect h).1.pages, ∀ dp ∈ pg.dptrs, dp.raw ≠ 0 → 0 < dp.level) := by
  obtain ⟨hwf, hdisj, hra, hdwin, hrcov⟩ := hcwf
  have hg3 : gpagesOf (phase3 (afterMarking h)).1.pages = gpagesOf h.pages := by
    rw [gpagesOf_phase3, gpagesOf_afterMarking]
  have ha3 : addrsOf (phase3 (afterMarking h)).1.pages = addrsOf h.pages := by
    rw [addrsOf_phase3, addrsOf_afterMarking]
  have hs3 : shapesOf (phase3 (afterMarking h)).1.pages = shapesOf h.pages := by
    rw [shapesOf_phase3, shapesOf_afterMarking]
  have hwf3 : WfPages (phase3 (afterMarking h)).1.pages :=
    wfPages_phase3 (afterMarking h) (wfPages_afterMarking h hwf)
  have hdisj3 : pagesDisjoint (phase3 (afterMarking h)).1.pages :=
    pagesDisjoint_of_shapes h.pages _ hs3.symm hdisj
  have hra3 : RecAlloc (phase3 (afterMarking h)).1.pages :=
    recAlloc_of_projections _ h.pages hg3 ha3 hra
  have hranked3 : Ranked (phase3 (afterMarking h)).1.pages h.roots :=
    ranked_phase3 (afterMarking h) h.roots (ranked_afterMarking h hwf)
  have hdw3 : DtorsWithin (phase3 (afterMarking h)).1.pages h.dtors :=
    dtorsWithin_of_gpages h.pages _ hg3.symm h.dtors hdwin
  have hrc3 : RecCovered (phase3 (afterMarking h)).1.pages h.dtors :=
    recCovered_of_addrs _ h.pages ha3 h.dtors hrcov
  have hswinv : SweepInv (phase3 (afterMarking h)).1 :=
    ⟨hwf3, hdisj3, hra3, hranked3.2.2, hdw3, hrc3⟩
  have hcol : (collect h).1 = (phase4 (phase3 (afterMarking h)).1).1 := rfl
  refine ⟨?_, ?_, ?_, ?_⟩
  · rw [hcol]
    exact (phase4_swinv _ hswinv).1.1
  · rw [hcol]
    exact ranked_phase4 _ h.roots hswinv hranked3
  · intro pi pg i hget hst
    rw [hcol] at hget
    exact phase4_post1 _ hwf3 pi pg i hget hst
  · intro pg2 hpg2 dp hdp hraw
    rw [hcol] at hpg2
    obtain ⟨pi, hpi⟩ := List.get?_of_mem hpg2
    obtain ⟨-, -, hsub⟩ := phase4_invariants (phase3 (afterMarking h)).1
    obtain ⟨pgB, hpgB, hmem⟩ := hsub pi pg2 hpi
    rcases phase3_record_cases (afterMarking h) pgB dp (List.get?_mem hpgB)
        (hmem dp hdp) with hz | ⟨pg3, dp2, -, -, hlv2, heq2⟩
    · exact absurd hz hraw
    · rw [heq2]
      exact hlv2

theorem markEffectGo_at (A : List DHPage) :
    ∀ pi s q, marksGo A q pi s → markEffectGo A q →
      ∃ pg, A.get? pi = some pg ∧ pg.liveStarts.getD s false = true ∧
        ∀ dp ∈ pg.dptrs, (pg.page.containsInfo dp.addr).startLocation = s →
          0 < dp.level := by
  induction A with
  | nil =>
    intro pi s q hm
    cases pi <;> exact absurd hm (fun x => x)
  | cons a as ih =>
    intro pi s q hm hme
    unfold markEffectGo at hme
    cases pi with
    | zero =>
      obtain ⟨h1, h2⟩ := hm
      rw [if_pos h1] at hme
      refine ⟨a, rfl, ?_, ?_⟩
      · rw [← h2]
        exact hme.1
      · intro dp hdp hsl
        exact hme.2 dp hdp (hsl.trans h2.symm)
    | succ pi =>
      obtain ⟨h1, h2⟩ := hm
      rw [if_neg h1] at hme
      exact ih pi s q h2 hme

theorem remark_pos (hp : Heap) (hwf : WfPages hp.pages)
    (hrk : RankedRec hp.pages hp.roots) :
    ∀ lv pos dp, getRec hp.pages pos = some dp → dp.level = lv → 0 < lv →
      ∃ dp2, getRec (afterMarking hp).pages pos = some dp2 ∧ 0 < dp2.level ∧
        dp2.raw = dp.raw ∧ dp2.addr = dp.addr := by
  intro lv
  induction lv using Nat.strong_induction_on with
  | _ lv ih =>
    intro pos dp hget hlveq hpos
    cases hB : hp.pages.get? pos.1 with
    | none =>
      exfalso
      unfold getRec at hget
      rw [hB] at hget
      exact Option.noConfusion hget
    | some pg =>
      have hdpm : dp ∈ pg.dptrs := by
        unfold getRec at hget
        rw [hB] at hget
        exact List.get?_mem hget
      obtain ⟨q, hq, hmg, hrm⟩ := hrk pos.1 pg hB dp hdpm (by omega)
      have hme : markEffectGo (afterMarking hp).pages q := by
        rcases hrm with ⟨hlv1, r, hrr, hraw⟩ | ⟨hlv2, posj, dpj, hgj, hlvj, hraw⟩
        · have h0 := afterMarking_roots_effect hp hwf r hrr
          rw [hraw] at h0
          unfold MarkEffect at h0
          rcases h0 with h0 | h0
          · exact absurd h0 hq
          · exact h0
        · have hjpos : 0 < dpj.level := by omega
          have hjlt : dpj.level < lv := by omega
          obtain ⟨dpj2, hgj2, hjpos2, hjraw, -⟩ := ih dpj.level hjlt posj dpj hgj rfl hjpos
          have h0 := afterMarking_saturated hp hwf posj dpj2 hgj2 hjpos2
          rw [hjraw, hraw] at h0
          unfold MarkEffect at h0
          rcases h0 with h0 | h0
          · exact absurd h0 hq
          · exact h0
      have hmg2 : marksGo (afterMarking hp).pages q pos.1
          ((pg.page.containsInfo dp.addr).startLocation) :=
        marksGo_congr hp.pages _ (gpagesOf_afterMarking hp).symm q pos.1 _ hmg
      obtain ⟨pgA, hpgA, hbit, hlev⟩ :=
        markEffectGo_at (afterMarking hp).pages pos.1 _ q hmg2 hme
      obtain ⟨dp2, hg2, haddr2, hraw2⟩ := getRec_of_projections (afterMarking hp).pages
        hp.pages (addrsOf_afterMarking hp) (rawsOf_afterMarking hp) pos dp hget
      have hdp2mem : dp2 ∈ pgA.dptrs := by
        unfold getRec at hg2
        rw [hpgA] at hg2
        exact List.get?_mem hg2
      have hpgpage : pgA.page = pg.page :=
        gpagesOf_get (afterMarking hp).pages hp.pages (gpagesOf_afterMarking hp)
          pos.1 pgA pg hpgA hB
      refine ⟨dp2, hg2, ?_, hraw2, haddr2⟩
      apply hlev dp2 hdp2mem
      rw [hpgpage, haddr2]

theorem remark_bit (hp : Heap) (hwf : WfPages hp.pages)
    (hrk : RankedRec hp.pages hp.roots) (hrs : RankedStart hp.pages hp.roots) :
    ∀ pi pg i, hp.pages.get? pi = some pg → pg.page.isStart i = true →
      pg.liveStarts.getD i false = true →
      ∃ pgA, (afterMarking hp).pages.get? pi = some pgA ∧
        pgA.liveStarts.getD i false = true := by
  intro pi pg i hpg hst hbit
  obtain ⟨q, hq, hmg, hbm⟩ := hrs pi pg i hpg hst hbit
  have hme : markEffectGo (afterMarking hp).pages q := by
    rcases hbm with ⟨r, hrr, hraw⟩ | ⟨posj, dpj, hgj, hlvj, hraw⟩
    · have h0 := afterMarking_roots_effect hp hwf r hrr
      rw [hraw] at h0
      unfold MarkEffect at h0
      rcases h0 with h0 | h0
      · exact absurd h0 hq
      · exact h0
    · obtain ⟨dpj2, hgj2, hjpos2, hjraw, -⟩ :=
        remark_pos hp hwf hrk dpj.level posj dpj hgj rfl hlvj
      have h0 := afterMarking_saturated hp hwf posj dpj2 hgj2 hjpos2
      rw [hjraw, hraw] at h0
      unfold MarkEffect at h0
      rcases h0 with h0 | h0
      · exact absurd h0 hq
      · exact h0
  have hmg2 := marksGo_congr hp.pages _ (gpagesOf_afterMarking hp).symm q pi i hmg
  obtain ⟨pgA, hpgA, hbitA, -⟩ := markEffectGo_at (afterMarking hp).pages pi i q hmg2 hme
  exact ⟨pgA, hpgA, hbitA⟩

theorem foldl_sweepLoc_id (h3 : Heap)
    (hns : ∀ pi pg i, h3.pages.get? pi = some pg → pg.page.isStart i = true →
      pg.liveStarts.getD i false = true) (ps : List (Nat × Nat)) :
    ∀ e : List Ev, ps.foldl sweepLoc (h3, e) = (h3, e) := by
  induction ps with
  | nil =>
    intro e
    rfl
  | cons p rest ih =>
    intro e
    rw [List.foldl_cons]
    have hstep : sweepLoc (h3, e) p = (h3, e) := by
      unfold sweepLoc
      dsimp only
      cases hg : h3.pages.get? p.1 with
      | none => rfl
      | some pg =>
        dsimp only
        rw [if_neg (show ¬ (pg.page.isStart p.2 = true ∧
            pg.liveStarts.getD p.2 false = false) from fun hcond => by
          have hb := hns p.1 pg p.2 hg hcond.1
          rw [hcond.2] at hb
          cases hb)]
    rw [hstep]
    exact ih e

theorem phase4_id (h3 : Heap)
    (hns : ∀ pi pg i, h3.pages.get? pi = some pg → pg.page.isStart i = true →
      pg.liveStarts.getD i false = true) : phase4 h3 = (h3, []) := by
  unfold phase4
  exact foldl_sweepLoc_id h3 hns (sweepPositions h3.pages) []

theorem rawsOf_phase3_of_null (h2 : Heap)
    (hz : ∀ pg ∈ h2.pages, ∀ dp ∈ pg.dptrs, dp.level = 0 → dp.raw = 0) :
    rawsOf (phase3 h2).1.pages = rawsOf h2.pages := by
  unfold phase3 rawsOf
  dsimp only
  rw [List.map_map]
  apply List.map_congr_left
  intro pg hpg
  show (pg.dptrs.map (fun dp =>
    if dp.level = 0 then { dp with raw := 0 } else dp)).map (fun dp => dp.raw) = _
  rw [List.map_map]
  apply List.map_congr_left
  intro dp hdp
  simp only [Function.comp]
  by_cases hlv : dp.level = 0
  · rw [if_pos hlv]
    exact (hz pg hpg dp hdp hlv).symm
  · rw [if_neg hlv]

theorem collect_idem_core (hp : Heap) (hwf : WfPages hp.pages)
    (hrk : RankedRec hp.pages hp.roots) (hrs : RankedStart hp.pages hp.roots)
    (hpost1 : ∀ pi pg i, hp.pages.get? pi = some pg → pg.page.isStart i = true →
      pg.liveStarts.getD i false = true)
    (hp3 : ∀ pg ∈ hp.pages, ∀ dp ∈ pg.dptrs, dp.raw ≠ 0 → 0 < dp.level) :
    heapObs (collect hp).1 = heapObs hp := by
  have hnosweep : ∀ pi pg i, (phase3 (afterMarking hp)).1.pages.get? pi = some pg →
      pg.page.isStart i = true → pg.liveStarts.getD i false = true := by
    intro pi pg3 i hpg3 hst
    obtain ⟨pgA, hpgA, heq3⟩ := phase3_get_bwd (afterMarking hp) pi pg3 hpg3
    subst heq3
    cases hB : hp.pages.get? pi with
    | none =>
      exfalso
      have hlen := gpagesOf_len (afterMarking hp).pages hp.pages (gpagesOf_afterMarking hp)
      obtain ⟨hlt, -⟩ := List.get?_eq_some.mp hpgA
      rw [List.get?_eq_none] at hB
      omega
    | some pgH =>
      have hpage : pgA.page = pgH.page :=
        gpagesOf_get _ _ (gpagesOf_afterMarking hp) pi pgA pgH hpgA hB
      have hstH : pgH.page.isStart i = true := by
        rw [← hpage]
        exact hst
      have hbitH : pgH.liveStarts.getD i false = true := hpost1 pi pgH i hB hstH
      obtain ⟨pgA2, hpgA2, hbitA2⟩ := remark_bit hp hwf hrk hrs pi pgH i hB hstH hbitH
      rw [hpgA] at hpgA2
      injection hpgA2 with hEE
      rw [← hEE] at hbitA2
      exact hbitA2
  have hid := phase4_id (phase3 (afterMarking hp)).1 hnosweep
  have hcol : (collect hp).1 = (phase3 (afterMarking hp)).1 := by
    show (phase4 (phase3 (afterMarking hp)).1).1 = _
    rw [hid]
  have hz : ∀ pg ∈ (afterMarking hp).pages, ∀ dp ∈ pg.dptrs,
      dp.level = 0 → dp.raw = 0 := by
    intro pgA hpgA dp hdp hlv
    by_contra hraw
    obtain ⟨pi, hpi⟩ := List.get?_of_mem hpgA
    obtain ⟨ri, hri⟩ := List.get?_of_mem hdp
    have hgA : getRec (afterMarking hp).pages (pi, ri) = some dp := by
      unfold getRec
      rw [hpi]
      exact hri
    obtain ⟨dpH, hgH, haddrH, hrawH⟩ := getRec_of_projections hp.pages
      (afterMarking hp).pages (addrsOf_afterMarking hp).symm
      (rawsOf_afterMarking hp).symm (pi, ri) dp hgA
    cases hBH : hp.pages.get? pi with
    | none =>
      unfold getRec at hgH
      rw [hBH] at hgH
      exact Option.noConfusion hgH
    | some pgH =>
      have hdpHm : dpH ∈ pgH.dptrs := by
        unfold getRec at hgH
        rw [hBH] at hgH
        exact List.get?_mem hgH
      have hposH : 0 < dpH.level := hp3 pgH (List.get?_mem hBH) dpH hdpHm (by
        rw [hrawH]
        exact hraw)
      obtain ⟨dp2, hg2, hpos2, -, -⟩ := remark_pos hp hwf hrk dpH.level (pi, ri)
        dpH hgH rfl hposH
      rw [hgA] at hg2
      injection hg2 with hEE
      rw [← hEE, hlv] at hpos2
      exact absurd hpos2 (lt_irrefl 0)
  have hg3 : gpagesOf (phase3 (afterMarking hp)).1.pages = gpagesOf hp.pages := by
    rw [gpagesOf_phase3, gpagesOf_afterMarking]
  have ha3 : addrsOf (phase3 (afterMarking hp)).1.pages = addrsOf hp.pages := by
    rw [addrsOf_phase3, addrsOf_afterMarking]
  have hr3 : rawsOf (phase3 (afterMarking hp)).1.pages = rawsOf hp.pages := by
    rw [rawsOf_phase3_of_null (afterMarking hp) hz, rawsOf_afterMarking]
  have hpairs := pairs_of_projections _ hp.pages ha3 hr3
  rw [hcol]
  unfold heapObs
  rw [hg3, hpairs]
  rfl

/-! ## Claim C9: idempotence of collect -/

/-- C9: for a well-formed heap — structurally sound, pairwise-disjoint pages,
records at allocated bytes of their own pages, destructor ranges inside a
single allocation, and every record covered by a destructor entry, all
facts `deferred_heap`'s allocation paths maintain — running `collect()`
twice in a row with no intervening operation yields the same heap state
after the second call as after the first: the same pages with the same
byte-level occupancy, the same root set, the same non-root lists with the
same raw values, and the same destructor registry.  The second collection
re-marks exactly the survivors of the first (their levels and live bits are
justified by chains of mark calls from the unchanged roots), so its phase 3
nulls nothing new and its phase 4 finds no unmarked allocation start to
destroy or deallocate. -/
theorem c9_collect_idempotent (h : Heap) (hwf : CollectWF h) :
    heapObs (collect (collect h).1).1 = heapObs (collect h).1 := by
  obtain ⟨hwf1, hranked1, hpost1, hp3⟩ := collect_hprime h hwf
  have hroots := collect_roots h
  have hrk : RankedRec (collect h).1.pages (collect h).1.roots := by
    rw [hroots]
    exact hranked1.1
  have hrs : RankedStart (collect h).1.pages (collect h).1.roots := by
    rw [hroots]
    exact hranked1.2.1
  exact collect_idem_core (collect h).1 hwf1 hrk hrs hpost1 hp3

/-- C9 witness: idempotence at the dropped three-cycle heap, whose
well-formedness is decided by evaluation. -/
theorem c9_collect_idempotent_witness :
    CollectWF hDroppedCycle ∧
    heapObs (collect (collect hDroppedCycle).1).1 =
      heapObs (collect hDroppedCycle).1 :=
  ⟨by decide, c9_collect_idempotent hDroppedCycle (by decide)⟩

end Gcpp
